import Mathlib

/-!
# MovieNight chat history store (`chathistory.go`)

A shallow embedding of `ChatHistory` and its methods `AddMessage`,
`GetRecentMessages`, `Load`, `Save`, `Clear` and of `NewChatHistory`.

* The receiver `ch *ChatHistory` is passed in and handed back explicitly.
* `ch.mutex` is a piece of state: acquiring it when it is not available makes
  the call end in `Outcome.blocked` (the goroutine is parked at that point).
* The file system is a map from paths to nodes; failures of `os.WriteFile` and
  `os.Rename` are injected through `Faults`.
* The collaborators that live outside `chathistory.go` (package `common`,
  `settings`, `files.JoinRunPath`, `encoding/json`) are parameters.
* The calls to `common.LogErrorf` / `common.LogInfof` have no effect on the
  store or the file system and are left out.
-/

set_option autoImplicit false

namespace MovieNight

/-! ## Data model -/

/-- Go `[]byte`; also `json.RawMessage`. -/
abbrev Bytes := List UInt8

/-- Go `error` values, represented by their message. -/
abbrev Err := String

/-- The type `common.DataType` (`type DataType int`). -/
abbrev DataType := Int

/-- A `time.Time` value, kept as its calendar reading together with the zone
offset (minutes east of UTC) in which it is presented. -/
structure Time where
  year : Int
  month : Nat
  day : Nat
  hour : Nat
  minute : Nat
  second : Nat
  nsec : Nat
  offset : Int
deriving DecidableEq, Repr

/-- The struct `HistoryMessage`; the field `Type` is spelled `Typ`. -/
structure HistoryMessage where
  Timestamp : Time
  Typ : DataType
  Data : Bytes
  HTML : String
deriving DecidableEq, Repr

/-- State of a `sync.RWMutex`: whether a writer holds it and how many readers do. -/
structure RWMutex where
  writer : Bool
  readers : Nat
deriving DecidableEq, Repr

/-- The zero value of `sync.RWMutex`: nobody holds it. -/
def RWMutex.free : RWMutex := ⟨false, 0⟩

/-- `Lock`: succeeds only when neither a writer nor a reader holds the mutex;
`none` means the caller blocks. -/
def RWMutex.Lock (m : RWMutex) : Option RWMutex :=
  if m.writer = false ∧ m.readers = 0 then some ⟨true, 0⟩ else none

/-- `Unlock` of a mutex held for writing. -/
def RWMutex.Unlock (m : RWMutex) : RWMutex := { m with writer := false }

/-- `RLock`: succeeds unless a writer holds the mutex; `none` means the caller blocks. -/
def RWMutex.RLock (m : RWMutex) : Option RWMutex :=
  if m.writer = true then none else some { m with readers := m.readers + 1 }

/-- `RUnlock` of a mutex held for reading. -/
def RWMutex.RUnlock (m : RWMutex) : RWMutex := { m with readers := m.readers - 1 }

/-- The struct `ChatHistory`. -/
structure ChatHistory where
  Messages : List HistoryMessage
  mutex : RWMutex
  filename : String
deriving DecidableEq, Repr

/-- The struct `common.ChatData`, over the type `D` of its `Data` interface values. -/
structure ChatData (D : Type) where
  Typ : DataType
  Data : D
deriving DecidableEq, Repr

/-- The struct `common.ChatDataJSON`. -/
structure ChatDataJSON where
  Typ : DataType
  Data : Bytes
deriving DecidableEq, Repr

/-- What `chathistory.go` uses of package `common`: the constant `DTEvent`,
`ChatData.ToJSON`, the `HTML()` method of the data interface and
`ChatDataJSON.ToData`. -/
structure Common (D : Type) where
  DTEvent : DataType
  ToJSON : ChatData D → Except Err ChatDataJSON
  HTML : D → String
  ToData : ChatDataJSON → Except Err (ChatData D)

/-- The fields of the global `settings` that `AddMessage` reads. -/
structure Settings where
  ChatHistory : Bool
  MaxMessageCount : Int

/-- What `chathistory.go` uses of `encoding/json`, on a `*ChatHistory`: only the
exported field `Messages` is visible to it. `Unmarshal` is given the bytes and
the current `Messages`; it hands back the `Messages` it leaves behind together
with its error, if any. -/
structure JSON where
  MarshalIndent : List HistoryMessage → Except Err Bytes
  Unmarshal : Bytes → List HistoryMessage → List HistoryMessage × Option Err

/-- How a call ends: it returns, the goroutine blocks on the mutex (with the
state `σ` reached at that point), or it panics. -/
inductive Outcome (σ α : Type) where
  | ret (a : α)
  | blocked (s : σ)
  | panic (msg : String)
deriving DecidableEq, Repr

/-- Two's-complement wrap-around of Go's 64-bit `int`. -/
def intWrap (x : Int) : Int := (x + 2 ^ 63) % 2 ^ 64 - 2 ^ 63

/-- The slice expression `s[lo:]`: `none` when `lo` is out of range (run-time panic). -/
def sliceFrom {α : Type} (s : List α) (lo : Int) : Option (List α) :=
  if 0 ≤ lo ∧ lo ≤ (s.length : Int) then some (s.drop lo.toNat) else none

/-! ## AddMessage -/

/-- What `AddMessage` hands back: the store and the number of `go ch.Save()`
goroutines it started. -/
structure AddResult where
  ch : ChatHistory
  saves : Nat
deriving DecidableEq, Repr

/-- The value `settings.MaxMessageCount * 2` of the local `maxMessages`. -/
def maxMessages (settings : Settings) : Int := intWrap (settings.MaxMessageCount * 2)

/-- The composite literal `HistoryMessage{...}` built in `AddMessage`. -/
def histMsg {D : Type} (cm : Common D) (chatData : ChatData D) (now : Time)
    (jsonData : ChatDataJSON) : HistoryMessage :=
  { Timestamp := now, Typ := chatData.Typ, Data := jsonData.Data, HTML := cm.HTML chatData.Data }

/-- The method `ChatHistory.AddMessage`; `now` is the value of `time.Now()`. With
`maxMessages < 0` the index `len(ch.Messages)-maxMessages` is above the length
(or wraps below zero): the slice expression panics either way. -/
def AddMessage {D : Type} (settings : Settings) (cm : Common D) (ch : ChatHistory)
    (chatData : ChatData D) (now : Time) : Outcome ChatHistory AddResult :=
  if settings.ChatHistory = false then .ret ⟨ch, 0⟩
  else
    match ch.mutex.Lock with
    | none => .blocked ch
    | some m =>
      match cm.ToJSON chatData with
      | .error _ => .ret ⟨{ ch with mutex := m.Unlock }, 0⟩
      | .ok jsonData =>
        let msgs := ch.Messages ++ [histMsg cm chatData now jsonData]
        if (msgs.length : Int) > maxMessages settings then
          match sliceFrom msgs ((msgs.length : Int) - maxMessages settings) with
          | none => .panic "slice bounds out of range"
          | some kept => .ret ⟨{ ch with Messages := kept, mutex := m.Unlock }, 1⟩
        else .ret ⟨{ ch with Messages := msgs, mutex := m.Unlock }, 1⟩

/-- A sequence of `AddMessage` calls, one per event, each with its own clock
reading; the started `Save` goroutines are counted. -/
def addAll {D : Type} (settings : Settings) (cm : Common D) :
    ChatHistory → List (ChatData D × Time) → Outcome ChatHistory AddResult
  | ch, [] => .ret ⟨ch, 0⟩
  | ch, e :: es =>
    match AddMessage settings cm ch e.1 e.2 with
    | .ret r =>
      match addAll settings cm r.ch es with
      | .ret r2 => .ret ⟨r2.ch, r.saves + r2.saves⟩
      | .blocked s => .blocked s
      | .panic p => .panic p
    | .blocked s => .blocked s
    | .panic p => .panic p

/-- The entry an accepted event turns into, `none` when `ToJSON` fails. -/
def entryOf {D : Type} (cm : Common D) (e : ChatData D × Time) : Option HistoryMessage :=
  match cm.ToJSON e.1 with
  | .error _ => none
  | .ok jsonData => some (histMsg cm e.1 e.2 jsonData)

/-- The last `k` elements of a list. -/
def lastN {α : Type} (k : Nat) (l : List α) : List α := l.drop (l.length - k)

/-! ## GetRecentMessages -/

/-- The `for` loop of `GetRecentMessages`, with `n` iterations to go at index `i`. -/
def recentLoop {D : Type} (cm : Common D) (Messages : List HistoryMessage) :
    Nat → Nat → List (ChatData D) → Outcome ChatHistory (List (ChatData D))
  | 0, _, messages => .ret messages
  | n + 1, i, messages =>
    match Messages[i]? with
    | none => .panic "index out of range"
    | some msg =>
      if msg.Typ = cm.DTEvent then recentLoop cm Messages n (i + 1) messages
      else
        match cm.ToData { Typ := msg.Typ, Data := msg.Data } with
        | .error _ => recentLoop cm Messages n (i + 1) messages
        | .ok chatData => recentLoop cm Messages n (i + 1) (messages ++ [chatData])

/-- The method `ChatHistory.GetRecentMessages`. -/
def GetRecentMessages {D : Type} (cm : Common D) (ch : ChatHistory) (count : Int) :
    Outcome ChatHistory (ChatHistory × List (ChatData D)) :=
  match ch.mutex.RLock with
  | none => .blocked ch
  | some m =>
    let len : Int := (ch.Messages.length : Int)
    let count := if count ≤ 0 ∨ count > len then len else count
    let startIdx := len - count
    match recentLoop cm ch.Messages (len - startIdx).toNat startIdx.toNat [] with
    | .ret messages => .ret ({ ch with mutex := m.RUnlock }, messages)
    | .blocked s => .blocked s
    | .panic p => .panic p

/-- What the loop body keeps of one entry: nothing for a `DTEvent` entry or a
failed `ToData`, the decoded event otherwise. -/
def replay {D : Type} (cm : Common D) (msg : HistoryMessage) : Option (ChatData D) :=
  if msg.Typ = cm.DTEvent then none
  else
    match cm.ToData { Typ := msg.Typ, Data := msg.Data } with
    | .error _ => none
    | .ok chatData => some chatData

/-- The decoding `ToData` gives for an entry, whatever its kind; `none` when it fails. -/
def decodeEntry {D : Type} (cm : Common D) (msg : HistoryMessage) : Option (ChatData D) :=
  match cm.ToData { Typ := msg.Typ, Data := msg.Data } with
  | .error _ => none
  | .ok chatData => some chatData

/-- The window size the spec gives `recent(count)`: `count` when
`0 < count ≤ |E|`, the whole of `E` otherwise. -/
def window (count : Int) (len : Nat) : Nat :=
  if 0 < count ∧ count ≤ (len : Int) then count.toNat else len

/-! ## The snapshot file: Load, Save, Clear, NewChatHistory -/

/-- What a path names: a regular file with its content, or something that
exists but cannot be read (a directory, a file without read permission). -/
inductive Node where
  | file (data : Bytes)
  | unreadable (err : Err)
deriving DecidableEq, Repr

/-- The file system: what each path names, if anything. -/
abbrev FS := String → Option Node

/-- The file system with `name` rebound. -/
def FS.set (fs : FS) (name : String) (node : Option Node) : FS :=
  fun p => if p = name then node else fs p

/-- Failure injection for the two mutating calls of `Save`. `write = some (e, left)`
makes `os.WriteFile` fail with `e`, leaving `left` at the path it was asked to
write (nothing, the old content, a truncated file, ...); `rename = some e`
makes `os.Rename` fail with `e`. -/
structure Faults where
  write : Option (Err × Option Node)
  rename : Option Err

/-- No injected failure. -/
def Faults.none : Faults := ⟨Option.none, Option.none⟩

/-- Whether `os.Stat(name)` gives an error for which `os.IsNotExist` holds. -/
def statIsNotExist (fs : FS) (name : String) : Bool := (fs name).isNone

/-- The call `os.ReadFile(name)`. -/
def ReadFile (fs : FS) (name : String) : Except Err Bytes :=
  match fs name with
  | none => .error "no such file or directory"
  | some (.file data) => .ok data
  | some (.unreadable e) => .error e

/-- The call `os.WriteFile(name, data, 0644)`. -/
def WriteFile (faults : Faults) (fs : FS) (name : String) (data : Bytes) : FS × Option Err :=
  match faults.write with
  | some (e, left) => (fs.set name left, some e)
  | none => (fs.set name (some (.file data)), none)

/-- The call `os.Rename(oldpath, newpath)`: atomic, so a failure changes nothing. -/
def Rename (faults : Faults) (fs : FS) (oldpath newpath : String) : FS × Option Err :=
  match faults.rename with
  | some e => (fs, some e)
  | none => ((fs.set newpath (fs oldpath)).set oldpath none, none)

/-- The method `ChatHistory.Load`. -/
def Load (json : JSON) (ch : ChatHistory) (fs : FS) :
    Outcome ChatHistory (ChatHistory × Option Err) :=
  match ch.mutex.Lock with
  | none => .blocked ch
  | some m =>
    if statIsNotExist fs ch.filename then .ret ({ ch with mutex := m.Unlock }, none)
    else
      match ReadFile fs ch.filename with
      | .error e =>
        .ret ({ ch with mutex := m.Unlock }, some ("error reading chat history file: " ++ e))
      | .ok data =>
        if data.length = 0 then .ret ({ ch with mutex := m.Unlock }, none)
        else
          match json.Unmarshal data ch.Messages with
          | (msgs, some e) =>
            .ret ({ ch with Messages := msgs, mutex := m.Unlock },
              some ("error unmarshaling chat history: " ++ e))
          | (msgs, none) => .ret ({ ch with Messages := msgs, mutex := m.Unlock }, none)

/-- The method `ChatHistory.Save`. -/
def Save (json : JSON) (faults : Faults) (ch : ChatHistory) (fs : FS) :
    Outcome (ChatHistory × FS) (ChatHistory × FS × Option Err) :=
  match ch.mutex.RLock with
  | none => .blocked (ch, fs)
  | some m =>
    match json.MarshalIndent ch.Messages with
    | .error e =>
      .ret ({ ch with mutex := m.RUnlock }, fs, some ("error marshaling chat history: " ++ e))
    | .ok data =>
      let tempFile := ch.filename ++ ".tmp"
      match WriteFile faults fs tempFile data with
      | (fs1, some e) =>
        .ret ({ ch with mutex := m.RUnlock }, fs1,
          some ("error writing chat history temp file: " ++ e))
      | (fs1, none) =>
        match Rename faults fs1 tempFile ch.filename with
        | (fs2, some e) =>
          .ret ({ ch with mutex := m.RUnlock }, fs2,
            some ("error renaming chat history temp file: " ++ e))
        | (fs2, none) => .ret ({ ch with mutex := m.RUnlock }, fs2, none)

/-- The method `ChatHistory.Clear`: `ch.Save()` runs while `ch.mutex` is held
for writing by `Clear` itself. -/
def Clear (json : JSON) (faults : Faults) (ch : ChatHistory) (fs : FS) :
    Outcome (ChatHistory × FS) (ChatHistory × FS × Option Err) :=
  match ch.mutex.Lock with
  | none => .blocked (ch, fs)
  | some m =>
    match Save json faults { ch with Messages := [], mutex := m } fs with
    | .ret (ch2, fs2, err) => .ret ({ ch2 with mutex := ch2.mutex.Unlock }, fs2, err)
    | .blocked s => .blocked s
    | .panic p => .panic p

/-- The store `NewChatHistory` builds before it calls `Load`. -/
def emptyStore (path : String) : ChatHistory :=
  { Messages := [], mutex := RWMutex.free, filename := path }

/-- The function `NewChatHistory`; `JoinRunPath` is `files.JoinRunPath`. The
value `ch.Load()` returns is dropped. -/
def NewChatHistory (JoinRunPath : String → String) (json : JSON) (filename : String)
    (fs : FS) : Outcome ChatHistory ChatHistory :=
  let filename := if filename = "" then "chat_history.json" else filename
  match Load json (emptyStore (JoinRunPath filename)) fs with
  | .ret (ch, _) => .ret ch
  | .blocked s => .blocked s
  | .panic p => .panic p

/-! ## A sample collaborator -/

/-- The UTF-8 bytes of a string (Go's `[]byte(s)`). -/
def utf8 (s : String) : Bytes := s.data.flatMap String.utf8EncodeChar

/-- The string whose characters are the given ASCII bytes. -/
def asciiString (b : Bytes) : String := String.mk (b.map (fun c => Char.ofNat c.toNat))

/-- Data of the sample events: a line of text, or a value that cannot be serialised. -/
inductive SampleData where
  | text (s : String)
  | unsupported
deriving DecidableEq, Repr

/-- Modelled from the spec: package `common` (the constant `DTEvent`,
`ChatData.ToJSON`, the `HTML()` method, `ChatDataJSON.ToData`) is not among the
sources. This stand-in is the collaborator section 6 of the spec describes: an
event has a kind tag, its data serialises to a payload (here the text between
double quotes), it renders to markup, and kind tag and payload give the event
back. Kind 3 plays `DTEvent`, kind 0 is invalid. It serves to run the
definitions on concrete inputs. -/
def sampleCommon : Common SampleData where
  DTEvent := 3
  ToJSON := fun cd =>
    match cd.Data with
    | .text s => .ok { Typ := cd.Typ, Data := utf8 ("\"" ++ s ++ "\"") }
    | .unsupported => .error "json: unsupported value"
  HTML := fun d =>
    match d with
    | .text s => "<span>" ++ s ++ "</span>"
    | .unsupported => ""
  ToData := fun j =>
    if j.Typ = 0 then .error "data type is invalid"
    else
      match j.Data with
      | 34 :: rest =>
        if rest.getLast? = some 34 then
          .ok { Typ := j.Typ, Data := .text (asciiString rest.dropLast) }
        else .error "invalid character"
      | _ => .error "invalid character"

/-- A clock reading on 2024-01-01 (UTC), `s` seconds after midnight. -/
def clock (s : Nat) : Time :=
  { year := 2024, month := 1, day := 1, hour := 0, minute := 0, second := s, nsec := 0,
    offset := 0 }

/-- A sample chat event (kind 1) with the given text. -/
def chat (s : String) : ChatData SampleData := { Typ := 1, Data := .text s }

/-- A sample join event (kind 3, the `DTEvent` of `sampleCommon`). -/
def joined (s : String) : ChatData SampleData := { Typ := 3, Data := .text s }

/-- Settings with capture enabled and `MaxMessageCount = 2`. -/
def sampleSettings : Settings := { ChatHistory := true, MaxMessageCount := 2 }

/-! ## A model of `encoding/json` on `*ChatHistory`

`encoding/json` and `time` are libraries, not part of `chathistory.go`; the
theorems about `Load`, `Save`, `Clear` and `NewChatHistory` on their own hold
for every `JSON`. What `Save` followed by `Load` gives back is a matter of the
codec, and is proved for the model below. The model follows the library on the
one type it is used with here, and its definitions can be run on concrete
snapshot files:
`json.MarshalIndent(ch, "", "  ")` is `Marshal` followed by `Indent`, a
`json.RawMessage` is validated and compacted when it is marshalled and is
handed the bytes of its value as they stand in the input when it is
unmarshalled, `time.Time` is written and read as a strict RFC 3339 string.
Error messages are indicative. Not modelled: the difference between a nil and
an empty slice, the nesting limit of the scanner, stale elements in the spare
capacity of `ch.Messages`. -/

namespace GoJSON

/-- JSON white space: space, tab, carriage return, line feed. -/
def isSpace (c : UInt8) : Bool := c = 32 || c = 9 || c = 13 || c = 10

/-- An ASCII decimal digit. -/
def isDigit (c : UInt8) : Bool := 48 ≤ c && c ≤ 57

/-- An ASCII hexadecimal digit. -/
def isHex (c : UInt8) : Bool := isDigit c || (97 ≤ c && c ≤ 102) || (65 ≤ c && c ≤ 70)

/-- The input without its leading white space. -/
def skipSpace : Bytes → Bytes
  | [] => []
  | c :: r => if isSpace c then skipSpace r else c :: r

/-- The input after the leading run of digits. -/
def skipDigits : Bytes → Bytes
  | [] => []
  | c :: r => if isDigit c then skipDigits r else c :: r

/-- Scanner, inside a string literal (opening quote read): what follows the
closing quote, `none` on a syntax error. -/
def scanString : Bytes → Option Bytes
  | [] => none
  | c :: r =>
    if c = 34 then some r
    else if c = 92 then
      match r with
      | [] => none
      | e :: r1 =>
        if e = 117 then
          match r1 with
          | h1 :: h2 :: h3 :: h4 :: r2 =>
            if isHex h1 && isHex h2 && isHex h3 && isHex h4 then scanString r2 else none
          | _ => none
        else if e = 34 || e = 92 || e = 47 || e = 98 || e = 102 || e = 110 || e = 114 || e = 116
        then scanString r1
        else none
    else if c < 32 then none
    else scanString r

/-- Scanner, exponent part of a number (optional). -/
def scanExp (b : Bytes) : Option Bytes :=
  match b with
  | c :: r =>
    if c = 101 || c = 69 then
      let r1 := match r with
        | s :: r0 => if s = 43 || s = 45 then r0 else r
        | [] => r
      match r1 with
      | d :: r2 => if isDigit d then some (skipDigits r2) else none
      | [] => none
    else some b
  | [] => some b

/-- Scanner, fraction and exponent parts of a number (both optional). -/
def scanFrac (b : Bytes) : Option Bytes :=
  match b with
  | c :: r =>
    if c = 46 then
      match r with
      | d :: r1 => if isDigit d then scanExp (skipDigits r1) else none
      | [] => none
    else scanExp b
  | [] => some b

/-- Scanner, a number literal: what follows it, `none` on a syntax error. -/
def scanNumber (b : Bytes) : Option Bytes :=
  let b1 := match b with
    | c :: r => if c = 45 then r else b
    | [] => b
  match b1 with
  | c :: r =>
    if c = 48 then scanFrac r
    else if 49 ≤ c && c ≤ 57 then scanFrac (skipDigits r)
    else none
  | [] => none

/-- What the scanner is reading: a value, the members of an object (after `{`
or `,`), the elements of an array (after `[` or `,`). -/
inductive Mode where
  | value
  | members
  | elems
deriving DecidableEq, Repr

/-- Scanner: what follows the value (the rest of the object, of the array) at
the head of the input, `none` on a syntax error. The input starts at a
non-space byte; `fuel` bounds the number of nested and chained calls. -/
def scan : Nat → Mode → Bytes → Option Bytes
  | 0, _, _ => none
  | fuel + 1, .value, b =>
    match b with
    | [] => none
    | c :: r =>
      if c = 123 then
        match skipSpace r with
        | d :: r1 => if d = 125 then some r1 else scan fuel .members (d :: r1)
        | [] => none
      else if c = 91 then
        match skipSpace r with
        | d :: r1 => if d = 93 then some r1 else scan fuel .elems (d :: r1)
        | [] => none
      else if c = 34 then scanString r
      else if c = 116 then
        match r with
        | 114 :: 117 :: 101 :: r1 => some r1
        | _ => none
      else if c = 102 then
        match r with
        | 97 :: 108 :: 115 :: 101 :: r1 => some r1
        | _ => none
      else if c = 110 then
        match r with
        | 117 :: 108 :: 108 :: r1 => some r1
        | _ => none
      else scanNumber b
  | fuel + 1, .members, b =>
    match b with
    | c :: r =>
      if c = 34 then
        match scanString r with
        | none => none
        | some r1 =>
          match skipSpace r1 with
          | d :: r2 =>
            if d = 58 then
              match scan fuel .value (skipSpace r2) with
              | none => none
              | some r3 =>
                match skipSpace r3 with
                | e :: r4 =>
                  if e = 44 then scan fuel .members (skipSpace r4)
                  else if e = 125 then some r4
                  else none
                | [] => none
            else none
          | [] => none
      else none
    | [] => none
  | fuel + 1, .elems, b =>
    match scan fuel .value b with
    | none => none
    | some r1 =>
      match skipSpace r1 with
      | e :: r2 =>
        if e = 44 then scan fuel .elems (skipSpace r2)
        else if e = 93 then some r2
        else none
      | [] => none

/-- What follows the JSON value at the head of the input. -/
def afterValue (b : Bytes) : Option Bytes := scan (b.length + 1) .value b

/-- The scanner accepts the input: one JSON value, white space around it. -/
def valid (data : Bytes) : Bool :=
  match afterValue (skipSpace data) with
  | none => false
  | some r => (skipSpace r).isEmpty

/-- The bytes of the JSON value at the head of a valid input, and what follows. -/
def rawValue (b : Bytes) : Bytes × Bytes :=
  match afterValue b with
  | none => (b, [])
  | some r => (b.take (b.length - r.length), r)

/-- A lower-case hexadecimal digit. -/
def hexDigit (n : Nat) : UInt8 := if n < 10 then (48 + n).toUInt8 else (87 + n).toUInt8

/-- The function `compact` with HTML escaping, on an input the scanner accepts:
white space outside strings is dropped, the bytes `<`, `>`, `&` and the
encodings of U+2028, U+2029 are written as `\u` escapes. `skip` counts the
bytes ahead that an escape already stands for. -/
def compact : Nat → Bool → Bool → Bytes → Bytes
  | _, _, _, [] => []
  | skip + 1, inStr, esc, _ :: r => compact skip inStr esc r
  | 0, inStr, esc, c :: r =>
    if c = 60 || c = 62 || c = 38 then
      [92, 117, 48, 48, hexDigit (c.toNat / 16), hexDigit (c.toNat % 16)] ++ compact 0 inStr false r
    else if c = 226 && (r.take 2 = [128, 168] || r.take 2 = [128, 169]) then
      [92, 117, 50, 48, 50, hexDigit ((r.getD 1 0).toNat % 16)] ++ compact 2 inStr false r
    else if inStr then
      if esc then c :: compact 0 true false r
      else if c = 92 then c :: compact 0 true true r
      else if c = 34 then c :: compact 0 false false r
      else c :: compact 0 true false r
    else if isSpace c then compact 0 false false r
    else if c = 34 then c :: compact 0 true false r
    else c :: compact 0 false false r

/-- A line break followed by `depth` indents of two spaces (`prefix = ""`, `indent = "  "`). -/
def newline (depth : Nat) : Bytes := 10 :: List.replicate (2 * depth) 32

/-- The function `Indent(dst, src, "", "  ")` on an input the scanner accepts. -/
def indent : Nat → Bool → Bool → Bool → Bytes → Bytes
  | _, _, _, _, [] => []
  | depth, needIndent, inStr, esc, c :: r =>
    if inStr then
      if esc then c :: indent depth needIndent true false r
      else if c = 92 then c :: indent depth needIndent true true r
      else if c = 34 then c :: indent depth needIndent false false r
      else c :: indent depth needIndent true false r
    else if isSpace c then indent depth needIndent false false r
    else if c = 125 || c = 93 then
      if needIndent then c :: indent depth false false false r
      else newline (depth - 1) ++ c :: indent (depth - 1) false false false r
    else
      let depth1 := if needIndent then depth + 1 else depth
      let lead := if needIndent then newline (depth + 1) else []
      if c = 123 || c = 91 then lead ++ c :: indent depth1 true false false r
      else if c = 44 then lead ++ c :: (newline depth1 ++ indent depth1 false false false r)
      else if c = 58 then lead ++ c :: 32 :: indent depth1 false false false r
      else if c = 34 then lead ++ c :: indent depth1 false true false r
      else lead ++ c :: indent depth1 false false false r

/-! ### Marshalling -/

/-- The `w` low decimal digits of `n`, most significant first. -/
def padded : Nat → Nat → Bytes
  | 0, _ => []
  | w + 1, n => padded w (n / 10) ++ [(48 + n % 10).toUInt8]

/-- The decimal digits of `n` (`fuel` bounds their number). -/
def natDigits : Nat → Nat → Bytes
  | 0, _ => []
  | fuel + 1, n =>
    if n < 10 then [(48 + n).toUInt8] else natDigits fuel (n / 10) ++ [(48 + n % 10).toUInt8]

/-- The function `strconv.AppendInt(_, i, 10)`. -/
def intBytes (i : Int) : Bytes :=
  if i < 0 then 45 :: natDigits (i.natAbs + 1) i.natAbs else natDigits (i.natAbs + 1) i.natAbs

/-- Leap years of the Gregorian calendar. -/
def isLeap (year : Int) : Bool := year % 4 = 0 && (year % 100 != 0 || year % 400 = 0)

/-- The function `daysIn` of package `time`. -/
def daysIn (month : Nat) (year : Int) : Nat :=
  if month = 2 then (if isLeap year then 29 else 28)
  else if month = 4 || month = 6 || month = 9 || month = 11 then 30
  else 31

/-- The reading is one a `time.Time` can present. -/
def isCalendar (t : Time) : Bool :=
  1 ≤ t.month && t.month ≤ 12 && 1 ≤ t.day && t.day ≤ daysIn t.month t.year &&
    t.hour < 24 && t.minute < 60 && t.second < 60 && t.nsec < 1000000000

/-- The list without its trailing `0` digits. -/
def trimZeros (b : Bytes) : Bytes := (b.reverse.dropWhile (fun c => c = 48)).reverse

/-- Fractional seconds of `RFC3339Nano`: nothing for zero, else `.` and up to
nine digits without trailing zeros. -/
def fracBytes (nsec : Nat) : Bytes := if nsec = 0 then [] else 46 :: trimZeros (padded 9 nsec)

/-- Zone of `RFC3339`: `Z` for offset zero, else sign, hours, `:`, minutes. -/
def zoneBytes (offset : Int) : Bytes :=
  if offset = 0 then [90]
  else (if offset < 0 then 45 else 43) ::
    (padded 2 (offset.natAbs / 60) ++ 58 :: padded 2 (offset.natAbs % 60))

/-- The zone hours do not fit `[0,23]`. -/
def offsetTooBig (offset : Int) : Bool := 24 ≤ offset.natAbs / 60

/-- The method `Time.MarshalJSON`. -/
def timeJSON (t : Time) : Except Err Bytes :=
  if !isCalendar t then .error "Time.MarshalJSON: not a time.Time value"
  else if t.year < 0 || t.year > 9999 then
    .error "Time.MarshalJSON: year outside of range [0,9999]"
  else if offsetTooBig t.offset then
    .error "Time.MarshalJSON: timezone hour outside of range [0,23]"
  else
    .ok (34 :: (padded 4 t.year.natAbs ++ 45 :: padded 2 t.month ++ 45 :: padded 2 t.day
      ++ 84 :: padded 2 t.hour ++ 58 :: padded 2 t.minute ++ 58 :: padded 2 t.second
      ++ fracBytes t.nsec ++ zoneBytes t.offset ++ [34]))

/-- The method `RawMessage.MarshalJSON` followed by the encoder's `compact`:
`null` for the nil message, an error for bytes the scanner rejects. -/
def rawJSON (m : Bytes) : Except Err Bytes :=
  if m.isEmpty then .ok [110, 117, 108, 108]
  else if valid m then .ok (compact 0 false false m)
  else .error "json: error calling MarshalJSON for type json.RawMessage: invalid JSON"

/-- One character of a string as the encoder writes it (HTML escaping on). -/
def quoteChar (ch : Char) : Bytes :=
  let n := ch.toNat
  if n = 34 || n = 92 then [92, n.toUInt8]
  else if n = 8 then [92, 98]
  else if n = 12 then [92, 102]
  else if n = 10 then [92, 110]
  else if n = 13 then [92, 114]
  else if n = 9 then [92, 116]
  else if n < 32 || n = 60 || n = 62 || n = 38 then
    [92, 117, 48, 48, hexDigit (n / 16), hexDigit (n % 16)]
  else if n = 8232 then [92, 117, 50, 48, 50, 56]
  else if n = 8233 then [92, 117, 50, 48, 50, 57]
  else String.utf8EncodeChar ch

/-- A Go string as a JSON string literal. -/
def quote (s : String) : Bytes := 34 :: (s.data.flatMap quoteChar ++ [34])

/-- The encoding of one `HistoryMessage`. -/
def marshalMessage (m : HistoryMessage) : Except Err Bytes :=
  match timeJSON m.Timestamp with
  | .error e => .error ("json: error calling MarshalJSON for type time.Time: " ++ e)
  | .ok t =>
    match rawJSON m.Data with
    | .error e => .error e
    | .ok d =>
      .ok (utf8 "\x7b\"timestamp\":" ++ t ++ utf8 ",\"type\":" ++ intBytes m.Typ
        ++ utf8 ",\"data\":" ++ d ++ utf8 ",\"html\":" ++ quote m.HTML ++ [125])

/-- The encodings of the messages, separated by commas. -/
def marshalMessages : List HistoryMessage → Except Err Bytes
  | [] => .ok []
  | m :: ms =>
    match marshalMessage m with
    | .error e => .error e
    | .ok b =>
      match ms, marshalMessages ms with
      | _, .error e => .error e
      | [], .ok _ => .ok b
      | _ :: _, .ok bs => .ok (b ++ 44 :: bs)

/-- The function `json.Marshal` on a `*ChatHistory`. -/
def Marshal (msgs : List HistoryMessage) : Except Err Bytes :=
  match marshalMessages msgs with
  | .error e => .error e
  | .ok b => .ok (utf8 "\x7b\"messages\":[" ++ b ++ [93, 125])

/-- The function `json.MarshalIndent(ch, "", "  ")`. -/
def MarshalIndent (msgs : List HistoryMessage) : Except Err Bytes :=
  match Marshal msgs with
  | .error e => .error e
  | .ok b => .ok (indent 0 false false false b)

/-! ### Unmarshalling -/

/-- A UTF-8 continuation byte. -/
def isCont (c : UInt8) : Bool := 128 ≤ c && c ≤ 191

/-- The function `utf8.DecodeRune` at the head of the input: the rune and its
width, `U+FFFD` with width 1 for an invalid encoding. -/
def decodeRune (b : Bytes) : Nat × Nat :=
  match b with
  | [] => (65533, 0)
  | b0 :: r =>
    let n0 := b0.toNat
    if n0 < 128 then (n0, 1)
    else if 194 ≤ n0 && n0 ≤ 223 then
      match r with
      | b1 :: _ => if isCont b1 then ((n0 - 192) * 64 + (b1.toNat - 128), 2) else (65533, 1)
      | _ => (65533, 1)
    else if 224 ≤ n0 && n0 ≤ 239 then
      match r with
      | b1 :: b2 :: _ =>
        let lo := if n0 = 224 then 160 else 128
        let hi := if n0 = 237 then 159 else 191
        if lo ≤ b1.toNat && b1.toNat ≤ hi && isCont b2 then
          ((n0 - 224) * 4096 + (b1.toNat - 128) * 64 + (b2.toNat - 128), 3)
        else (65533, 1)
      | _ => (65533, 1)
    else if 240 ≤ n0 && n0 ≤ 244 then
      match r with
      | b1 :: b2 :: b3 :: _ =>
        let lo := if n0 = 240 then 144 else 128
        let hi := if n0 = 244 then 143 else 191
        if lo ≤ b1.toNat && b1.toNat ≤ hi && isCont b2 && isCont b3 then
          ((n0 - 240) * 262144 + (b1.toNat - 128) * 4096 + (b2.toNat - 128) * 64
            + (b3.toNat - 128), 4)
        else (65533, 1)
      | _ => (65533, 1)
    else (65533, 1)

/-- The value of a hexadecimal digit. -/
def hexVal (c : UInt8) : Nat :=
  if isDigit c then c.toNat - 48 else if 97 ≤ c then c.toNat - 87 else c.toNat - 55

/-- The value of four hexadecimal digits. -/
def hex4 (a b c d : UInt8) : Nat := ((hexVal a * 16 + hexVal b) * 16 + hexVal c) * 16 + hexVal d

/-- The function `unquote` on the content of a string literal the scanner
accepted: escapes are resolved, a lone surrogate and an invalid UTF-8 byte
become `U+FFFD`. `skip` counts the bytes ahead that are already consumed. -/
def unquote : Nat → Bytes → List Char
  | _, [] => []
  | skip + 1, _ :: r => unquote skip r
  | 0, c :: r =>
    if c = 92 then
      match r with
      | [] => []
      | e :: r1 =>
        if e = 117 then
          match r1 with
          | h1 :: h2 :: h3 :: h4 :: r2 =>
            let u := hex4 h1 h2 h3 h4
            if 55296 ≤ u && u < 57344 then
              match r2 with
              | 92 :: 117 :: g1 :: g2 :: g3 :: g4 :: _ =>
                let u2 := hex4 g1 g2 g3 g4
                if u < 56320 && 56320 ≤ u2 && u2 < 57344 then
                  Char.ofNat (65536 + (u - 55296) * 1024 + (u2 - 56320)) :: unquote 11 r
                else Char.ofNat 65533 :: unquote 5 r
              | _ => Char.ofNat 65533 :: unquote 5 r
            else Char.ofNat u :: unquote 5 r
          | _ => []
        else if e = 98 then Char.ofNat 8 :: unquote 1 r
        else if e = 102 then Char.ofNat 12 :: unquote 1 r
        else if e = 110 then Char.ofNat 10 :: unquote 1 r
        else if e = 114 then Char.ofNat 13 :: unquote 1 r
        else if e = 116 then Char.ofNat 9 :: unquote 1 r
        else Char.ofNat e.toNat :: unquote 1 r
    else Char.ofNat (decodeRune (c :: r)).1 :: unquote ((decodeRune (c :: r)).2 - 1) r

/-- The content of a string literal, given the literal with its quotes. -/
def inner (lit : Bytes) : Bytes := (lit.drop 1).dropLast

/-- Case folding of object keys (`foldName`): ASCII letters in upper case, the
long s and the Kelvin sign as `S` and `K`. -/
def foldKey (key : List Char) : List Char :=
  key.map (fun ch =>
    if 97 ≤ ch.toNat && ch.toNat ≤ 122 then Char.ofNat (ch.toNat - 32)
    else if ch.toNat = 383 then 'S'
    else if ch.toNat = 8490 then 'K'
    else ch)

/-- The number a run of decimal digits stands for, `none` if it is empty or has
another byte. -/
def digitsVal (acc : Nat) : Bytes → Option Nat
  | [] => none
  | [c] => if isDigit c then some (acc * 10 + (c.toNat - 48)) else none
  | c :: d :: r => if isDigit c then digitsVal (acc * 10 + (c.toNat - 48)) (d :: r) else none

/-- The leading run of digits. -/
def takeDigits : Bytes → Bytes
  | [] => []
  | c :: r => if isDigit c then c :: takeDigits r else []

/-- Nanoseconds from the digits after the decimal point: the first nine count. -/
def nanos (digits : Bytes) : Nat :=
  match digitsVal 0 (digits.take 9) with
  | none => 0
  | some v => v * 10 ^ (9 - (digits.take 9).length)

/-- Zone of a strict RFC 3339 time: `Z`, or sign, two digits, `:`, two digits. -/
def parseZone (s : Bytes) : Option Int :=
  match s with
  | [90] => some 0
  | [sg, a, b, col, c, d] =>
    match digitsVal 0 [a, b], digitsVal 0 [c, d] with
    | some hr, some mm =>
      if (sg = 43 || sg = 45) && col = 58 && hr ≤ 23 && mm ≤ 59 then
        some (if sg = 45 then -((hr * 60 + mm : Nat) : Int) else ((hr * 60 + mm : Nat) : Int))
      else none
    | _, _ => none
  | _ => none

/-- The function `parseStrictRFC3339` of package `time`. -/
def parseTime (s : Bytes) : Option Time :=
  match s with
  | y1 :: y2 :: y3 :: y4 :: p1 :: m1 :: m2 :: p2 :: d1 :: d2 :: t :: h1 :: h2 :: c1 :: n1 :: n2
      :: c2 :: s1 :: s2 :: rest =>
    match digitsVal 0 [y1, y2, y3, y4], digitsVal 0 [m1, m2], digitsVal 0 [d1, d2],
      digitsVal 0 [h1, h2], digitsVal 0 [n1, n2], digitsVal 0 [s1, s2] with
    | some year, some month, some day, some hour, some minute, some second =>
      if p1 = 45 && p2 = 45 && t = 84 && c1 = 58 && c2 = 58 && 1 ≤ month && month ≤ 12
          && 1 ≤ day && day ≤ daysIn month (year : Int) && hour ≤ 23 && minute ≤ 59
          && second ≤ 59 then
        let hasFrac := match rest with
          | 46 :: d :: _ => isDigit d
          | _ => false
        let nsec := if hasFrac then nanos (takeDigits (rest.drop 1)) else 0
        let zone := if hasFrac then skipDigits (rest.drop 1) else rest
        match parseZone zone with
        | none => none
        | some offset =>
          some { year := (year : Int), month := month, day := day, hour := hour,
                 minute := minute, second := second, nsec := nsec, offset := offset }
      else none
    | _, _, _, _, _, _ => none
  | _ => none

/-- The function `strconv.ParseInt(s, 10, 64)` on a JSON number literal. -/
def parseInt (lit : Bytes) : Option Int :=
  let neg := lit.head? = some 45
  match digitsVal 0 (if neg then lit.drop 1 else lit) with
  | none => none
  | some v =>
    let i : Int := if neg then -(v : Int) else (v : Int)
    if -9223372036854775808 ≤ i && i ≤ 9223372036854775807 then some i else none

/-- Progress of a decoding: no error so far, a type error noted (decoding goes
on and the first such error is reported at the end), or an error of an
`UnmarshalJSON` method (decoding stops at once). -/
inductive St where
  | ok
  | saved (e : Err)
  | abort (e : Err)
deriving DecidableEq, Repr

/-- The method `saveError`: the first error is kept. -/
def St.save (st : St) (e : Err) : St :=
  match st with
  | .ok => .saved e
  | s => s

/-- The error `Unmarshal` returns. -/
def St.err (st : St) : Option Err :=
  match st with
  | .ok => none
  | .saved e => some e
  | .abort e => some e

/-- The fields of `HistoryMessage` by JSON name. -/
inductive Field where
  | timestamp
  | type
  | data
  | html
  | unknown
deriving DecidableEq, Repr

/-- The field an object key selects (exact or case-folded match). -/
def fieldOf (key : List Char) : Field :=
  let k := foldKey key
  if k = "TIMESTAMP".data then .timestamp
  else if k = "TYPE".data then .type
  else if k = "DATA".data then .data
  else if k = "HTML".data then .html
  else .unknown

/-- The words `encoding/json` uses for the kind of a JSON value in a type error. -/
def kindOf (b : Bytes) : String :=
  match b with
  | 123 :: _ => "object"
  | 91 :: _ => "array"
  | 34 :: _ => "string"
  | 116 :: _ => "bool"
  | 102 :: _ => "bool"
  | _ => "number"

/-- An `UnmarshalTypeError`: a JSON value of the given kind does not fit the target. -/
def typeError (b : Bytes) (target : String) : Err :=
  "json: cannot unmarshal " ++ kindOf b ++ " into Go " ++ target

/-- Decoding the JSON value at the head of `b` into one field of `old`. -/
def decodeField (f : Field) (old : HistoryMessage) (b : Bytes) (st : St) :
    HistoryMessage × Bytes × St :=
  let raw := (rawValue b).1
  let rest := (rawValue b).2
  match f with
  | .timestamp =>
    if raw = [110, 117, 108, 108] then (old, rest, st)
    else if raw.head? = some 34 then
      match parseTime (inner raw) with
      | some t => ({ old with Timestamp := t }, rest, st)
      | none => (old, rest, .abort "parsing time: not a strict RFC 3339 time")
    else (old, rest, .abort "Time.UnmarshalJSON: input is not a JSON string")
  | .type =>
    if raw.head? = some 110 then (old, rest, st)
    else if raw.head? = some 45 || (raw.head?.map isDigit) = some true then
      match parseInt raw with
      | some i => ({ old with Typ := i }, rest, st)
      | none => (old, rest, st.save (typeError raw "struct field HistoryMessage.type"))
    else (old, rest, st.save (typeError raw "struct field HistoryMessage.type"))
  | .data => ({ old with Data := raw }, rest, st)
  | .html =>
    if raw.head? = some 110 then (old, rest, st)
    else if raw.head? = some 34 then
      ({ old with HTML := String.mk (unquote 0 (inner raw)) }, rest, st)
    else (old, rest, st.save (typeError raw "struct field HistoryMessage.html"))
  | .unknown => (old, rest, st)

/-- Decoding the members of an object into a `HistoryMessage`; the input starts
at the first key. -/
def decodeFields : Nat → HistoryMessage → Bytes → St → HistoryMessage × Bytes × St
  | 0, m, _, st => (m, [], st)
  | fuel + 1, m, b, st =>
    match scanString (b.drop 1) with
    | none => (m, [], st)
    | some r1 =>
      let key := unquote 0 (inner (b.take (b.length - r1.length)))
      let r2 := skipSpace ((skipSpace r1).drop 1)
      match decodeField (fieldOf key) m r2 st with
      | (m1, r3, .abort e) => (m1, r3, .abort e)
      | (m1, r3, st1) =>
        match skipSpace r3 with
        | c :: r4 => if c = 44 then decodeFields fuel m1 (skipSpace r4) st1 else (m1, r4, st1)
        | [] => (m1, [], st1)

/-- The zero value of `HistoryMessage`. -/
def zeroMessage : HistoryMessage :=
  { Timestamp := { year := 1, month := 1, day := 1, hour := 0, minute := 0, second := 0,
                   nsec := 0, offset := 0 },
    Typ := 0, Data := [], HTML := "" }

/-- Decoding the JSON value at the head of `b` into a `HistoryMessage`. -/
def decodeMessage (old : HistoryMessage) (b : Bytes) (st : St) : HistoryMessage × Bytes × St :=
  match b with
  | 110 :: _ => (old, (rawValue b).2, st)
  | 123 :: r =>
    match skipSpace r with
    | 125 :: r1 => (old, r1, st)
    | r1 => decodeFields (b.length + 1) old r1 st
  | _ => (old, (rawValue b).2, st.save (typeError b "value of type main.HistoryMessage"))

/-- Decoding the elements of an array into `ch.Messages`: element `i` is decoded
into the element the slice holds at `i`, or into a zero value. `old` holds the
elements from `i` on, `done` the decoded ones. -/
def decodeElems : Nat → List HistoryMessage → List HistoryMessage → Bytes → St →
    List HistoryMessage × Bytes × St
  | 0, _, done, _, st => (done, [], st)
  | fuel + 1, old, done, b, st =>
    match decodeMessage (old.headD zeroMessage) b st with
    | (m, r, .abort e) => (done ++ m :: old.tail, r, .abort e)
    | (m, r, st1) =>
      match skipSpace r with
      | c :: r1 =>
        if c = 44 then decodeElems fuel old.tail (done ++ [m]) (skipSpace r1) st1
        else (done ++ [m], r1, st1)
      | [] => (done ++ [m], [], st1)

/-- Decoding the JSON value at the head of `b` into the field `Messages`. -/
def decodeMessages (old : List HistoryMessage) (b : Bytes) (st : St) :
    List HistoryMessage × Bytes × St :=
  match b with
  | 110 :: _ => ([], (rawValue b).2, st)
  | 91 :: r =>
    match skipSpace r with
    | 93 :: r1 => ([], r1, st)
    | r1 => decodeElems (b.length + 1) old [] r1 st
  | _ => (old, (rawValue b).2, st.save (typeError b "struct field ChatHistory.messages"))

/-- Decoding the members of the top-level object into the `ChatHistory`; the
input starts at the first key. -/
def decodeTop : Nat → List HistoryMessage → Bytes → St → List HistoryMessage × St
  | 0, msgs, _, st => (msgs, st)
  | fuel + 1, msgs, b, st =>
    match scanString (b.drop 1) with
    | none => (msgs, st)
    | some r1 =>
      let key := unquote 0 (inner (b.take (b.length - r1.length)))
      let r2 := skipSpace ((skipSpace r1).drop 1)
      let step := if foldKey key = "MESSAGES".data then decodeMessages msgs r2 st
        else (msgs, (rawValue r2).2, st)
      match step with
      | (msgs1, _, .abort e) => (msgs1, .abort e)
      | (msgs1, r3, st1) =>
        match skipSpace r3 with
        | c :: r4 => if c = 44 then decodeTop fuel msgs1 (skipSpace r4) st1 else (msgs1, st1)
        | [] => (msgs1, st1)

/-- The function `json.Unmarshal(data, ch)`: a syntax error leaves `ch` as it
is; otherwise the value is decoded into `ch`. -/
def Unmarshal (data : Bytes) (msgs : List HistoryMessage) : List HistoryMessage × Option Err :=
  if !valid data then (msgs, some "invalid character or unexpected end of JSON input")
  else
    match skipSpace data with
    | 110 :: _ => (msgs, none)
    | 123 :: r =>
      match skipSpace r with
      | 125 :: _ => (msgs, none)
      | r1 =>
        ((decodeTop (data.length + 1) msgs r1 .ok).1,
          (decodeTop (data.length + 1) msgs r1 .ok).2.err)
    | b => (msgs, some (typeError b "value of type main.ChatHistory"))

end GoJSON

/-- The model of `encoding/json` as a `JSON`. -/
def goJSON : JSON := { MarshalIndent := GoJSON.MarshalIndent, Unmarshal := GoJSON.Unmarshal }

/-! ## Auxiliary notions for the round trip of `Save` and `Load`

Notions of the proofs about the model of `encoding/json`, not parts of the
program: the grammar of the texts the scanner accepts, and the bytes of an
entry as `Marshal` writes them and as `Indent` lays them out. The statement
about `Save` followed by `Load` uses `laidOut` and `relaid` only, which name
what `MarshalIndent` makes of a payload. -/

namespace GoJSON

/-! ### The grammar the scanner accepts -/

/-- The content of a string literal as the scanner accepts it: bytes from
0x20 on other than `"` and `\`, two-byte escapes, `\u` with four hexadecimal
digits. -/
inductive StrBody : Bytes → Prop where
  | nil : StrBody []
  | plain (c : UInt8) (r : Bytes) : c ≠ 34 → c ≠ 92 → ¬ c < 32 → StrBody r → StrBody (c :: r)
  | esc (e : UInt8) (r : Bytes) :
      (e = 34 || e = 92 || e = 47 || e = 98 || e = 102 || e = 110 || e = 114 || e = 116) = true →
      StrBody r → StrBody (92 :: e :: r)
  | uni (h1 h2 h3 h4 : UInt8) (r : Bytes) :
      (isHex h1 && isHex h2 && isHex h3 && isHex h4) = true →
      StrBody r → StrBody (92 :: 117 :: h1 :: h2 :: h3 :: h4 :: r)

/-- What may follow a number literal: not a digit, `.`, `e` or `E`. -/
def Delim (t : Bytes) : Prop :=
  ∀ c r, t = c :: r → isDigit c = false ∧ c ≠ 46 ∧ c ≠ 101 ∧ c ≠ 69

/-- A byte of a number literal. -/
def numChar (c : UInt8) : Bool := isDigit c || c = 45 || c = 43 || c = 46 || c = 101 || c = 69

/-- A number literal: made of number bytes, starting with `-` or a digit, and
read in full by the scanner whatever delimiter follows. -/
def IsNum (n : Bytes) : Prop :=
  (∀ c ∈ n, numChar c = true) ∧ (∃ c r, n = c :: r ∧ (c = 45 ∨ isDigit c = true)) ∧
    ∀ t, Delim t → scanNumber (n ++ t) = some t

/-- A run of JSON white space. -/
def AllSpace (ws : Bytes) : Prop := ∀ c ∈ ws, isSpace c = true

/-- The texts the scanner reads in each mode: a value; the members of an object
from the first key to the closing brace; the elements of an array from the
first one to the closing bracket. -/
inductive Good : Mode → Bytes → Prop where
  | str (c : Bytes) : StrBody c → Good .value (34 :: (c ++ [34]))
  | num (n : Bytes) : IsNum n → Good .value n
  | litTrue : Good .value [116, 114, 117, 101]
  | litFalse : Good .value [102, 97, 108, 115, 101]
  | litNull : Good .value [110, 117, 108, 108]
  | emptyObj (ws : Bytes) : AllSpace ws → Good .value (123 :: (ws ++ [125]))
  | obj (ws m : Bytes) : AllSpace ws → Good .members m → Good .value (123 :: (ws ++ m))
  | emptyArr (ws : Bytes) : AllSpace ws → Good .value (91 :: (ws ++ [93]))
  | arr (ws e : Bytes) : AllSpace ws → Good .elems e → Good .value (91 :: (ws ++ e))
  | memberLast (k ws1 ws2 v ws3 : Bytes) : StrBody k → AllSpace ws1 → AllSpace ws2 →
      Good .value v → AllSpace ws3 →
      Good .members (34 :: (k ++ 34 :: (ws1 ++ 58 :: (ws2 ++ (v ++ (ws3 ++ [125]))))))
  | memberMore (k ws1 ws2 v ws3 ws4 m : Bytes) : StrBody k → AllSpace ws1 → AllSpace ws2 →
      Good .value v → AllSpace ws3 → AllSpace ws4 → Good .members m →
      Good .members (34 :: (k ++ 34 :: (ws1 ++ 58 :: (ws2 ++ (v ++ (ws3 ++ 44 :: (ws4 ++ m)))))))
  | elemLast (v ws : Bytes) : Good .value v → AllSpace ws → Good .elems (v ++ (ws ++ [93]))
  | elemMore (v ws1 ws2 e : Bytes) : Good .value v → AllSpace ws1 → AllSpace ws2 →
      Good .elems e → Good .elems (v ++ (ws1 ++ 44 :: (ws2 ++ e)))

/-- The depth `indent` is at after a text of the given mode: unchanged after a
value, one less after the closing bracket of members or elements. -/
def depthAfter (mode : Mode) (d : Nat) : Nat :=
  match mode with
  | .value => d
  | _ => d - 1

/-- The text after the seconds of an RFC 3339 time starts with a fraction: a
`.` followed by a digit. -/
def hasFrac (rest : Bytes) : Bool :=
  match rest with
  | 46 :: d :: _ => isDigit d
  | _ => false

/-- The key `timestamp`, without its quotes. -/
def keyTimestamp : Bytes := [116, 105, 109, 101, 115, 116, 97, 109, 112]

/-- The key `type`, without its quotes. -/
def keyType : Bytes := [116, 121, 112, 101]

/-- The key `data`, without its quotes. -/
def keyData : Bytes := [100, 97, 116, 97]

/-- The key `html`, without its quotes. -/
def keyHtml : Bytes := [104, 116, 109, 108]

/-- The key `messages`, without its quotes. -/
def keyMessages : Bytes := [109, 101, 115, 115, 97, 103, 101, 115]

/-- The bytes `Marshal` writes for an entry, followed by `t`: `tb` is the text
of the time, `n` the kind, `d` the payload, `qb` the text of the rendered form. -/
def entryText (tb n d qb t : Bytes) : Bytes :=
  123 :: 34 :: (keyTimestamp ++ 34 :: 58 :: 34 :: (tb ++ 34 :: 44 :: 34 :: (keyType ++ 34 :: 58 ::
    (n ++ 44 :: 34 :: (keyData ++ 34 :: 58 :: (d ++ 44 :: 34 :: (keyHtml ++ 34 :: 58 :: 34 ::
      (qb ++ 34 :: 125 :: t))))))))

/-- The bytes of an entry in the snapshot file, followed by `t`: one member a
line, six spaces in, the closing brace four spaces in; `x` is the payload as
it is laid out. -/
def entryLayout (tb n x qb t : Bytes) : Bytes :=
  123 :: (newline 3 ++ 34 :: (keyTimestamp ++ 34 :: 58 :: 32 :: 34 :: (tb ++ 34 :: 44 ::
    (newline 3 ++ 34 :: (keyType ++ 34 :: 58 :: 32 :: (n ++ 44 ::
      (newline 3 ++ 34 :: (keyData ++ 34 :: 58 :: 32 :: (x ++ 44 ::
        (newline 3 ++ 34 :: (keyHtml ++ 34 :: 58 :: 32 :: 34 :: (qb ++ 34 ::
          (newline 2 ++ 125 :: t)))))))))))))

end GoJSON

/-- The bytes `MarshalIndent` writes for the payload of an entry: `null` for a
nil payload, else the payload without its white space (what the encoder makes
of a `json.RawMessage`) in the layout `Indent` gives it at the depth of the
members of an entry. -/
def laidOut (d : Bytes) : Bytes :=
  if d.isEmpty then [110, 117, 108, 108]
  else GoJSON.indent 3 false false false (GoJSON.compact 0 false false d)

/-- The entry with its payload as `MarshalIndent` writes it. -/
def relaid (m : HistoryMessage) : HistoryMessage := { m with Data := laidOut m.Data }

/-! ## Scenarios -/

/-- The call of `Save` returned without an error. -/
def saveSucceeded (o : Outcome (ChatHistory × FS) (ChatHistory × FS × Option Err)) : Bool :=
  match o with
  | .ret (_, _, none) => true
  | _ => false

/-- The round trip of the spec: `Save` on `ch` and, when it succeeded, `Load`
into a fresh, empty store over the same path; `none` when `Save` did not
succeed or a call did not return. -/
def saveThenLoad (json : JSON) (faults : Faults) (ch : ChatHistory) (fs : FS) :
    Option (ChatHistory × Option Err) :=
  match Save json faults ch fs with
  | .ret (_, fs1, none) =>
    match Load json (emptyStore ch.filename) fs1 with
    | .ret r => some r
    | _ => none
  | _ => none

/-- The file system with no file at all. -/
def noFiles : FS := fun _ => none

/-- The file system whose only file is `name`, with the given content. -/
def oneFile (name : String) (data : Bytes) : FS := noFiles.set name (some (.file data))

/-- A store holding one chat entry whose payload is a compact JSON object. -/
def bobStore : ChatHistory :=
  { Messages := [{ Timestamp := clock 5, Typ := 1,
                   Data := utf8 "\x7b\"From\":\"bob\",\"Message\":\"hi\"\x7d",
                   HTML := "<span>bob: hi</span>" }],
    mutex := RWMutex.free, filename := "chat_history.json" }

/-- A store with two entries: one whose payload is a compact JSON object, one
with a nil payload and a time with a fraction and a zone. -/
def mixedStore : ChatHistory :=
  { Messages := [{ Timestamp := clock 5, Typ := 1,
                   Data := utf8 "\x7b\"From\":\"bob\",\"Message\":\"hi\"\x7d",
                   HTML := "<span>bob: hi</span>" },
                 { Timestamp := { year := 2024, month := 2, day := 29, hour := 23, minute := 59,
                                  second := 58, nsec := 120000000, offset := -330 },
                   Typ := -3, Data := [], HTML := "a \"b\"\n" }],
    mutex := RWMutex.free, filename := "chat_history.json" }

/-- A snapshot file in which the second entry has a string where its kind
should be: `Unmarshal` reports a type error after it has filled in the rest. -/
def badSnapshot : Bytes :=
  utf8 ("\x7b\"messages\":[\x7b\"type\":1,\"data\":\"A\",\"html\":\"a\"\x7d,"
    ++ "\x7b\"type\":\"x\",\"data\":\"B\",\"html\":\"b\"\x7d]\x7d")

/-- Modelled from the spec: `files.JoinRunPath` is not among the sources; the
spec has the snapshot name resolved relative to the runtime data directory.
This stand-in puts the name under a fixed directory. -/
def sampleRunPath (name : String) : String := "/srv/movienight/" ++ name

/-! ## Lemmas: the mutex -/

theorem RWMutex.Lock_free : RWMutex.free.Lock = some ⟨true, 0⟩ := by
  simp [RWMutex.Lock, RWMutex.free]

theorem RWMutex.Lock_eq_some {m m2 : RWMutex} (h : m.Lock = some m2) :
    m = RWMutex.free ∧ m2 = ⟨true, 0⟩ := by
  unfold RWMutex.Lock at h
  split at h
  · rename_i hc
    obtain ⟨mw, mr⟩ := m
    simp only [Option.some.injEq] at h
    simp only at hc
    simp [RWMutex.free, hc.1, hc.2, h.symm]
  · simp at h

theorem RWMutex.RLock_RUnlock {m : RWMutex} (h : m.writer = false) :
    ∃ m2, m.RLock = some m2 ∧ m2.RUnlock = m := by
  refine ⟨{ m with readers := m.readers + 1 }, ?_, ?_⟩
  · simp [RWMutex.RLock, h]
  · simp [RWMutex.RUnlock]

/-! ## Lemmas: AddMessage -/

theorem lastN_length {α : Type} (k : Nat) (l : List α) : (lastN k l).length = min l.length k := by
  simp [lastN]; omega

theorem lastN_of_length_le {α : Type} (k : Nat) (l : List α) (h : l.length ≤ k) : lastN k l = l := by
  simp [lastN, Nat.sub_eq_zero_of_le h]

theorem lastN_min {α : Type} (k : Nat) (l : List α) : lastN (min l.length k) l = lastN k l := by
  unfold lastN
  congr 1
  omega

theorem lastN_snoc {α : Type} (k : Nat) (l : List α) (a : α) :
    lastN k (lastN k l ++ [a]) = lastN k (l ++ [a]) := by
  by_cases h : l.length ≤ k
  · rw [lastN_of_length_le k l h]
  · have hlen : (lastN k l).length = k := by rw [lastN_length]; omega
    unfold lastN at hlen ⊢
    simp only [List.length_append, List.length_drop, List.length_singleton] at hlen ⊢
    have h1 : l.length - (l.length - k) + 1 - k = 1 := by omega
    have h2 : l.length + 1 - k = (l.length - k) + 1 := by omega
    rw [h1, h2, ← List.drop_drop]
    congr 1
    rw [List.drop_append_of_le_length (by omega)]

theorem AddMessage_accept {D : Type} (settings : Settings) (cm : Common D) (ch : ChatHistory)
    (chatData : ChatData D) (now : Time) (jsonData : ChatDataJSON)
    (hen : settings.ChatHistory = true) (hfree : ch.mutex = RWMutex.free)
    (hc : 0 ≤ maxMessages settings) (hj : cm.ToJSON chatData = .ok jsonData) :
    AddMessage settings cm ch chatData now = .ret
      ⟨{ ch with
          Messages := lastN (maxMessages settings).toNat
            (ch.Messages ++ [histMsg cm chatData now jsonData]) }, 1⟩ := by
  obtain ⟨M, mu, fname⟩ := ch
  simp only at hfree
  subst hfree
  unfold AddMessage
  simp only [hen, Bool.true_eq_false, ↓reduceIte, RWMutex.Lock_free, hj]
  by_cases hgt : ((M ++ [histMsg cm chatData now jsonData]).length : Int) > maxMessages settings
  · simp only [hgt, ↓reduceIte]
    have hr : 0 ≤ ((M ++ [histMsg cm chatData now jsonData]).length : Int) - maxMessages settings ∧
        ((M ++ [histMsg cm chatData now jsonData]).length : Int) - maxMessages settings
          ≤ ((M ++ [histMsg cm chatData now jsonData]).length : Int) := by
      constructor <;> omega
    simp only [sliceFrom, hr, and_self, ↓reduceIte]
    have ht : (((M ++ [histMsg cm chatData now jsonData]).length : Int)
        - maxMessages settings).toNat
        = (M ++ [histMsg cm chatData now jsonData]).length - (maxMessages settings).toNat := by
      omega
    rw [ht]
    simp [lastN, RWMutex.Unlock, RWMutex.free]
  · simp only [hgt, ↓reduceIte]
    have hle : (M ++ [histMsg cm chatData now jsonData]).length ≤ (maxMessages settings).toNat := by
      omega
    simp [lastN_of_length_le _ _ hle, RWMutex.Unlock, RWMutex.free]

theorem addAll_accept {D : Type} (settings : Settings) (cm : Common D)
    (hen : settings.ChatHistory = true) (hc : 0 ≤ maxMessages settings) :
    ∀ (evs : List (ChatData D × Time)) (ch : ChatHistory), ch.mutex = RWMutex.free →
      (∀ e ∈ evs, ∃ j, cm.ToJSON e.1 = .ok j) → evs ≠ [] →
      addAll settings cm ch evs = .ret
        ⟨{ ch with
            Messages := lastN (maxMessages settings).toNat
              (ch.Messages ++ evs.filterMap (entryOf cm)) }, evs.length⟩ := by
  intro evs
  induction evs with
  | nil => intro ch _ _ h; exact absurd rfl h
  | cons e es ih =>
    intro ch hfree hser _
    obtain ⟨j, hj⟩ := hser e (List.mem_cons_self _ _)
    have hstep := AddMessage_accept settings cm ch e.1 e.2 j hen hfree hc hj
    have hent : entryOf cm e = some (histMsg cm e.1 e.2 j) := by simp [entryOf, hj]
    by_cases hes : es = []
    · subst hes
      simp [addAll, hstep, hent]
    · have hrest := ih
        { ch with
          Messages := lastN (maxMessages settings).toNat (ch.Messages ++ [histMsg cm e.1 e.2 j]) }
        hfree (fun x hx => hser x (List.mem_cons_of_mem _ hx)) hes
      simp only [addAll, hstep, hrest, List.filterMap_cons, hent]
      have hfm : (es.filterMap (entryOf cm)) ≠ [] := by
        obtain ⟨x, xs, rfl⟩ := List.exists_cons_of_ne_nil hes
        obtain ⟨jx, hjx⟩ := hser x (List.mem_cons_of_mem _ (List.mem_cons_self _ _))
        simp [entryOf, hjx]
      have key : ∀ (k : Nat) (X : List HistoryMessage) (a : HistoryMessage)
          (Y : List HistoryMessage), Y ≠ [] →
          lastN k (lastN k (X ++ [a]) ++ Y) = lastN k (X ++ a :: Y) := by
        intro k X a Y
        induction Y using List.reverseRecOn generalizing X a with
        | nil => intro h; exact absurd rfl h
        | append_singleton Y b ihY =>
          intro _
          by_cases hY : Y = []
          · subst hY
            simp only [List.nil_append]
            rw [lastN_snoc]
            simp
          · have := ihY X a hY
            rw [← List.append_assoc, ← lastN_snoc, this, lastN_snoc]
            simp
      rw [key _ _ _ _ hfm]
      simp [Nat.add_comm]

theorem filterMap_entryOf_length {D : Type} (cm : Common D) (evs : List (ChatData D × Time))
    (hser : ∀ e ∈ evs, ∃ j, cm.ToJSON e.1 = .ok j) :
    (evs.filterMap (entryOf cm)).length = evs.length := by
  induction evs with
  | nil => rfl
  | cons e es ih =>
    obtain ⟨j, hj⟩ := hser e (List.mem_cons_self _ _)
    have hent : entryOf cm e = some (histMsg cm e.1 e.2 j) := by simp [entryOf, hj]
    simp [List.filterMap_cons, hent, ih (fun x hx => hser x (List.mem_cons_of_mem _ hx))]

/-! ## AddMessage: retention and the skip cases -/

/-- C1: starting from any entries `E` (also longer than the capacity), with
capture enabled, a capacity `c = maxMessages = 2 * MaxMessageCount ≥ 0` and
`N ≥ 1` events that all serialise, the `N` calls of `AddMessage` return and
leave exactly the last `min (|E| + N) c` elements of `E ++ [entry e1, ..., entry eN]`,
in that order; in particular at most `c` entries are held after each call. -/
theorem AddMessage_retains_most_recent {D : Type} (settings : Settings) (cm : Common D)
    (ch : ChatHistory) (evs : List (ChatData D × Time))
    (hen : settings.ChatHistory = true) (hfree : ch.mutex = RWMutex.free)
    (hc : 0 ≤ maxMessages settings)
    (hser : ∀ e ∈ evs, ∃ j, cm.ToJSON e.1 = .ok j) (hN : 1 ≤ evs.length) :
    ∃ r, addAll settings cm ch evs = .ret r ∧
      (evs.filterMap (entryOf cm)).length = evs.length ∧
      r.ch.Messages =
        lastN (min (ch.Messages.length + evs.length) (maxMessages settings).toNat)
          (ch.Messages ++ evs.filterMap (entryOf cm)) ∧
      (r.ch.Messages.length : Int) ≤ maxMessages settings := by
  have hne : evs ≠ [] := by
    intro h
    simp [h] at hN
  have hlen := filterMap_entryOf_length cm evs hser
  refine ⟨_, addAll_accept settings cm hen hc evs ch hfree hser hne, hlen, ?_, ?_⟩
  · simp only
    rw [← lastN_min (maxMessages settings).toNat]
    simp [hlen]
  · simp only [lastN_length]
    omega

/-- C1, at capacity 4 (`MaxMessageCount = 2`): appending A, B, C, D, E to the
empty store leaves [B, C, D, E]. -/
theorem AddMessage_retains_most_recent_witness :
    ∃ r, addAll sampleSettings sampleCommon (emptyStore "chat_history.json")
        [(chat "A", clock 1), (chat "B", clock 2), (chat "C", clock 3), (chat "D", clock 4),
          (chat "E", clock 5)] = .ret r ∧
      r.ch.Messages =
        [⟨clock 2, 1, utf8 "\"B\"", "<span>B</span>"⟩, ⟨clock 3, 1, utf8 "\"C\"", "<span>C</span>"⟩,
          ⟨clock 4, 1, utf8 "\"D\"", "<span>D</span>"⟩,
          ⟨clock 5, 1, utf8 "\"E\"", "<span>E</span>"⟩] := by
  obtain ⟨r, hr, -, hm, -⟩ := AddMessage_retains_most_recent sampleSettings sampleCommon
    (emptyStore "chat_history.json")
    [(chat "A", clock 1), (chat "B", clock 2), (chat "C", clock 3), (chat "D", clock 4),
      (chat "E", clock 5)]
    rfl rfl (by decide) (by simp [sampleCommon, chat]) (by decide)
  refine ⟨r, hr, ?_⟩
  rw [hm]
  decide

/-- C10: `AddMessage` changes nothing when capture is disabled and when the
event's data fails to serialise: it returns the store as it was (entries,
mutex, file name) and starts no `Save`, hence never reaches the snapshot file;
so does any sequence of such calls. -/
theorem AddMessage_skip_is_noop {D : Type} (settings : Settings) (cm : Common D)
    (ch : ChatHistory) (evs : List (ChatData D × Time))
    (hskip : settings.ChatHistory = false ∨
      (ch.mutex = RWMutex.free ∧ ∀ e ∈ evs, ∃ err, cm.ToJSON e.1 = .error err)) :
    (∀ e ∈ evs, AddMessage settings cm ch e.1 e.2 = .ret ⟨ch, 0⟩) ∧
      addAll settings cm ch evs = .ret ⟨ch, 0⟩ := by
  have single : ∀ e ∈ evs, AddMessage settings cm ch e.1 e.2 = .ret ⟨ch, 0⟩ := by
    intro e he
    rcases hskip with hoff | ⟨hfree, hfail⟩
    · simp [AddMessage, hoff]
    · obtain ⟨err, herr⟩ := hfail e he
      obtain ⟨M, mu, fname⟩ := ch
      simp only at hfree
      subst hfree
      by_cases hen : settings.ChatHistory = false
      · simp [AddMessage, hen]
      · have hl : ({ writer := false, readers := 0 } : RWMutex).Lock = some ⟨true, 0⟩ :=
          RWMutex.Lock_free
        simp [AddMessage, hen, hl, herr, RWMutex.Unlock, RWMutex.free]
  refine ⟨single, ?_⟩
  clear hskip
  induction evs with
  | nil => rfl
  | cons e es ih =>
    have h1 := single e (List.mem_cons_self _ _)
    have h2 := ih (fun x hx => single x (List.mem_cons_of_mem _ hx))
    simp [addAll, h1, h2]

/-- C10, on a store holding one entry: with capture disabled three appends leave
it as it was, and so do two appends of data that cannot be serialised. -/
theorem AddMessage_skip_is_noop_witness :
    addAll { ChatHistory := false, MaxMessageCount := 2 } sampleCommon
        ⟨[⟨clock 1, 1, utf8 "\"A\"", "<span>A</span>"⟩], RWMutex.free, "chat_history.json"⟩
        [(chat "B", clock 2), (chat "C", clock 3), (chat "D", clock 4)]
      = .ret ⟨⟨[⟨clock 1, 1, utf8 "\"A\"", "<span>A</span>"⟩], RWMutex.free,
          "chat_history.json"⟩, 0⟩ ∧
    addAll sampleSettings sampleCommon
        ⟨[⟨clock 1, 1, utf8 "\"A\"", "<span>A</span>"⟩], RWMutex.free, "chat_history.json"⟩
        [(⟨1, .unsupported⟩, clock 2), (⟨1, .unsupported⟩, clock 3)]
      = .ret ⟨⟨[⟨clock 1, 1, utf8 "\"A\"", "<span>A</span>"⟩], RWMutex.free,
          "chat_history.json"⟩, 0⟩ :=
  ⟨(AddMessage_skip_is_noop _ sampleCommon _ _ (Or.inl rfl)).2,
    (AddMessage_skip_is_noop sampleSettings sampleCommon _ _
      (Or.inr ⟨rfl, by simp [sampleCommon]⟩)).2⟩

/-! ## GetRecentMessages -/

theorem recentLoop_eq {D : Type} (cm : Common D) (Messages : List HistoryMessage) :
    ∀ (n i : Nat) (acc : List (ChatData D)), i + n = Messages.length →
      recentLoop cm Messages n i acc
        = .ret (acc ++ (Messages.drop i).filterMap (replay cm)) := by
  intro n
  induction n with
  | zero =>
    intro i acc h
    have : Messages.length ≤ i := by omega
    simp [recentLoop, List.drop_eq_nil_of_le this]
  | succ n ih =>
    intro i acc h
    have hi : i < Messages.length := by omega
    have hget : Messages[i]? = some Messages[i] := List.getElem?_eq_getElem hi
    have hdrop : Messages.drop i = Messages[i] :: Messages.drop (i + 1) :=
      List.drop_eq_getElem_cons hi
    rw [hdrop, List.filterMap_cons]
    unfold recentLoop
    simp only [hget]
    by_cases hev : Messages[i].Typ = cm.DTEvent
    · simp only [hev, ↓reduceIte, replay]
      exact ih (i + 1) acc (by omega)
    · simp only [hev, ↓reduceIte, replay]
      cases hd : cm.ToData { Typ := Messages[i].Typ, Data := Messages[i].Data } with
      | error e =>
        simp only
        exact ih (i + 1) acc (by omega)
      | ok chatData =>
        simp only
        rw [ih (i + 1) (acc ++ [chatData]) (by omega)]
        simp

theorem GetRecentMessages_ret {D : Type} (cm : Common D) (ch : ChatHistory) (count : Int)
    (hw : ch.mutex.writer = false) :
    GetRecentMessages cm ch count
      = .ret (ch, (lastN (window count ch.Messages.length) ch.Messages).filterMap (replay cm)) := by
  obtain ⟨m2, hlock, hunlock⟩ := RWMutex.RLock_RUnlock hw
  unfold GetRecentMessages
  simp only [hlock]
  by_cases hc : count ≤ 0 ∨ count > (ch.Messages.length : Int)
  · have hwin : window count ch.Messages.length = ch.Messages.length := by
      unfold window
      rw [if_neg]
      omega
    simp only [hc, ↓reduceIte, sub_self, sub_zero, Int.toNat_ofNat, Int.toNat_zero]
    rw [recentLoop_eq cm ch.Messages _ _ _ (by omega), hunlock, hwin]
    simp [lastN]
  · have hwin : window count ch.Messages.length = count.toNat := by
      unfold window
      rw [if_pos]
      omega
    simp only [hc, ↓reduceIte]
    rw [recentLoop_eq cm ch.Messages _ _ _ (by omega), hunlock, hwin]
    have : ((ch.Messages.length : Int) - count).toNat = ch.Messages.length - count.toNat := by
      omega
    simp [lastN, this]

theorem replay_eq_decodeEntry {D : Type} (cm : Common D) (msg : HistoryMessage) :
    replay cm msg = if msg.Typ = cm.DTEvent then none else decodeEntry cm msg := by
  unfold replay decodeEntry
  split <;> rfl

theorem filterMap_replay {D : Type} (cm : Common D) (l : List HistoryMessage) :
    l.filterMap (replay cm)
      = (l.filter (fun e => decide (e.Typ ≠ cm.DTEvent))).filterMap (decodeEntry cm) := by
  induction l with
  | nil => rfl
  | cons a l ih =>
    by_cases h : a.Typ = cm.DTEvent
    · simp [List.filterMap_cons, replay_eq_decodeEntry, h, ih]
    · simp [List.filterMap_cons, List.filter_cons, replay_eq_decodeEntry, h, ih]

/-- C2: `GetRecentMessages(count)` returns, and its result is, in stored order,
the successful decodings of the entries of kind other than `DTEvent` among the
last `k` entries, where `k = count` when `0 < count ≤ |E|` and `k = |E|`
otherwise; an entry that fails to decode is left out and the loop goes on. The
store is handed back as it was. -/
theorem GetRecentMessages_returns_window {D : Type} (cm : Common D) (ch : ChatHistory)
    (count : Int) (hw : ch.mutex.writer = false) :
    GetRecentMessages cm ch count
      = .ret (ch, (lastN (window count ch.Messages.length) ch.Messages).filterMap (replay cm)) :=
  GetRecentMessages_ret cm ch count hw

/-- C2, on [A, join J, B, an entry that does not decode, C]: `recent(4)` looks
at the last four entries and gives [B, C], leaving out the join and the entry
that does not decode. -/
theorem GetRecentMessages_returns_window_witness :
    GetRecentMessages sampleCommon
        ⟨[⟨clock 1, 1, utf8 "\"A\"", "<span>A</span>"⟩, ⟨clock 2, 3, utf8 "\"J\"", ""⟩,
          ⟨clock 3, 1, utf8 "\"B\"", "<span>B</span>"⟩, ⟨clock 4, 1, utf8 "oops", ""⟩,
          ⟨clock 5, 1, utf8 "\"C\"", "<span>C</span>"⟩], RWMutex.free, "chat_history.json"⟩ 4
      = .ret (⟨[⟨clock 1, 1, utf8 "\"A\"", "<span>A</span>"⟩, ⟨clock 2, 3, utf8 "\"J\"", ""⟩,
          ⟨clock 3, 1, utf8 "\"B\"", "<span>B</span>"⟩, ⟨clock 4, 1, utf8 "oops", ""⟩,
          ⟨clock 5, 1, utf8 "\"C\"", "<span>C</span>"⟩], RWMutex.free, "chat_history.json"⟩,
        [chat "B", chat "C"]) := by
  rw [GetRecentMessages_returns_window sampleCommon _ 4 rfl]
  decide

/-- C3: whatever `count` is, the result of `GetRecentMessages` is built from
the entries of the window whose kind is not `DTEvent` alone: every element is
the decoding of a stored entry of another kind, and the `DTEvent` entries stay
in the store, which is handed back unchanged. When `ToData` keeps the kind of
what it decodes, no element has kind `DTEvent` or is the decoding of a
`DTEvent` entry. -/
theorem GetRecentMessages_skips_events {D : Type} (cm : Common D) (ch : ChatHistory)
    (count : Int) (hw : ch.mutex.writer = false) :
    ∃ out, GetRecentMessages cm ch count = .ret (ch, out) ∧
      out = ((lastN (window count ch.Messages.length) ch.Messages).filter
              (fun e => decide (e.Typ ≠ cm.DTEvent))).filterMap (decodeEntry cm) ∧
      (∀ x ∈ out, ∃ e ∈ ch.Messages, e.Typ ≠ cm.DTEvent ∧
        cm.ToData { Typ := e.Typ, Data := e.Data } = .ok x) ∧
      ((∀ j x, cm.ToData j = .ok x → x.Typ = j.Typ) →
        ∀ x ∈ out, x.Typ ≠ cm.DTEvent ∧
          ∀ e ∈ ch.Messages, e.Typ = cm.DTEvent →
            cm.ToData { Typ := e.Typ, Data := e.Data } ≠ .ok x) := by
  have hsrc : ∀ x ∈ (lastN (window count ch.Messages.length) ch.Messages).filterMap (replay cm),
      ∃ e ∈ ch.Messages, e.Typ ≠ cm.DTEvent ∧
        cm.ToData { Typ := e.Typ, Data := e.Data } = .ok x := by
    intro x hx
    rw [List.mem_filterMap] at hx
    obtain ⟨e, he, hr⟩ := hx
    refine ⟨e, List.mem_of_mem_drop he, ?_⟩
    unfold replay at hr
    split at hr
    · simp at hr
    · rename_i hne
      refine ⟨hne, ?_⟩
      split at hr
      · simp at hr
      · rename_i cd hcd
        simp only [Option.some.injEq] at hr
        rw [hcd, hr]
  refine ⟨_, GetRecentMessages_ret cm ch count hw, filterMap_replay cm _, hsrc, ?_⟩
  intro hkind x hx
  obtain ⟨e, -, hne, hdec⟩ := hsrc x hx
  have hxk : x.Typ ≠ cm.DTEvent := by
    rw [hkind _ _ hdec]
    exact hne
  refine ⟨hxk, ?_⟩
  intro e2 _ hev hdec2
  apply hxk
  rw [hkind _ _ hdec2]
  exact hev

/-- C3, the join-then-chat scenario: after a join event J and a chat event M are
appended, `recent(5)` is [M] and J is still stored. -/
theorem GetRecentMessages_skips_events_witness :
    ∃ r, addAll sampleSettings sampleCommon (emptyStore "chat_history.json")
        [(joined "J", clock 1), (chat "M", clock 2)] = .ret r ∧
      r.ch.Messages = [⟨clock 1, 3, utf8 "\"J\"", "<span>J</span>"⟩,
        ⟨clock 2, 1, utf8 "\"M\"", "<span>M</span>"⟩] ∧
      GetRecentMessages sampleCommon r.ch 5 = .ret (r.ch, [chat "M"]) := by
  refine ⟨⟨⟨[⟨clock 1, 3, utf8 "\"J\"", "<span>J</span>"⟩,
    ⟨clock 2, 1, utf8 "\"M\"", "<span>M</span>"⟩], RWMutex.free, "chat_history.json"⟩, 2⟩,
    by decide, rfl, ?_⟩
  obtain ⟨out, hout, heq, -, -⟩ := GetRecentMessages_skips_events sampleCommon
    ⟨[⟨clock 1, 3, utf8 "\"J\"", "<span>J</span>"⟩,
      ⟨clock 2, 1, utf8 "\"M\"", "<span>M</span>"⟩], RWMutex.free, "chat_history.json"⟩ 5 rfl
  rw [hout, heq]
  decide

/-- C4: `recent(0)`, `recent(n)` for negative `n` and `recent(m)` for `m > |E|`
all return the same sequence, the decodings of every entry of `E` of kind other
than `DTEvent`, in stored order; each of these calls returns, also on the empty
store. -/
theorem GetRecentMessages_boundary_counts {D : Type} (cm : Common D) (ch : ChatHistory)
    (count : Int) (hw : ch.mutex.writer = false)
    (hcount : count ≤ 0 ∨ (ch.Messages.length : Int) < count) :
    GetRecentMessages cm ch count = .ret (ch, ch.Messages.filterMap (replay cm)) := by
  rw [GetRecentMessages_ret cm ch count hw]
  have hwin : window count ch.Messages.length = ch.Messages.length := by
    unfold window
    rw [if_neg]
    omega
  simp [hwin, lastN]

/-- C4, on [A, join J, B] and on the empty store: counts 0, -3 and 7 give the
whole replayable history [A, B], respectively nothing. -/
theorem GetRecentMessages_boundary_counts_witness :
    (∀ count ∈ [(0 : Int), -3, 7],
      GetRecentMessages sampleCommon
          ⟨[⟨clock 1, 1, utf8 "\"A\"", "<span>A</span>"⟩, ⟨clock 2, 3, utf8 "\"J\"", ""⟩,
            ⟨clock 3, 1, utf8 "\"B\"", "<span>B</span>"⟩], RWMutex.free, "chat_history.json"⟩ count
        = .ret (⟨[⟨clock 1, 1, utf8 "\"A\"", "<span>A</span>"⟩, ⟨clock 2, 3, utf8 "\"J\"", ""⟩,
            ⟨clock 3, 1, utf8 "\"B\"", "<span>B</span>"⟩], RWMutex.free, "chat_history.json"⟩,
          [chat "A", chat "B"])) ∧
    (∀ count ∈ [(0 : Int), -3, 7],
      GetRecentMessages sampleCommon (emptyStore "chat_history.json") count
        = .ret (emptyStore "chat_history.json", [])) := by
  constructor
  · intro count hc
    rw [GetRecentMessages_boundary_counts sampleCommon _ count rfl (by
      simp only [List.mem_cons, List.mem_singleton, List.not_mem_nil, or_false] at hc
      rcases hc with rfl | rfl | rfl <;> decide)]
    decide
  · intro count hc
    rw [GetRecentMessages_boundary_counts sampleCommon _ count rfl (by
      simp only [List.mem_cons, List.mem_singleton, List.not_mem_nil, or_false] at hc
      rcases hc with rfl | rfl | rfl <;> decide)]
    decide

/-! ## Lemmas: the snapshot file -/

theorem tmp_ne (name : String) : name ++ ".tmp" ≠ name := by
  intro h
  have := congrArg String.length h
  simp [String.length_append] at this
  revert this
  decide

theorem FS.set_same (fs : FS) (name : String) (node : Option Node) : fs.set name node name = node := by
  simp [FS.set]

theorem FS.set_other (fs : FS) (name p : String) (node : Option Node) (h : p ≠ name) :
    fs.set name node p = fs p := by
  simp [FS.set, h]

theorem Save_ret (json : JSON) (faults : Faults) (ch : ChatHistory) (fs : FS)
    (hw : ch.mutex.writer = false) :
    Save json faults ch fs =
      match json.MarshalIndent ch.Messages with
      | .error e => .ret (ch, fs, some ("error marshaling chat history: " ++ e))
      | .ok data =>
        match faults.write with
        | some (e, left) =>
          .ret (ch, fs.set (ch.filename ++ ".tmp") left,
            some ("error writing chat history temp file: " ++ e))
        | none =>
          match faults.rename with
          | some e =>
            .ret (ch, fs.set (ch.filename ++ ".tmp") (some (.file data)),
              some ("error renaming chat history temp file: " ++ e))
          | none =>
            .ret (ch, (((fs.set (ch.filename ++ ".tmp") (some (.file data))).set ch.filename
              (some (.file data))).set (ch.filename ++ ".tmp") none), none) := by
  obtain ⟨m2, hlock, hunlock⟩ := RWMutex.RLock_RUnlock hw
  unfold Save
  simp only [hlock, hunlock]
  cases json.MarshalIndent ch.Messages with
  | error e => rfl
  | ok data =>
    simp only [WriteFile, Rename]
    cases hwf : faults.write with
    | some p => rfl
    | none =>
      simp only
      cases hrf : faults.rename with
      | some e => rfl
      | none => simp [FS.set_same]

theorem Load_emptyStore (json : JSON) (path : String) (fs : FS) :
    Load json (emptyStore path) fs =
      match fs path with
      | none => .ret (emptyStore path, none)
      | some (.unreadable e) =>
        .ret (emptyStore path, some ("error reading chat history file: " ++ e))
      | some (.file data) =>
        if data = [] then .ret (emptyStore path, none)
        else
          .ret ({ emptyStore path with Messages := (json.Unmarshal data []).1 },
            (json.Unmarshal data []).2.map (fun e => "error unmarshaling chat history: " ++ e)) := by
  unfold Load emptyStore
  simp only [RWMutex.Lock_free, statIsNotExist, ReadFile]
  cases hp : fs path with
  | none => simp [RWMutex.Unlock, RWMutex.free]
  | some node =>
    cases node with
    | unreadable e => simp [RWMutex.Unlock, RWMutex.free]
    | file data =>
      by_cases hd : data = []
      · simp [hd, RWMutex.Unlock, RWMutex.free]
      · have hlen : data.length ≠ 0 := by
          intro h
          exact hd (List.length_eq_zero.mp h)
        simp only [Option.isNone_some, Bool.false_eq_true, ↓reduceIte, hlen, hd]
        rcases hu : json.Unmarshal data [] with ⟨msgs, _ | e⟩ <;>
          simp [RWMutex.Unlock, RWMutex.free]

/-! ## Save, Load, Clear, NewChatHistory -/

/-- C6: while a writer holds the mutex `Save` waits, nothing changed. Otherwise
it returns the store unchanged and reports an error exactly when
serialisation, the write of the temporary file or the rename fails; then the
snapshot at `path` (and every path but `path + ".tmp"`) is as before. Without
error, and only then, `path` holds the complete serialisation of the entries. -/
theorem Save_failure_keeps_snapshot (json : JSON) (faults : Faults) (ch : ChatHistory) (fs : FS) :
    (ch.mutex.writer = true → Save json faults ch fs = .blocked (ch, fs)) ∧
    (ch.mutex.writer = false →
      ∃ fs1 err, Save json faults ch fs = .ret (ch, fs1, err) ∧
        (err = none ↔ ((∃ data, json.MarshalIndent ch.Messages = .ok data) ∧
          faults.write = none ∧ faults.rename = none)) ∧
        (err ≠ none → fs1 ch.filename = fs ch.filename ∧
          ∀ p, p ≠ ch.filename ++ ".tmp" → fs1 p = fs p) ∧
        (err = none → ∃ data, json.MarshalIndent ch.Messages = .ok data ∧
          fs1 ch.filename = some (.file data))) := by
  constructor
  · intro hw
    simp [Save, RWMutex.RLock, hw]
  intro hw
  rw [Save_ret json faults ch fs hw]
  have htmp := tmp_ne ch.filename
  cases hm : json.MarshalIndent ch.Messages with
  | error e => exact ⟨_, _, rfl, by simp, by simp, by simp⟩
  | ok data =>
    cases hwf : faults.write with
    | some p =>
      refine ⟨_, _, rfl, by simp, ?_, by simp⟩
      intro _
      exact ⟨FS.set_other _ _ _ _ (Ne.symm htmp), fun q hq => FS.set_other _ _ _ _ hq⟩
    | none =>
      cases hrf : faults.rename with
      | some e =>
        refine ⟨_, _, rfl, by simp, ?_, by simp⟩
        intro _
        exact ⟨FS.set_other _ _ _ _ (Ne.symm htmp), fun q hq => FS.set_other _ _ _ _ hq⟩
      | none =>
        refine ⟨_, _, rfl, by simp, by simp, ?_⟩
        intro _
        refine ⟨data, rfl, ?_⟩
        rw [FS.set_other _ _ _ _ (Ne.symm htmp), FS.set_same]

/-- C7 (what the code does): `Clear` never returns. Once it holds `ch.mutex`
for writing, the `RLock` inside `Save` cannot be granted: the call stays
blocked there, entries emptied in memory, file system untouched. -/
theorem Clear_never_returns (json : JSON) (faults : Faults) (ch : ChatHistory) (fs : FS) :
    (∀ r, Clear json faults ch fs ≠ .ret r) ∧
      (ch.mutex = RWMutex.free →
        Clear json faults ch fs = .blocked ({ ch with Messages := [], mutex := ⟨true, 0⟩ }, fs)) := by
  have key : ∀ m, ch.mutex.Lock = some m →
      Clear json faults ch fs = .blocked ({ ch with Messages := [], mutex := ⟨true, 0⟩ }, fs) := by
    intro m hm
    obtain ⟨-, rfl⟩ := RWMutex.Lock_eq_some hm
    simp [Clear, hm, Save, RWMutex.RLock]
  constructor
  · intro r
    cases hl : ch.mutex.Lock with
    | none => simp [Clear, hl]
    | some m => simp [key m hl]
  · intro hfree
    exact key ⟨true, 0⟩ (by rw [hfree]; exact RWMutex.Lock_free)

/-- C8: `Load` on a fresh store returns success with no entries when the
snapshot file is absent or has zero bytes; an error when it cannot be read,
and when it is non-empty and `Unmarshal` fails; success with the entries
`Unmarshal` produced when it parses. -/
theorem Load_fresh_store (json : JSON) (path : String) (fs : FS) :
    (fs path = none → Load json (emptyStore path) fs = .ret (emptyStore path, none)) ∧
    (fs path = some (.file []) → Load json (emptyStore path) fs = .ret (emptyStore path, none)) ∧
    (∀ e, fs path = some (.unreadable e) →
      Load json (emptyStore path) fs
        = .ret (emptyStore path, some ("error reading chat history file: " ++ e))) ∧
    (∀ data msgs e, fs path = some (.file data) → data ≠ [] →
      json.Unmarshal data [] = (msgs, some e) →
      Load json (emptyStore path) fs
        = .ret ({ emptyStore path with Messages := msgs },
            some ("error unmarshaling chat history: " ++ e))) ∧
    (∀ data msgs, fs path = some (.file data) → data ≠ [] →
      json.Unmarshal data [] = (msgs, none) →
      Load json (emptyStore path) fs = .ret ({ emptyStore path with Messages := msgs }, none)) := by
  rw [Load_emptyStore]
  refine ⟨?_, ?_, ?_, ?_, ?_⟩
  · intro h
    simp [h]
  · intro h
    simp [h]
  · intro e h
    simp [h]
  · intro data msgs e h hd hu
    simp [h, hd, hu]
  · intro data msgs h hd hu
    simp [h, hd, hu]

/-- C9 (what the code does): on a snapshot file that is not empty and on which
`Unmarshal` fails, `Load` returns an error, but `NewChatHistory` drops it: the
caller is handed the store, holding whatever the failed `Unmarshal` left in
`Messages`, and no error. -/
theorem NewChatHistory_drops_load_error (JoinRunPath : String → String) (json : JSON)
    (filename : String) (fs : FS) (data : Bytes) (msgs : List HistoryMessage) (e : Err)
    (hfile : fs (JoinRunPath (if filename = "" then "chat_history.json" else filename))
      = some (.file data))
    (hne : data ≠ []) (hfail : json.Unmarshal data [] = (msgs, some e)) :
    Load json (emptyStore (JoinRunPath (if filename = "" then "chat_history.json" else filename))) fs
      = .ret ({ emptyStore (JoinRunPath (if filename = "" then "chat_history.json" else filename))
                  with Messages := msgs },
          some ("error unmarshaling chat history: " ++ e)) ∧
    NewChatHistory JoinRunPath json filename fs
      = .ret { emptyStore (JoinRunPath (if filename = "" then "chat_history.json" else filename))
                with Messages := msgs } := by
  have hl := Load_emptyStore json
    (JoinRunPath (if filename = "" then "chat_history.json" else filename)) fs
  simp only [hfile, hne, ↓reduceIte, hfail, Option.map_some'] at hl
  refine ⟨hl, ?_⟩
  unfold NewChatHistory
  simp only [hl]

/-! ## Lemmas: the model of `encoding/json` -/

namespace GoJSON

/-! ### Bytes -/

theorem u8_le (a b : UInt8) : a ≤ b ↔ a.toNat ≤ b.toNat := Iff.rfl
theorem u8_lt (a b : UInt8) : a < b ↔ a.toNat < b.toNat := Iff.rfl
theorem u8_eq (a b : UInt8) : a = b ↔ a.toNat = b.toNat := UInt8.ext_iff
theorem u8_ofNat_toNat (n : Nat) : (n.toUInt8).toNat = n % 256 := rfl

theorem isHex_facts (h : UInt8) (hh : isHex h = true) :
    h ≠ 34 ∧ h ≠ 92 ∧ ¬ h < 32 ∧ h ≠ 60 ∧ h ≠ 62 ∧ h ≠ 38 ∧ h ≠ 226 := by
  simp only [isHex, isDigit, Bool.or_eq_true, Bool.and_eq_true, decide_eq_true_eq, u8_le, u8_lt,
    u8_eq, ne_eq, UInt8.toNat_ofNat, UInt8.size] at *
  omega

theorem isHex_hexDigit (n : Nat) (h : n < 16) : isHex (hexDigit n) = true := by
  simp only [isHex, isDigit, hexDigit, Bool.or_eq_true, Bool.and_eq_true, decide_eq_true_eq, u8_le,
    u8_lt, u8_eq, ne_eq, UInt8.toNat_ofNat, UInt8.size]
  split <;> simp only [u8_ofNat_toNat] <;> omega

/-! ### White space -/

theorem skipSpace_of_head {c : UInt8} {r : Bytes} (h : isSpace c = false) :
    skipSpace (c :: r) = c :: r := by
  simp [skipSpace, h]

theorem skipSpace_append {ws : Bytes} (hws : AllSpace ws) (b : Bytes) :
    skipSpace (ws ++ b) = skipSpace b := by
  induction ws with
  | nil => rfl
  | cons c ws ih =>
    have hc : isSpace c = true := hws c (List.mem_cons_self _ _)
    simp only [List.cons_append, skipSpace, hc, ↓reduceIte]
    exact ih (fun x hx => hws x (List.mem_cons_of_mem _ hx))

theorem skipSpace_split (b : Bytes) :
    ∃ ws, AllSpace ws ∧ b = ws ++ skipSpace b ∧
      ∀ c r, skipSpace b = c :: r → isSpace c = false := by
  induction b with
  | nil => exact ⟨[], by simp [AllSpace], rfl, by simp [skipSpace]⟩
  | cons c b ih =>
    by_cases hc : isSpace c = true
    · obtain ⟨ws, hws, hb, hhead⟩ := ih
      refine ⟨c :: ws, ?_, ?_, ?_⟩
      · intro x hx
        rcases List.mem_cons.mp hx with rfl | hx
        · exact hc
        · exact hws x hx
      · simp only [skipSpace, hc, ↓reduceIte, List.cons_append]
        rw [← hb]
      · simpa only [skipSpace, hc, ↓reduceIte] using hhead
    · refine ⟨[], by simp [AllSpace], by simp [skipSpace, hc], ?_⟩
      intro x r hx
      simp only [skipSpace, hc, Bool.false_eq_true, ↓reduceIte, List.cons.injEq] at hx
      rw [← hx.1]
      simpa using hc

/-! ### String literals -/

theorem scanString_body {s r : Bytes} (h : scanString s = some r) :
    ∃ c, s = c ++ 34 :: r ∧ StrBody c := by
  induction s using scanString.induct generalizing r with
  | case1 =>
    unfold scanString at h
    simp at h
  | case2 r0 =>
    unfold scanString at h
    simp at h
    exact ⟨[], by simp [h], StrBody.nil⟩
  | case3 =>
    unfold scanString at h
    simp at h
  | case4 h1 h2 h3 h4 r2 hhex _ ih =>
    unfold scanString at h
    simp [hhex] at h
    obtain ⟨c, hc, hb⟩ := ih h
    exact ⟨92 :: 117 :: h1 :: h2 :: h3 :: h4 :: c, by simp [hc], StrBody.uni _ _ _ _ _ hhex hb⟩
  | case5 h1 h2 h3 h4 r2 hhex _ =>
    unfold scanString at h
    simp [hhex] at h
  | case6 r1 hr1 _ =>
    unfold scanString at h
    simp at h
  | case7 e r1 he hset _ ih =>
    unfold scanString at h
    simp [he, hset] at h
    obtain ⟨c, hc, hb⟩ := ih h
    exact ⟨92 :: e :: c, by simp [hc], StrBody.esc _ _ hset hb⟩
  | case8 e r1 he hset _ =>
    unfold scanString at h
    simp [he, hset] at h
  | case9 c r0 h34 h92 hlt =>
    unfold scanString at h
    simp [h34, h92, hlt] at h
  | case10 c r0 h34 h92 hlt ih =>
    unfold scanString at h
    simp [h34, h92, hlt] at h
    obtain ⟨b, hb, hbody⟩ := ih h
    exact ⟨c :: b, by simp [hb], StrBody.plain _ _ h34 h92 hlt hbody⟩

theorem scanString_of_body {c : Bytes} (hc : StrBody c) (r : Bytes) :
    scanString (c ++ 34 :: r) = some r := by
  induction hc with
  | nil =>
    unfold scanString
    simp
  | plain x b h34 h92 hlt _ ih =>
    simp only [List.cons_append]
    unfold scanString
    simp [h34, h92, hlt, ih]
  | esc e b hset _ ih =>
    have he : e ≠ 117 := by
      intro he
      subst he
      exact absurd hset (by decide)
    simp only [List.cons_append]
    unfold scanString
    simp [he, hset, ih]
  | uni h1 h2 h3 h4 b hhex _ ih =>
    simp only [List.cons_append]
    unfold scanString
    simp [hhex, ih]

theorem strBody_bytes {h : UInt8} (hh : isHex h = true) : h ≠ 34 ∧ h ≠ 92 := by
  have := isHex_facts h hh
  exact ⟨this.1, this.2.1⟩

theorem indent_string {c : Bytes} (hc : StrBody c) (d : Nat) (n : Bool) (r : Bytes) :
    indent d n true false (c ++ 34 :: r) = c ++ 34 :: indent d n false false r := by
  induction hc with
  | nil => simp [indent]
  | plain x b h34 h92 _ _ ih =>
    simp only [List.cons_append]
    rw [indent]
    simp [h34, h92, ih]
  | esc e b _ _ ih =>
    simp only [List.cons_append]
    rw [indent]
    simp only [↓reduceIte, Bool.false_eq_true]
    rw [indent]
    simp [ih]
  | uni h1 h2 h3 h4 b hhex _ ih =>
    simp only [Bool.and_eq_true] at hhex
    obtain ⟨⟨⟨x1, x2⟩, x3⟩, x4⟩ := hhex
    have f1 := strBody_bytes x1
    have f2 := strBody_bytes x2
    have f3 := strBody_bytes x3
    have f4 := strBody_bytes x4
    simp only [List.cons_append]
    rw [indent]
    simp only [↓reduceIte, Bool.false_eq_true]
    rw [indent]
    simp only [↓reduceIte]
    rw [indent]
    simp only [f1.1, f1.2, ↓reduceIte, Bool.false_eq_true]
    rw [indent]
    simp only [f2.1, f2.2, ↓reduceIte, Bool.false_eq_true]
    rw [indent]
    simp only [f3.1, f3.2, ↓reduceIte, Bool.false_eq_true]
    rw [indent]
    simp only [f4.1, f4.2, ↓reduceIte, Bool.false_eq_true]
    rw [ih]

theorem compact_plain (x : UInt8) (r : Bytes) (inStr esc : Bool)
    (h1 : x ≠ 60) (h2 : x ≠ 62) (h3 : x ≠ 38) (h4 : x ≠ 226) :
    compact 0 inStr esc (x :: r) =
      if inStr then
        if esc then x :: compact 0 true false r
        else if x = 92 then x :: compact 0 true true r
        else if x = 34 then x :: compact 0 false false r
        else x :: compact 0 true false r
      else if isSpace x then compact 0 false false r
      else if x = 34 then x :: compact 0 true false r
      else x :: compact 0 false false r := by
  rw [compact]
  simp [h1, h2, h3, h4]

theorem compact_string : ∀ (n : Nat) (c : Bytes), c.length ≤ n → StrBody c →
    ∃ cc, StrBody cc ∧
      ∀ t, compact 0 true false (c ++ 34 :: t) = cc ++ 34 :: compact 0 false false t := by
  intro n
  induction n with
  | zero =>
    intro c hlen _
    have : c = [] := List.length_eq_zero.mp (Nat.le_zero.mp hlen)
    subst this
    refine ⟨[], StrBody.nil, ?_⟩
    intro t
    rw [List.nil_append, compact_plain _ _ _ _ (by decide) (by decide) (by decide) (by decide)]
    simp
  | succ n ih =>
    intro c hlen hc
    cases hc with
    | nil =>
      refine ⟨[], StrBody.nil, ?_⟩
      intro t
      rw [List.nil_append, compact_plain _ _ _ _ (by decide) (by decide) (by decide) (by decide)]
      simp
    | plain x b h34 h92 hlt hb =>
      simp only [List.length_cons] at hlen
      by_cases hsp : x = 60 ∨ x = 62 ∨ x = 38
      · obtain ⟨cc, hcc, hrec⟩ := ih b (by omega) hb
        refine ⟨[92, 117, 48, 48, hexDigit (x.toNat / 16), hexDigit (x.toNat % 16)] ++ cc, ?_, ?_⟩
        · have hx := UInt8.toNat_lt x
          refine StrBody.uni _ _ _ _ _ ?_ hcc
          simp only [Bool.and_eq_true]
          exact ⟨⟨⟨by decide, by decide⟩, isHex_hexDigit _ (by omega)⟩,
            isHex_hexDigit _ (by omega)⟩
        · intro t
          simp only [List.cons_append]
          rw [compact]
          have : (x = 60 || x = 62 || x = 38) = true := by
            simpa [Bool.or_eq_true, or_assoc] using hsp
          simp only [this, ↓reduceIte, hrec, List.cons_append, List.nil_append, List.append_assoc]
      · have n1 : x ≠ 60 := fun e => hsp (Or.inl e)
        have n2 : x ≠ 62 := fun e => hsp (Or.inr (Or.inl e))
        have n3 : x ≠ 38 := fun e => hsp (Or.inr (Or.inr e))
        by_cases hls : x = 226 ∧ ((b ++ 34 :: ([] : Bytes)).take 2 = [128, 168] ∨
            (b ++ 34 :: ([] : Bytes)).take 2 = [128, 169])
        · obtain ⟨hx, htk⟩ := hls
          -- the two continuation bytes lie inside the literal
          have hshape : ∃ y b2, b = 128 :: y :: b2 ∧ (y = 168 ∨ y = 169) := by
            match b, htk with
            | [], htk => simp at htk
            | [y], htk => simp at htk
            | y :: z :: b2, htk =>
              simp only [List.cons_append, List.take_succ_cons, List.take_zero, List.cons.injEq,
                and_true] at htk
              rcases htk with ⟨rfl, rfl⟩ | ⟨rfl, rfl⟩
              · exact ⟨168, b2, rfl, Or.inl rfl⟩
              · exact ⟨169, b2, rfl, Or.inr rfl⟩
          obtain ⟨y, b2, rfl, hy⟩ := hshape
          have hb2 : StrBody b2 := by
            cases hb with
            | plain _ _ _ _ _ hb1 =>
              rcases hy with rfl | rfl
              · cases hb1 with
                | plain _ _ _ _ _ hb2 => exact hb2
              · cases hb1 with
                | plain _ _ _ _ _ hb2 => exact hb2
          simp only [List.length_cons] at hlen
          obtain ⟨cc, hcc, hrec⟩ := ih b2 (by omega) hb2
          refine ⟨[92, 117, 50, 48, 50, hexDigit (y.toNat % 16)] ++ cc, ?_, ?_⟩
          · refine StrBody.uni _ _ _ _ _ ?_ hcc
            simp only [Bool.and_eq_true]
            refine ⟨⟨⟨by decide, by decide⟩, by decide⟩, isHex_hexDigit _ (by omega)⟩
          · intro t
            subst hx
            simp only [List.cons_append]
            rw [compact]
            rcases hy with rfl | rfl
            · simp only [List.take_succ_cons, List.take_zero]
              rw [show ((226 : UInt8) = 60 || (226 : UInt8) = 62 || (226 : UInt8) = 38) = false
                from by decide]
              simp only [Bool.false_eq_true, ↓reduceIte, decide_True, Bool.true_and, Bool.true_or,
                Bool.or_true, List.getD_cons_succ, List.getD_cons_zero]
              rw [compact, compact, hrec]
              simp
            · simp only [List.take_succ_cons, List.take_zero]
              rw [show ((226 : UInt8) = 60 || (226 : UInt8) = 62 || (226 : UInt8) = 38) = false
                from by decide]
              simp only [Bool.false_eq_true, ↓reduceIte, decide_True, Bool.true_and, Bool.true_or,
                Bool.or_true, List.getD_cons_succ, List.getD_cons_zero]
              rw [compact, compact, hrec]
              simp
        · obtain ⟨cc, hcc, hrec⟩ := ih b (by omega) hb
          refine ⟨x :: cc, StrBody.plain _ _ h34 h92 hlt hcc, ?_⟩
          intro t
          simp only [List.cons_append]
          rw [compact]
          have hnot : (x = 226 && decide ((b ++ 34 :: t).take 2 = [128, 168] ∨
              (b ++ 34 :: t).take 2 = [128, 169])) = false := by
            by_cases hx : x = 226
            · have htk : ¬ ((b ++ 34 :: ([] : Bytes)).take 2 = [128, 168] ∨
                  (b ++ 34 :: ([] : Bytes)).take 2 = [128, 169]) := fun h => hls ⟨hx, h⟩
              have : ¬ ((b ++ 34 :: t).take 2 = [128, 168] ∨
                  (b ++ 34 :: t).take 2 = [128, 169]) := by
                match b, htk with
                | [], _ => simp
                | [y], _ => simp
                | y :: z :: b2, htk => simpa using htk
              simp [this]
            · simp [hx]
          simp only [n1, n2, n3, decide_False, Bool.or_self, Bool.false_eq_true, ↓reduceIte]
          simp only [Bool.decide_or] at hnot
          simp [hnot, h92, h34, hrec]
    | esc e b hset hb =>
      simp only [List.length_cons] at hlen
      obtain ⟨cc, hcc, hrec⟩ := ih b (by omega) hb
      refine ⟨92 :: e :: cc, StrBody.esc _ _ hset hcc, ?_⟩
      intro t
      have he : e ≠ 60 ∧ e ≠ 62 ∧ e ≠ 38 ∧ e ≠ 226 := by
        refine ⟨?_, ?_, ?_, ?_⟩ <;> (intro h; subst h; exact absurd hset (by decide))
      simp only [List.cons_append]
      rw [compact_plain _ _ _ _ (by decide) (by decide) (by decide) (by decide)]
      simp only [↓reduceIte, Bool.false_eq_true]
      rw [compact_plain _ _ _ _ he.1 he.2.1 he.2.2.1 he.2.2.2]
      simp [hrec]
    | uni h1 h2 h3 h4 b hhex hb =>
      simp only [List.length_cons] at hlen
      obtain ⟨cc, hcc, hrec⟩ := ih b (by omega) hb
      refine ⟨92 :: 117 :: h1 :: h2 :: h3 :: h4 :: cc, StrBody.uni _ _ _ _ _ hhex hcc, ?_⟩
      intro t
      simp only [Bool.and_eq_true] at hhex
      obtain ⟨⟨⟨x1, x2⟩, x3⟩, x4⟩ := hhex
      have f1 := isHex_facts _ x1
      have f2 := isHex_facts _ x2
      have f3 := isHex_facts _ x3
      have f4 := isHex_facts _ x4
      simp only [List.cons_append]
      rw [compact_plain _ _ _ _ (by decide) (by decide) (by decide) (by decide)]
      simp only [↓reduceIte, Bool.false_eq_true]
      rw [compact_plain _ _ _ _ (by decide) (by decide) (by decide) (by decide)]
      simp only [↓reduceIte]
      rw [compact_plain _ _ _ _ f1.2.2.2.1 f1.2.2.2.2.1 f1.2.2.2.2.2.1 f1.2.2.2.2.2.2]
      simp only [↓reduceIte, Bool.false_eq_true, f1.1, f1.2.1]
      rw [compact_plain _ _ _ _ f2.2.2.2.1 f2.2.2.2.2.1 f2.2.2.2.2.2.1 f2.2.2.2.2.2.2]
      simp only [↓reduceIte, Bool.false_eq_true, f2.1, f2.2.1]
      rw [compact_plain _ _ _ _ f3.2.2.2.1 f3.2.2.2.2.1 f3.2.2.2.2.2.1 f3.2.2.2.2.2.2]
      simp only [↓reduceIte, Bool.false_eq_true, f3.1, f3.2.1]
      rw [compact_plain _ _ _ _ f4.2.2.2.1 f4.2.2.2.2.1 f4.2.2.2.2.2.1 f4.2.2.2.2.2.2]
      simp only [↓reduceIte, Bool.false_eq_true, f4.1, f4.2.1]
      rw [hrec]

/-! ### Number literals -/

theorem skipDigits_split (b : Bytes) :
    ∃ ds, (∀ c ∈ ds, isDigit c = true) ∧ b = ds ++ skipDigits b ∧
      ∀ c r, skipDigits b = c :: r → isDigit c = false := by
  induction b with
  | nil => exact ⟨[], by simp, rfl, by simp [skipDigits]⟩
  | cons c b ih =>
    by_cases hc : isDigit c = true
    · obtain ⟨ds, hds, hb, hhead⟩ := ih
      refine ⟨c :: ds, ?_, ?_, ?_⟩
      · intro x hx
        rcases List.mem_cons.mp hx with rfl | hx
        · exact hc
        · exact hds x hx
      · simp only [skipDigits, hc, ↓reduceIte, List.cons_append]
        rw [← hb]
      · simpa only [skipDigits, hc, ↓reduceIte] using hhead
    · refine ⟨[], by simp, by simp [skipDigits, hc], ?_⟩
      intro x r hx
      simp only [skipDigits, hc, Bool.false_eq_true, ↓reduceIte, List.cons.injEq] at hx
      rw [← hx.1]
      simpa using hc

theorem skipDigits_append {ds : Bytes} (hds : ∀ c ∈ ds, isDigit c = true) {t : Bytes}
    (ht : ∀ c r, t = c :: r → isDigit c = false) : skipDigits (ds ++ t) = t := by
  induction ds with
  | nil =>
    cases t with
    | nil => rfl
    | cons c r => simp [skipDigits, ht c r rfl]
  | cons c ds ih =>
    have hc : isDigit c = true := hds c (List.mem_cons_self _ _)
    simp only [List.cons_append, skipDigits, hc, ↓reduceIte]
    exact ih (fun x hx => hds x (List.mem_cons_of_mem _ hx))

theorem Delim.notDigit {t : Bytes} (ht : Delim t) : ∀ c r, t = c :: r → isDigit c = false :=
  fun c r h => (ht c r h).1

theorem numChar_of_digit {c : UInt8} (h : isDigit c = true) : numChar c = true := by
  simp [numChar, h]

theorem digit_not_sign {d : UInt8} (hd : isDigit d = true) : (d = 43 || d = 45) = false := by
  cases hh : (d = 43 || d = 45)
  · rfl
  · simp only [Bool.or_eq_true, decide_eq_true_eq] at hh
    rcases hh with rfl | rfl <;> exact absurd hd (by decide)

theorem scanExp_delim {t : Bytes} (ht : Delim t) : scanExp t = some t := by
  cases t with
  | nil => rfl
  | cons c r0 =>
    obtain ⟨-, -, h1, h2⟩ := ht c r0 rfl
    simp [scanExp, h1, h2]

theorem scanExp_text {b r : Bytes} (h : scanExp b = some r) :
    ∃ e, b = e ++ r ∧ (∀ c ∈ e, numChar c = true) ∧
      ∀ t, Delim t → scanExp (e ++ t) = some t := by
  cases b with
  | nil =>
    simp only [scanExp, Option.some.injEq] at h
    subst h
    exact ⟨[], rfl, by simp, fun t ht => by simpa using scanExp_delim ht⟩
  | cons c r0 =>
    by_cases hc : (c = 101 || c = 69) = true
    · simp only [scanExp, hc, ↓reduceIte] at h
      have hcn : numChar c = true := by
        simp only [Bool.or_eq_true, decide_eq_true_eq] at hc
        rcases hc with rfl | rfl <;> decide
      cases r0 with
      | nil => simp at h
      | cons s r1 =>
        by_cases hs : (s = 43 || s = 45) = true
        · simp only [hs, ↓reduceIte] at h
          have hsn : numChar s = true := by
            simp only [Bool.or_eq_true, decide_eq_true_eq] at hs
            rcases hs with rfl | rfl <;> decide
          cases r1 with
          | nil => simp at h
          | cons d r2 =>
            by_cases hd : isDigit d = true
            · simp only [hd, ↓reduceIte, Option.some.injEq] at h
              obtain ⟨ds, hds, hsplit, -⟩ := skipDigits_split r2
              rw [h] at hsplit
              refine ⟨c :: s :: d :: ds, by simp [hsplit], ?_, ?_⟩
              · intro x hx
                simp only [List.mem_cons] at hx
                rcases hx with rfl | rfl | rfl | hx
                · exact hcn
                · exact hsn
                · exact numChar_of_digit hd
                · exact numChar_of_digit (hds x hx)
              · intro t ht
                simp only [List.cons_append, scanExp, hc, ↓reduceIte, hs, hd,
                  skipDigits_append hds ht.notDigit]
            · simp [hd] at h
        · simp only [hs, Bool.false_eq_true, ↓reduceIte] at h
          by_cases hd : isDigit s = true
          · simp only [hd, ↓reduceIte, Option.some.injEq] at h
            obtain ⟨ds, hds, hsplit, -⟩ := skipDigits_split r1
            rw [h] at hsplit
            refine ⟨c :: s :: ds, by simp [hsplit], ?_, ?_⟩
            · intro x hx
              simp only [List.mem_cons] at hx
              rcases hx with rfl | rfl | hx
              · exact hcn
              · exact numChar_of_digit hd
              · exact numChar_of_digit (hds x hx)
            · intro t ht
              simp only [List.cons_append, scanExp, hc, ↓reduceIte, hs, Bool.false_eq_true, hd,
                skipDigits_append hds ht.notDigit]
          · simp [hd] at h
    · simp only [scanExp, hc, Bool.false_eq_true, ↓reduceIte, Option.some.injEq] at h
      exact ⟨[], by simp [h], by simp, fun t ht => by simpa using scanExp_delim ht⟩

theorem scanFrac_text {b r : Bytes} (h : scanFrac b = some r) :
    ∃ e, b = e ++ r ∧ (∀ c ∈ e, numChar c = true) ∧
      ∀ t, Delim t → scanFrac (e ++ t) = some t := by
  have hdelim : ∀ t, Delim t → scanFrac t = some t := by
    intro t ht
    cases t with
    | nil => rfl
    | cons c r0 =>
      obtain ⟨-, h0, -, -⟩ := ht c r0 rfl
      simp only [scanFrac, h0, decide_False, Bool.false_eq_true, ↓reduceIte]
      exact scanExp_delim ht
  cases b with
  | nil =>
    simp only [scanFrac, Option.some.injEq] at h
    subst h
    exact ⟨[], rfl, by simp, fun t ht => by simpa using hdelim t ht⟩
  | cons c r0 =>
    by_cases hc : c = 46
    · subst hc
      simp only [scanFrac, ↓reduceIte] at h
      cases r0 with
      | nil => simp at h
      | cons d r1 =>
        by_cases hd : isDigit d = true
        · simp only [hd, ↓reduceIte] at h
          obtain ⟨ds, hds, hsplit, hhead⟩ := skipDigits_split r1
          obtain ⟨e, he, hen, het⟩ := scanExp_text h
          refine ⟨46 :: d :: (ds ++ e), ?_, ?_, ?_⟩
          · simp only [List.cons_append, List.append_assoc, List.cons.injEq, true_and]
            rw [← he]
            exact hsplit
          · intro x hx
            simp only [List.mem_cons, List.mem_append] at hx
            rcases hx with rfl | rfl | hx | hx
            · decide
            · exact numChar_of_digit hd
            · exact numChar_of_digit (hds x hx)
            · exact hen x hx
          · intro t ht
            simp only [List.cons_append, scanFrac, ↓reduceIte, hd, List.append_assoc]
            have hnd : ∀ c r, e ++ t = c :: r → isDigit c = false := by
              intro x y hxy
              cases e with
              | nil => exact ht.notDigit x y (by simpa using hxy)
              | cons x0 e0 =>
                simp only [List.cons_append, List.cons.injEq] at hxy
                rw [← hxy.1]
                exact hhead x0 (e0 ++ r) (by rw [he]; rfl)
            rw [skipDigits_append hds hnd]
            exact het t ht
        · simp [hd] at h
    · simp only [scanFrac, hc, decide_False, Bool.false_eq_true, ↓reduceIte] at h
      obtain ⟨e, he, hen, het⟩ := scanExp_text h
      refine ⟨e, he, hen, ?_⟩
      intro t ht
      cases e with
      | nil => simpa using hdelim t ht
      | cons x0 e0 =>
        have hx0 : x0 = c := by
          simp only [List.cons_append, List.cons.injEq] at he
          exact he.1.symm
        simp only [List.cons_append, scanFrac, hx0, hc, decide_False, Bool.false_eq_true,
          ↓reduceIte]
        have := het t ht
        simpa only [List.cons_append, hx0] using this

theorem scanNumber_text {b r : Bytes} (h : scanNumber b = some r) :
    ∃ n, b = n ++ r ∧ IsNum n := by
  -- after the optional sign
  have body : ∀ (b1 : Bytes),
      (match b1 with
        | c :: r0 =>
          if c = 48 then scanFrac r0
          else if (49 ≤ c && c ≤ 57) = true then scanFrac (skipDigits r0)
          else none
        | [] => none) = some r →
      ∃ n, b1 = n ++ r ∧ (∀ c ∈ n, numChar c = true) ∧
        (∃ c r0, n = c :: r0 ∧ isDigit c = true) ∧
        ∀ t, Delim t →
          (match n ++ t with
            | c :: r0 =>
              if c = 48 then scanFrac r0
              else if (49 ≤ c && c ≤ 57) = true then scanFrac (skipDigits r0)
              else none
            | [] => none) = some t := by
    intro b1 hb
    cases b1 with
    | nil => simp at hb
    | cons c r0 =>
      by_cases h0 : c = 48
      · subst h0
        simp only [↓reduceIte] at hb
        obtain ⟨e, he, hen, het⟩ := scanFrac_text hb
        refine ⟨48 :: e, by simp [he], ?_, ⟨48, e, rfl, by decide⟩, ?_⟩
        · intro x hx
          rcases List.mem_cons.mp hx with rfl | hx
          · decide
          · exact hen x hx
        · intro t ht
          simp only [List.cons_append, ↓reduceIte]
          exact het t ht
      · by_cases h19 : (49 ≤ c && c ≤ 57) = true
        · simp only [h0, ↓reduceIte, h19] at hb
          have hcd : isDigit c = true := by
            simp only [isDigit, Bool.and_eq_true, decide_eq_true_eq, u8_le, UInt8.toNat_ofNat,
              UInt8.size] at h19 ⊢
            omega
          obtain ⟨ds, hds, hsplit, hhead⟩ := skipDigits_split r0
          obtain ⟨e, he, hen, het⟩ := scanFrac_text hb
          refine ⟨c :: (ds ++ e), ?_, ?_, ⟨c, ds ++ e, rfl, hcd⟩, ?_⟩
          · simp only [List.cons_append, List.append_assoc, List.cons.injEq, true_and]
            rw [← he]
            exact hsplit
          · intro x hx
            simp only [List.mem_cons, List.mem_append] at hx
            rcases hx with rfl | hx | hx
            · exact numChar_of_digit hcd
            · exact numChar_of_digit (hds x hx)
            · exact hen x hx
          · intro t ht
            simp only [List.cons_append, h0, ↓reduceIte, h19, List.append_assoc]
            have hnd : ∀ c r, e ++ t = c :: r → isDigit c = false := by
              intro x y hxy
              cases e with
              | nil => exact ht.notDigit x y (by simpa using hxy)
              | cons x0 e0 =>
                simp only [List.cons_append, List.cons.injEq] at hxy
                rw [← hxy.1]
                exact hhead x0 (e0 ++ r) (by rw [he]; rfl)
            rw [skipDigits_append hds hnd]
            exact het t ht
        · simp [h0, h19] at hb
  cases b with
  | nil => simp [scanNumber] at h
  | cons c r0 =>
    by_cases hm : c = 45
    · subst hm
      simp only [scanNumber, ↓reduceIte] at h
      obtain ⟨n, hn, hnc, -, hnt⟩ := body r0 h
      refine ⟨45 :: n, by simp [hn], ⟨?_, ⟨45, n, rfl, Or.inl rfl⟩, ?_⟩⟩
      · intro x hx
        rcases List.mem_cons.mp hx with rfl | hx
        · decide
        · exact hnc x hx
      · intro t ht
        simp only [List.cons_append, scanNumber, ↓reduceIte]
        exact hnt t ht
    · simp only [scanNumber, hm, ↓reduceIte] at h
      obtain ⟨n, hn, hnc, ⟨x0, n0, hx0, hxd⟩, hnt⟩ := body (c :: r0) h
      refine ⟨n, hn, ⟨hnc, ⟨x0, n0, hx0, Or.inr hxd⟩, ?_⟩⟩
      intro t ht
      have hx45 : x0 ≠ 45 := by
        intro e
        subst e
        exact absurd hxd (by decide)
      rw [hx0]
      simp only [List.cons_append, scanNumber, hx45, ↓reduceIte]
      have := hnt t ht
      rw [hx0] at this
      simpa only [List.cons_append] using this

/-! ### `indent` and `compact` outside strings -/

theorem indent_open (d : Nat) (c : UInt8) (r : Bytes) (hc : c = 123 ∨ c = 91) :
    indent d false false false (c :: r) = c :: indent d true false false r := by
  rcases hc with rfl | rfl
  · rw [indent]
    simp [show isSpace (123 : UInt8) = false from by decide]
  · rw [indent]
    simp [show isSpace (91 : UInt8) = false from by decide]

theorem indent_comma (d : Nat) (r : Bytes) :
    indent d false false false (44 :: r) = 44 :: (newline d ++ indent d false false false r) := by
  rw [indent]
  simp [show isSpace (44 : UInt8) = false from by decide]

theorem indent_colon (d : Nat) (r : Bytes) :
    indent d false false false (58 :: r) = 58 :: 32 :: indent d false false false r := by
  rw [indent]
  simp [show isSpace (58 : UInt8) = false from by decide]

theorem indent_close (d : Nat) (c : UInt8) (r : Bytes) (hc : c = 125 ∨ c = 93) :
    indent d false false false (c :: r)
      = newline (d - 1) ++ c :: indent (d - 1) false false false r := by
  rcases hc with rfl | rfl
  · rw [indent]
    simp [show isSpace (125 : UInt8) = false from by decide]
  · rw [indent]
    simp [show isSpace (93 : UInt8) = false from by decide]

theorem indent_close_need (d : Nat) (c : UInt8) (r : Bytes) (hc : c = 125 ∨ c = 93) :
    indent d true false false (c :: r) = c :: indent d false false false r := by
  rcases hc with rfl | rfl
  · rw [indent]
    simp [show isSpace (125 : UInt8) = false from by decide]
  · rw [indent]
    simp [show isSpace (93 : UInt8) = false from by decide]

theorem indent_quote (d : Nat) (r : Bytes) :
    indent d false false false (34 :: r) = 34 :: indent d false true false r := by
  rw [indent]
  simp [show isSpace (34 : UInt8) = false from by decide]

theorem indent_need (d : Nat) (c : UInt8) (r : Bytes) (hs : isSpace c = false)
    (h1 : c ≠ 125) (h2 : c ≠ 93) :
    indent d true false false (c :: r)
      = newline (d + 1) ++ indent (d + 1) false false false (c :: r) := by
  rw [indent, indent]
  simp only [Bool.false_eq_true, ↓reduceIte, hs, h1, h2, decide_False, Bool.or_self,
    List.nil_append]
  split_ifs <;> simp

theorem indent_other (d : Nat) (c : UInt8) (r : Bytes) (hs : isSpace c = false)
    (h1 : c ≠ 125) (h2 : c ≠ 93) (h3 : c ≠ 123) (h4 : c ≠ 91) (h5 : c ≠ 44) (h6 : c ≠ 58)
    (h7 : c ≠ 34) :
    indent d false false false (c :: r) = c :: indent d false false false r := by
  rw [indent]
  simp [hs, h1, h2, h3, h4, h5, h6, h7]

theorem indent_space {ws : Bytes} (hws : AllSpace ws) (d : Nat) (n : Bool) (b : Bytes) :
    indent d n false false (ws ++ b) = indent d n false false b := by
  induction ws with
  | nil => rfl
  | cons c ws ih =>
    have hc : isSpace c = true := hws c (List.mem_cons_self _ _)
    simp only [List.cons_append]
    rw [indent]
    simp only [Bool.false_eq_true, ↓reduceIte, hc]
    exact ih (fun x hx => hws x (List.mem_cons_of_mem _ hx))

theorem isSpace_facts {c : UInt8} (h : isSpace c = true) :
    c ≠ 60 ∧ c ≠ 62 ∧ c ≠ 38 ∧ c ≠ 226 := by
  simp only [isSpace, Bool.or_eq_true, decide_eq_true_eq] at h
  rcases h with ((rfl | rfl) | rfl) | rfl <;> decide

theorem compact_space {ws : Bytes} (hws : AllSpace ws) (b : Bytes) :
    compact 0 false false (ws ++ b) = compact 0 false false b := by
  induction ws with
  | nil => rfl
  | cons c ws ih =>
    have hc : isSpace c = true := hws c (List.mem_cons_self _ _)
    have f := isSpace_facts hc
    simp only [List.cons_append]
    rw [compact_plain _ _ _ _ f.1 f.2.1 f.2.2.1 f.2.2.2]
    simp only [Bool.false_eq_true, ↓reduceIte, hc]
    exact ih (fun x hx => hws x (List.mem_cons_of_mem _ hx))

theorem compact_char (c : UInt8) (r : Bytes) (hs : isSpace c = false)
    (h1 : c ≠ 60) (h2 : c ≠ 62) (h3 : c ≠ 38) (h4 : c ≠ 226) (h5 : c ≠ 34) :
    compact 0 false false (c :: r) = c :: compact 0 false false r := by
  rw [compact_plain _ _ _ _ h1 h2 h3 h4]
  simp [hs, h5]

theorem compact_quote (r : Bytes) :
    compact 0 false false (34 :: r) = 34 :: compact 0 true false r := by
  rw [compact_plain _ _ _ _ (by decide) (by decide) (by decide) (by decide)]
  simp [show isSpace (34 : UInt8) = false from by decide]

/-! ### Numbers pass through -/

theorem numChar_facts {c : UInt8} (h : numChar c = true) :
    isSpace c = false ∧ c ≠ 60 ∧ c ≠ 62 ∧ c ≠ 38 ∧ c ≠ 226 ∧ c ≠ 34 ∧ c ≠ 92 ∧ c ≠ 123 ∧
      c ≠ 125 ∧ c ≠ 91 ∧ c ≠ 93 ∧ c ≠ 44 ∧ c ≠ 58 ∧ c ≠ 116 ∧ c ≠ 102 ∧ c ≠ 110 := by
  simp only [numChar, isDigit, isSpace, Bool.or_eq_true, Bool.and_eq_true, decide_eq_true_eq,
    Bool.or_eq_false_iff, decide_eq_false_iff_not, u8_le, u8_lt, u8_eq, ne_eq,
    UInt8.toNat_ofNat, UInt8.size] at *
  omega

theorem compact_number {n : Bytes} (hn : ∀ c ∈ n, numChar c = true) (t : Bytes) :
    compact 0 false false (n ++ t) = n ++ compact 0 false false t := by
  induction n with
  | nil => rfl
  | cons c n ih =>
    have f := numChar_facts (hn c (List.mem_cons_self _ _))
    simp only [List.cons_append]
    rw [compact_char c _ f.1 f.2.1 f.2.2.1 f.2.2.2.1 f.2.2.2.2.1 f.2.2.2.2.2.1,
      ih (fun x hx => hn x (List.mem_cons_of_mem _ hx))]

theorem indent_number {n : Bytes} (hn : ∀ c ∈ n, numChar c = true) (d : Nat) (t : Bytes) :
    indent d false false false (n ++ t) = n ++ indent d false false false t := by
  induction n with
  | nil => rfl
  | cons c n ih =>
    have f := numChar_facts (hn c (List.mem_cons_self _ _))
    simp only [List.cons_append]
    rw [indent_other d c _ f.1 f.2.2.2.2.2.2.2.2.1 f.2.2.2.2.2.2.2.2.2.2.1
      f.2.2.2.2.2.2.2.1 f.2.2.2.2.2.2.2.2.2.1 f.2.2.2.2.2.2.2.2.2.2.2.1
      f.2.2.2.2.2.2.2.2.2.2.2.2.1 f.2.2.2.2.2.1,
      ih (fun x hx => hn x (List.mem_cons_of_mem _ hx))]

/-! ### Heads of values -/

theorem Good.head {mode : Mode} {p : Bytes} (h : Good mode p) :
    ∃ c r, p = c :: r ∧ isSpace c = false ∧ c ≠ 125 ∧ c ≠ 93 ∧ c ≠ 44 ∧ c ≠ 58 := by
  induction h with
  | str c _ => exact ⟨34, _, rfl, by decide, by decide, by decide, by decide, by decide⟩
  | num n hn =>
    obtain ⟨hc, ⟨c, r, rfl, hh⟩, -⟩ := hn
    have f := numChar_facts (hc c (List.mem_cons_self _ _))
    exact ⟨c, r, rfl, f.1, f.2.2.2.2.2.2.2.2.1, f.2.2.2.2.2.2.2.2.2.2.1,
      f.2.2.2.2.2.2.2.2.2.2.2.1, f.2.2.2.2.2.2.2.2.2.2.2.2.1⟩
  | litTrue => exact ⟨116, _, rfl, by decide, by decide, by decide, by decide, by decide⟩
  | litFalse => exact ⟨102, _, rfl, by decide, by decide, by decide, by decide, by decide⟩
  | litNull => exact ⟨110, _, rfl, by decide, by decide, by decide, by decide, by decide⟩
  | emptyObj ws _ => exact ⟨123, _, rfl, by decide, by decide, by decide, by decide, by decide⟩
  | obj ws m _ _ _ => exact ⟨123, _, rfl, by decide, by decide, by decide, by decide, by decide⟩
  | emptyArr ws _ => exact ⟨91, _, rfl, by decide, by decide, by decide, by decide, by decide⟩
  | arr ws e _ _ _ => exact ⟨91, _, rfl, by decide, by decide, by decide, by decide, by decide⟩
  | memberLast k ws1 ws2 v ws3 _ _ _ _ _ _ => exact ⟨34, _, rfl, by decide, by decide, by decide, by decide, by decide⟩
  | memberMore k ws1 ws2 v ws3 ws4 m _ _ _ _ _ _ _ _ _ => exact ⟨34, _, rfl, by decide, by decide, by decide, by decide, by decide⟩
  | elemLast v ws _ _ ih =>
    obtain ⟨c, r, rfl, hc⟩ := ih
    exact ⟨c, _, rfl, hc⟩
  | elemMore v ws1 ws2 e _ _ _ _ ih _ =>
    obtain ⟨c, r, rfl, hc⟩ := ih
    exact ⟨c, _, rfl, hc⟩

theorem delim_of_space_or {t : Bytes} (h : ∀ c r, t = c :: r → isSpace c = true ∨ c = 44 ∨
    c = 125 ∨ c = 93 ∨ c = 10) : Delim t := by
  intro c r hcr
  have := h c r hcr
  simp only [isDigit, isSpace, Bool.or_eq_true, Bool.and_eq_true, decide_eq_true_eq,
    Bool.and_eq_false_iff, decide_eq_false_iff_not, u8_le, u8_lt, u8_eq, ne_eq,
    UInt8.toNat_ofNat, UInt8.size] at *
  omega

theorem delim_space_append {ws : Bytes} (hws : AllSpace ws) (c : UInt8) (r : Bytes)
    (hc : c = 44 ∨ c = 125 ∨ c = 93) : Delim (ws ++ c :: r) := by
  apply delim_of_space_or
  intro x y hxy
  cases ws with
  | nil =>
    simp only [List.nil_append, List.cons.injEq] at hxy
    rw [← hxy.1]
    rcases hc with h | h | h <;> simp [h]
  | cons w ws =>
    simp only [List.cons_append, List.cons.injEq] at hxy
    rw [← hxy.1]
    exact Or.inl (hws w (List.mem_cons_self _ _))

theorem delim_nil : Delim [] := by
  intro c r h
  simp at h

/-! ### What the scanner accepts is in the grammar -/

theorem scan_value (fuel : Nat) (c : UInt8) (r : Bytes) :
    scan (fuel + 1) .value (c :: r) =
      if c = 123 then
        match skipSpace r with
        | d :: r1 => if d = 125 then some r1 else scan fuel .members (d :: r1)
        | [] => none
      else if c = 91 then
        match skipSpace r with
        | d :: r1 => if d = 93 then some r1 else scan fuel .elems (d :: r1)
        | [] => none
      else if c = 34 then scanString r
      else if c = 116 then
        match r with
        | 114 :: 117 :: 101 :: r1 => some r1
        | _ => none
      else if c = 102 then
        match r with
        | 97 :: 108 :: 115 :: 101 :: r1 => some r1
        | _ => none
      else if c = 110 then
        match r with
        | 117 :: 108 :: 108 :: r1 => some r1
        | _ => none
      else scanNumber (c :: r) := rfl

theorem scan_members (fuel : Nat) (c : UInt8) (r : Bytes) :
    scan (fuel + 1) .members (c :: r) =
      if c = 34 then
        match scanString r with
        | none => none
        | some r1 =>
          match skipSpace r1 with
          | d :: r2 =>
            if d = 58 then
              match scan fuel .value (skipSpace r2) with
              | none => none
              | some r3 =>
                match skipSpace r3 with
                | e :: r4 =>
                  if e = 44 then scan fuel .members (skipSpace r4)
                  else if e = 125 then some r4
                  else none
                | [] => none
            else none
          | [] => none
      else none := rfl

theorem scan_elems (fuel : Nat) (b : Bytes) :
    scan (fuel + 1) .elems b =
      match scan fuel .value b with
      | none => none
      | some r1 =>
        match skipSpace r1 with
        | e :: r2 =>
          if e = 44 then scan fuel .elems (skipSpace r2)
          else if e = 93 then some r2
          else none
        | [] => none := rfl

theorem scan_good : ∀ (fuel : Nat) (mode : Mode) (b r : Bytes), scan fuel mode b = some r →
    ∃ p, b = p ++ r ∧ Good mode p := by
  intro fuel
  induction fuel with
  | zero =>
    intro mode b r h
    simp [scan] at h
  | succ fuel ih =>
    intro mode b r h
    cases mode with
    | value =>
      cases b with
      | nil => simp [scan] at h
      | cons c r0 =>
        rw [scan_value] at h
        by_cases h123 : c = 123
        · subst h123
          simp only [↓reduceIte] at h
          obtain ⟨ws, hws, hsplit, -⟩ := skipSpace_split r0
          cases hsk : skipSpace r0 with
          | nil => simp [hsk] at h
          | cons d r1 =>
            rw [hsk] at h hsplit
            simp only at h
            by_cases hd : d = 125
            · subst hd
              simp only [↓reduceIte, Option.some.injEq] at h
              subst h
              exact ⟨123 :: (ws ++ [125]), by simp [hsplit], Good.emptyObj ws hws⟩
            · simp only [hd, ↓reduceIte] at h
              obtain ⟨m, hm, hgm⟩ := ih .members _ _ h
              refine ⟨123 :: (ws ++ m), ?_, Good.obj ws m hws hgm⟩
              simp only [List.cons_append, List.append_assoc, List.cons.injEq, true_and]
              rw [← hm]
              exact hsplit
        · by_cases h91 : c = 91
          · subst h91
            simp only [h123, ↓reduceIte] at h
            obtain ⟨ws, hws, hsplit, -⟩ := skipSpace_split r0
            cases hsk : skipSpace r0 with
            | nil => simp [hsk] at h
            | cons d r1 =>
              rw [hsk] at h hsplit
              simp only at h
              by_cases hd : d = 93
              · subst hd
                simp only [↓reduceIte, Option.some.injEq] at h
                subst h
                exact ⟨91 :: (ws ++ [93]), by simp [hsplit], Good.emptyArr ws hws⟩
              · simp only [hd, ↓reduceIte] at h
                obtain ⟨m, hm, hgm⟩ := ih .elems _ _ h
                refine ⟨91 :: (ws ++ m), ?_, Good.arr ws m hws hgm⟩
                simp only [List.cons_append, List.append_assoc, List.cons.injEq, true_and]
                rw [← hm]
                exact hsplit
          · by_cases h34 : c = 34
            · subst h34
              simp only [h123, h91, ↓reduceIte] at h
              obtain ⟨k, hk, hbody⟩ := scanString_body h
              exact ⟨34 :: (k ++ [34]), by simp [hk], Good.str k hbody⟩
            · by_cases h116 : c = 116
              · subst h116
                simp only [h123, h91, h34, ↓reduceIte] at h
                split at h
                · simp only [Option.some.injEq] at h
                  subst h
                  exact ⟨[116, 114, 117, 101], rfl, Good.litTrue⟩
                · simp at h
              · by_cases h102 : c = 102
                · subst h102
                  simp only [h123, h91, h34, h116, ↓reduceIte] at h
                  split at h
                  · simp only [Option.some.injEq] at h
                    subst h
                    exact ⟨[102, 97, 108, 115, 101], rfl, Good.litFalse⟩
                  · simp at h
                · by_cases h110 : c = 110
                  · subst h110
                    simp only [h123, h91, h34, h116, h102, ↓reduceIte] at h
                    split at h
                    · simp only [Option.some.injEq] at h
                      subst h
                      exact ⟨[110, 117, 108, 108], rfl, Good.litNull⟩
                    · simp at h
                  · simp only [h123, h91, h34, h116, h102, h110, ↓reduceIte] at h
                    obtain ⟨n, hn, hnum⟩ := scanNumber_text h
                    exact ⟨n, hn, Good.num n hnum⟩
    | members =>
      cases b with
      | nil => simp [scan] at h
      | cons c r0 =>
        rw [scan_members] at h
        by_cases h34 : c = 34
        · subst h34
          simp only [↓reduceIte] at h
          cases hs : scanString r0 with
          | none => simp [hs] at h
          | some r1 =>
            rw [hs] at h
            simp only at h
            obtain ⟨k, hk, hbody⟩ := scanString_body hs
            obtain ⟨ws1, hws1, hsplit1, -⟩ := skipSpace_split r1
            cases hsk1 : skipSpace r1 with
            | nil => simp [hsk1] at h
            | cons d r2 =>
              rw [hsk1] at h hsplit1
              simp only at h
              by_cases hd : d = 58
              · subst hd
                simp only [↓reduceIte] at h
                obtain ⟨ws2, hws2, hsplit2, -⟩ := skipSpace_split r2
                cases hv : scan fuel .value (skipSpace r2) with
                | none => simp [hv] at h
                | some r3 =>
                  rw [hv] at h
                  simp only at h
                  obtain ⟨v, hvv, hgv⟩ := ih .value _ _ hv
                  obtain ⟨ws3, hws3, hsplit3, -⟩ := skipSpace_split r3
                  cases hsk3 : skipSpace r3 with
                  | nil => simp [hsk3] at h
                  | cons e r4 =>
                    rw [hsk3] at h hsplit3
                    simp only at h
                    by_cases he : e = 44
                    · subst he
                      simp only [↓reduceIte] at h
                      obtain ⟨ws4, hws4, hsplit4, -⟩ := skipSpace_split r4
                      obtain ⟨m, hm, hgm⟩ := ih .members _ _ h
                      refine ⟨_, ?_, Good.memberMore k ws1 ws2 v ws3 ws4 m hbody hws1 hws2 hgv
                        hws3 hws4 hgm⟩
                      rw [hk, hsplit1, hsplit2, hvv, hsplit3, hsplit4, hm]
                      simp
                    · by_cases he2 : e = 125
                      · subst he2
                        simp only [he, ↓reduceIte, Option.some.injEq] at h
                        subst h
                        refine ⟨_, ?_, Good.memberLast k ws1 ws2 v ws3 hbody hws1 hws2 hgv hws3⟩
                        rw [hk, hsplit1, hsplit2, hvv, hsplit3]
                        simp
                      · simp [he, he2] at h
              · simp [hd] at h
        · simp [h34] at h
    | elems =>
      rw [scan_elems] at h
      cases hv : scan fuel .value b with
      | none => simp [hv] at h
      | some r1 =>
        rw [hv] at h
        simp only at h
        obtain ⟨v, hvv, hgv⟩ := ih .value _ _ hv
        obtain ⟨ws1, hws1, hsplit1, -⟩ := skipSpace_split r1
        cases hsk1 : skipSpace r1 with
        | nil => simp [hsk1] at h
        | cons e r2 =>
          rw [hsk1] at h hsplit1
          simp only at h
          by_cases he : e = 44
          · subst he
            simp only [↓reduceIte] at h
            obtain ⟨ws2, hws2, hsplit2, -⟩ := skipSpace_split r2
            obtain ⟨m, hm, hgm⟩ := ih .elems _ _ h
            refine ⟨_, ?_, Good.elemMore v ws1 ws2 m hgv hws1 hws2 hgm⟩
            rw [hvv, hsplit1, hsplit2, hm]
            simp
          · by_cases he2 : e = 93
            · subst he2
              simp only [he, ↓reduceIte, Option.some.injEq] at h
              subst h
              refine ⟨_, ?_, Good.elemLast v ws1 hgv hws1⟩
              rw [hvv, hsplit1]
              simp
            · simp [he, he2] at h

/-! ### The scanner accepts the grammar -/

theorem skipSpace_ws_cons {ws : Bytes} (hws : AllSpace ws) (c : UInt8) (r : Bytes)
    (hc : isSpace c = false) : skipSpace (ws ++ c :: r) = c :: r := by
  rw [skipSpace_append hws, skipSpace_of_head hc]

theorem good_scan {mode : Mode} {p : Bytes} (h : Good mode p) :
    ∀ (t : Bytes) (fuel : Nat), (mode = .value → Delim t) → p.length ≤ fuel →
      scan fuel mode (p ++ t) = some t := by
  induction h with
  | str c hc =>
    intro t fuel _ hf
    cases fuel with
    | zero => simp at hf
    | succ f =>
      simp only [List.cons_append, List.append_assoc, List.singleton_append, List.nil_append]
      rw [scan_value]
      simp only [show ¬ ((34 : UInt8) = 123) from by decide, show ¬ ((34 : UInt8) = 91) from by decide,
        ↓reduceIte]
      exact scanString_of_body hc t
  | num n hn =>
    intro t fuel hd hf
    obtain ⟨hc, ⟨c, r, rfl, hh⟩, hscan⟩ := hn
    have f := numChar_facts (hc c (List.mem_cons_self _ _))
    cases fuel with
    | zero => simp at hf
    | succ f0 =>
      have := hscan t (hd rfl)
      simp only [List.cons_append] at this ⊢
      rw [scan_value]
      simp only [f.2.2.2.2.2.2.2.1, f.2.2.2.2.2.2.2.2.2.1, f.2.2.2.2.2.1,
        f.2.2.2.2.2.2.2.2.2.2.2.2.2.1, f.2.2.2.2.2.2.2.2.2.2.2.2.2.2.1,
        f.2.2.2.2.2.2.2.2.2.2.2.2.2.2.2, ↓reduceIte]
      exact this
  | litTrue =>
    intro t fuel _ hf
    cases fuel with
    | zero => simp at hf
    | succ f => rfl
  | litFalse =>
    intro t fuel _ hf
    cases fuel with
    | zero => simp at hf
    | succ f => rfl
  | litNull =>
    intro t fuel _ hf
    cases fuel with
    | zero => simp at hf
    | succ f => rfl
  | emptyObj ws hws =>
    intro t fuel _ hf
    cases fuel with
    | zero => simp at hf
    | succ f =>
      simp only [List.cons_append, List.append_assoc, List.singleton_append, List.nil_append]
      rw [scan_value]
      simp only [↓reduceIte, skipSpace_ws_cons hws 125 t (by decide)]
  | obj ws m hws hm ih =>
    intro t fuel _ hf
    cases fuel with
    | zero => simp at hf
    | succ f =>
      obtain ⟨c, r, rfl, hsp, h125, -⟩ := hm.head
      simp only [List.length_cons, List.length_append] at hf
      have := ih t f (by simp) (by simp only [List.length_cons]; omega)
      simp only [List.cons_append, List.append_assoc] at this ⊢
      rw [scan_value]
      simp only [↓reduceIte, skipSpace_ws_cons hws c _ hsp, h125]
      exact this
  | emptyArr ws hws =>
    intro t fuel _ hf
    cases fuel with
    | zero => simp at hf
    | succ f =>
      simp only [List.cons_append, List.append_assoc, List.singleton_append, List.nil_append]
      rw [scan_value]
      simp only [show ¬ ((91 : UInt8) = 123) from by decide, ↓reduceIte,
        skipSpace_ws_cons hws 93 t (by decide)]
  | arr ws e hws he ih =>
    intro t fuel _ hf
    cases fuel with
    | zero => simp at hf
    | succ f =>
      obtain ⟨c, r, rfl, hsp, -, h93, -⟩ := he.head
      simp only [List.length_cons, List.length_append] at hf
      have := ih t f (by simp) (by simp only [List.length_cons]; omega)
      simp only [List.cons_append, List.append_assoc] at this ⊢
      rw [scan_value]
      simp only [show ¬ ((91 : UInt8) = 123) from by decide, ↓reduceIte,
        skipSpace_ws_cons hws c _ hsp, h93]
      exact this
  | memberLast k ws1 ws2 v ws3 hk hws1 hws2 hv hws3 ihv =>
    intro t fuel _ hf
    cases fuel with
    | zero => simp at hf
    | succ f =>
      obtain ⟨c, r, rfl, hsp, -⟩ := hv.head
      simp only [List.length_cons, List.length_append, List.length_singleton] at hf
      have hvs := ihv (ws3 ++ 125 :: t) f
        (fun _ => delim_space_append hws3 125 t (Or.inr (Or.inl rfl)))
        (by simp only [List.length_cons]; omega)
      simp only [List.cons_append, List.append_assoc, List.singleton_append, List.nil_append] at hvs ⊢
      rw [scan_members]
      simp only [↓reduceIte, scanString_of_body hk, skipSpace_ws_cons hws1 58 _ (by decide),
        skipSpace_ws_cons hws2 c _ hsp, hvs, skipSpace_ws_cons hws3 125 t (by decide),
        show ¬ ((125 : UInt8) = 44) from by decide]
  | memberMore k ws1 ws2 v ws3 ws4 m hk hws1 hws2 hv hws3 hws4 hm ihv ihm =>
    intro t fuel _ hf
    cases fuel with
    | zero => simp at hf
    | succ f =>
      obtain ⟨c, r, rfl, hsp, -⟩ := hv.head
      obtain ⟨c2, r2, rfl, hsp2, -⟩ := hm.head
      simp only [List.length_cons, List.length_append, List.length_singleton] at hf
      have hvs := ihv (ws3 ++ 44 :: (ws4 ++ (c2 :: r2 ++ t))) f
        (fun _ => delim_space_append hws3 44 _ (Or.inl rfl))
        (by simp only [List.length_cons]; omega)
      have hms := ihm t f (by simp) (by simp only [List.length_cons]; omega)
      simp only [List.cons_append, List.append_assoc, List.singleton_append, List.nil_append] at hvs hms ⊢
      rw [scan_members]
      simp only [↓reduceIte, scanString_of_body hk, skipSpace_ws_cons hws1 58 _ (by decide),
        skipSpace_ws_cons hws2 c _ hsp, hvs, skipSpace_ws_cons hws3 44 _ (by decide),
        skipSpace_ws_cons hws4 c2 _ hsp2, hms]
  | elemLast v ws hv hws ihv =>
    intro t fuel _ hf
    cases fuel with
    | zero =>
      obtain ⟨c, r, rfl, -⟩ := hv.head
      simp at hf
    | succ f =>
      simp only [List.length_cons, List.length_append, List.length_singleton] at hf
      have hvs := ihv (ws ++ 93 :: t) f
        (fun _ => delim_space_append hws 93 t (Or.inr (Or.inr rfl))) (by omega)
      simp only [List.append_assoc, List.singleton_append, List.nil_append] at hvs ⊢
      rw [scan_elems]
      simp only [hvs, skipSpace_ws_cons hws 93 t (by decide),
        show ¬ ((93 : UInt8) = 44) from by decide, ↓reduceIte]
  | elemMore v ws1 ws2 e hv hws1 hws2 he ihv ihe =>
    intro t fuel _ hf
    cases fuel with
    | zero =>
      obtain ⟨c, r, rfl, -⟩ := hv.head
      simp at hf
    | succ f =>
      obtain ⟨c2, r2, rfl, hsp2, -⟩ := he.head
      simp only [List.length_cons, List.length_append, List.length_singleton] at hf
      have hvs := ihv (ws1 ++ 44 :: (ws2 ++ (c2 :: r2 ++ t))) f
        (fun _ => delim_space_append hws1 44 _ (Or.inl rfl)) (by omega)
      have hes := ihe t f (by simp) (by simp only [List.length_cons]; omega)
      simp only [List.cons_append, List.append_assoc, List.singleton_append, List.nil_append] at hvs hes ⊢
      rw [scan_elems]
      simp only [hvs, skipSpace_ws_cons hws1 44 _ (by decide), ↓reduceIte,
        skipSpace_ws_cons hws2 c2 _ hsp2, hes]

/-! ### `compact` and `indent` on the grammar -/

theorem allSpace_nil : AllSpace [] := by
  intro c hc
  simp at hc

theorem allSpace_newline (d : Nat) : AllSpace (newline d) := by
  intro c hc
  simp only [newline, List.mem_cons, List.mem_replicate] at hc
  rcases hc with rfl | ⟨-, rfl⟩ <;> decide

theorem allSpace_single : AllSpace [32] := by
  intro c hc
  simp only [List.mem_singleton] at hc
  subst hc
  decide

theorem good_compact {mode : Mode} {p : Bytes} (h : Good mode p) :
    ∃ cp, Good mode cp ∧
      ∀ t, compact 0 false false (p ++ t) = cp ++ compact 0 false false t := by
  induction h with
  | str c hc =>
    obtain ⟨cc, hcc, hrec⟩ := compact_string c.length c (Nat.le_refl _) hc
    refine ⟨34 :: (cc ++ [34]), Good.str cc hcc, ?_⟩
    intro t
    simp only [List.cons_append, List.append_assoc, List.singleton_append, List.nil_append]
    rw [compact_quote, hrec]
  | num n hn => exact ⟨n, Good.num n hn, fun t => compact_number hn.1 t⟩
  | litTrue =>
    refine ⟨_, Good.litTrue, ?_⟩
    intro t
    simp only [List.cons_append, List.nil_append]
    rw [compact_char _ _ (by decide) (by decide) (by decide) (by decide) (by decide) (by decide),
      compact_char _ _ (by decide) (by decide) (by decide) (by decide) (by decide) (by decide),
      compact_char _ _ (by decide) (by decide) (by decide) (by decide) (by decide) (by decide),
      compact_char _ _ (by decide) (by decide) (by decide) (by decide) (by decide) (by decide)]
  | litFalse =>
    refine ⟨_, Good.litFalse, ?_⟩
    intro t
    simp only [List.cons_append, List.nil_append]
    rw [compact_char _ _ (by decide) (by decide) (by decide) (by decide) (by decide) (by decide),
      compact_char _ _ (by decide) (by decide) (by decide) (by decide) (by decide) (by decide),
      compact_char _ _ (by decide) (by decide) (by decide) (by decide) (by decide) (by decide),
      compact_char _ _ (by decide) (by decide) (by decide) (by decide) (by decide) (by decide),
      compact_char _ _ (by decide) (by decide) (by decide) (by decide) (by decide) (by decide)]
  | litNull =>
    refine ⟨_, Good.litNull, ?_⟩
    intro t
    simp only [List.cons_append, List.nil_append]
    rw [compact_char _ _ (by decide) (by decide) (by decide) (by decide) (by decide) (by decide),
      compact_char _ _ (by decide) (by decide) (by decide) (by decide) (by decide) (by decide),
      compact_char _ _ (by decide) (by decide) (by decide) (by decide) (by decide) (by decide),
      compact_char _ _ (by decide) (by decide) (by decide) (by decide) (by decide) (by decide)]
  | emptyObj ws hws =>
    refine ⟨123 :: ([] ++ [125]), Good.emptyObj [] allSpace_nil, ?_⟩
    intro t
    simp only [List.cons_append, List.append_assoc, List.singleton_append, List.nil_append]
    rw [compact_char _ _ (by decide) (by decide) (by decide) (by decide) (by decide) (by decide),
      compact_space hws,
      compact_char _ _ (by decide) (by decide) (by decide) (by decide) (by decide) (by decide)]
  | obj ws m hws _ ih =>
    obtain ⟨cm, hcm, hrec⟩ := ih
    refine ⟨123 :: ([] ++ cm), Good.obj [] cm allSpace_nil hcm, ?_⟩
    intro t
    simp only [List.cons_append, List.append_assoc, List.nil_append]
    rw [compact_char _ _ (by decide) (by decide) (by decide) (by decide) (by decide) (by decide),
      compact_space hws, hrec]
  | emptyArr ws hws =>
    refine ⟨91 :: ([] ++ [93]), Good.emptyArr [] allSpace_nil, ?_⟩
    intro t
    simp only [List.cons_append, List.append_assoc, List.singleton_append, List.nil_append]
    rw [compact_char _ _ (by decide) (by decide) (by decide) (by decide) (by decide) (by decide),
      compact_space hws,
      compact_char _ _ (by decide) (by decide) (by decide) (by decide) (by decide) (by decide)]
  | arr ws e hws _ ih =>
    obtain ⟨ce, hce, hrec⟩ := ih
    refine ⟨91 :: ([] ++ ce), Good.arr [] ce allSpace_nil hce, ?_⟩
    intro t
    simp only [List.cons_append, List.append_assoc, List.nil_append]
    rw [compact_char _ _ (by decide) (by decide) (by decide) (by decide) (by decide) (by decide),
      compact_space hws, hrec]
  | memberLast k ws1 ws2 v ws3 hk hws1 hws2 _ hws3 ihv =>
    obtain ⟨kk, hkk, hkrec⟩ := compact_string k.length k (Nat.le_refl _) hk
    obtain ⟨cv, hcv, hvrec⟩ := ihv
    refine ⟨_, Good.memberLast kk [] [] cv [] hkk allSpace_nil allSpace_nil hcv allSpace_nil, ?_⟩
    intro t
    simp only [List.cons_append, List.append_assoc, List.singleton_append, List.nil_append]
    rw [compact_quote, hkrec, compact_space hws1,
      compact_char _ _ (by decide) (by decide) (by decide) (by decide) (by decide) (by decide),
      compact_space hws2, hvrec, compact_space hws3,
      compact_char _ _ (by decide) (by decide) (by decide) (by decide) (by decide) (by decide)]
  | memberMore k ws1 ws2 v ws3 ws4 m hk hws1 hws2 _ hws3 hws4 _ ihv ihm =>
    obtain ⟨kk, hkk, hkrec⟩ := compact_string k.length k (Nat.le_refl _) hk
    obtain ⟨cv, hcv, hvrec⟩ := ihv
    obtain ⟨cm, hcm, hmrec⟩ := ihm
    refine ⟨_, Good.memberMore kk [] [] cv [] [] cm hkk allSpace_nil allSpace_nil hcv
      allSpace_nil allSpace_nil hcm, ?_⟩
    intro t
    simp only [List.cons_append, List.append_assoc, List.singleton_append, List.nil_append]
    rw [compact_quote, hkrec, compact_space hws1,
      compact_char _ _ (by decide) (by decide) (by decide) (by decide) (by decide) (by decide),
      compact_space hws2, hvrec, compact_space hws3,
      compact_char _ _ (by decide) (by decide) (by decide) (by decide) (by decide) (by decide),
      compact_space hws4, hmrec]
  | elemLast v ws _ hws ihv =>
    obtain ⟨cv, hcv, hvrec⟩ := ihv
    refine ⟨_, Good.elemLast cv [] hcv allSpace_nil, ?_⟩
    intro t
    simp only [List.cons_append, List.append_assoc, List.singleton_append, List.nil_append]
    rw [hvrec, compact_space hws,
      compact_char _ _ (by decide) (by decide) (by decide) (by decide) (by decide) (by decide)]
  | elemMore v ws1 ws2 e _ hws1 hws2 _ ihv ihe =>
    obtain ⟨cv, hcv, hvrec⟩ := ihv
    obtain ⟨ce, hce, herec⟩ := ihe
    refine ⟨_, Good.elemMore cv [] [] ce hcv allSpace_nil allSpace_nil hce, ?_⟩
    intro t
    simp only [List.cons_append, List.append_assoc, List.singleton_append, List.nil_append]
    rw [hvrec, compact_space hws1,
      compact_char _ _ (by decide) (by decide) (by decide) (by decide) (by decide) (by decide),
      compact_space hws2, herec]

theorem good_indent {mode : Mode} {p : Bytes} (h : Good mode p) :
    ∀ d, ∃ ip, Good mode ip ∧
      ∀ t, indent d false false false (p ++ t)
        = ip ++ indent (depthAfter mode d) false false false t := by
  induction h with
  | str c hc =>
    intro d
    refine ⟨34 :: (c ++ [34]), Good.str c hc, ?_⟩
    intro t
    simp only [List.cons_append, List.append_assoc, List.singleton_append, List.nil_append,
      depthAfter]
    rw [indent_quote, indent_string hc]
  | num n hn => exact fun d => ⟨n, Good.num n hn, fun t => indent_number hn.1 d t⟩
  | litTrue =>
    intro d
    refine ⟨_, Good.litTrue, ?_⟩
    intro t
    simp only [List.cons_append, List.nil_append, depthAfter]
    rw [indent_other _ _ _ (by decide) (by decide) (by decide) (by decide) (by decide) (by decide)
        (by decide) (by decide),
      indent_other _ _ _ (by decide) (by decide) (by decide) (by decide) (by decide) (by decide)
        (by decide) (by decide),
      indent_other _ _ _ (by decide) (by decide) (by decide) (by decide) (by decide) (by decide)
        (by decide) (by decide),
      indent_other _ _ _ (by decide) (by decide) (by decide) (by decide) (by decide) (by decide)
        (by decide) (by decide)]
  | litFalse =>
    intro d
    refine ⟨_, Good.litFalse, ?_⟩
    intro t
    simp only [List.cons_append, List.nil_append, depthAfter]
    rw [indent_other _ _ _ (by decide) (by decide) (by decide) (by decide) (by decide) (by decide)
        (by decide) (by decide),
      indent_other _ _ _ (by decide) (by decide) (by decide) (by decide) (by decide) (by decide)
        (by decide) (by decide),
      indent_other _ _ _ (by decide) (by decide) (by decide) (by decide) (by decide) (by decide)
        (by decide) (by decide),
      indent_other _ _ _ (by decide) (by decide) (by decide) (by decide) (by decide) (by decide)
        (by decide) (by decide),
      indent_other _ _ _ (by decide) (by decide) (by decide) (by decide) (by decide) (by decide)
        (by decide) (by decide)]
  | litNull =>
    intro d
    refine ⟨_, Good.litNull, ?_⟩
    intro t
    simp only [List.cons_append, List.nil_append, depthAfter]
    rw [indent_other _ _ _ (by decide) (by decide) (by decide) (by decide) (by decide) (by decide)
        (by decide) (by decide),
      indent_other _ _ _ (by decide) (by decide) (by decide) (by decide) (by decide) (by decide)
        (by decide) (by decide),
      indent_other _ _ _ (by decide) (by decide) (by decide) (by decide) (by decide) (by decide)
        (by decide) (by decide),
      indent_other _ _ _ (by decide) (by decide) (by decide) (by decide) (by decide) (by decide)
        (by decide) (by decide)]
  | emptyObj ws hws =>
    intro d
    refine ⟨123 :: ([] ++ [125]), Good.emptyObj [] allSpace_nil, ?_⟩
    intro t
    simp only [List.cons_append, List.append_assoc, List.singleton_append, List.nil_append,
      depthAfter]
    rw [indent_open _ _ _ (Or.inl rfl), indent_space hws, indent_close_need _ _ _ (Or.inl rfl)]
  | obj ws m hws hm ih =>
    intro d
    obtain ⟨im, him, hrec⟩ := ih (d + 1)
    obtain ⟨c, r, rfl, hsp, h125, h93, -⟩ := hm.head
    refine ⟨123 :: (newline (d + 1) ++ im), Good.obj _ im (allSpace_newline _) him, ?_⟩
    intro t
    simp only [List.cons_append, List.append_assoc, List.nil_append, depthAfter] at hrec ⊢
    rw [indent_open _ _ _ (Or.inl rfl), indent_space hws, indent_need _ _ _ hsp h125 h93, hrec]
    simp
  | emptyArr ws hws =>
    intro d
    refine ⟨91 :: ([] ++ [93]), Good.emptyArr [] allSpace_nil, ?_⟩
    intro t
    simp only [List.cons_append, List.append_assoc, List.singleton_append, List.nil_append,
      depthAfter]
    rw [indent_open _ _ _ (Or.inr rfl), indent_space hws, indent_close_need _ _ _ (Or.inr rfl)]
  | arr ws e hws he ih =>
    intro d
    obtain ⟨ie, hie, hrec⟩ := ih (d + 1)
    obtain ⟨c, r, rfl, hsp, h125, h93, -⟩ := he.head
    refine ⟨91 :: (newline (d + 1) ++ ie), Good.arr _ ie (allSpace_newline _) hie, ?_⟩
    intro t
    simp only [List.cons_append, List.append_assoc, List.nil_append, depthAfter] at hrec ⊢
    rw [indent_open _ _ _ (Or.inr rfl), indent_space hws, indent_need _ _ _ hsp h125 h93, hrec]
    simp
  | memberLast k ws1 ws2 v ws3 hk hws1 hws2 _ hws3 ihv =>
    intro d
    obtain ⟨iv, hiv, hvrec⟩ := ihv d
    refine ⟨_, Good.memberLast k [] [32] iv (newline (d - 1)) hk allSpace_nil allSpace_single hiv
      (allSpace_newline _), ?_⟩
    intro t
    simp only [List.cons_append, List.append_assoc, List.singleton_append, List.nil_append,
      depthAfter] at hvrec ⊢
    rw [indent_quote, indent_string hk, indent_space hws1, indent_colon, indent_space hws2, hvrec,
      indent_space hws3, indent_close _ _ _ (Or.inl rfl)]
  | memberMore k ws1 ws2 v ws3 ws4 m hk hws1 hws2 _ hws3 hws4 _ ihv ihm =>
    intro d
    obtain ⟨iv, hiv, hvrec⟩ := ihv d
    obtain ⟨im, him, hmrec⟩ := ihm d
    refine ⟨_, Good.memberMore k [] [32] iv [] (newline d) im hk allSpace_nil allSpace_single hiv
      allSpace_nil (allSpace_newline _) him, ?_⟩
    intro t
    simp only [List.cons_append, List.append_assoc, List.singleton_append, List.nil_append,
      depthAfter] at hvrec hmrec ⊢
    rw [indent_quote, indent_string hk, indent_space hws1, indent_colon, indent_space hws2, hvrec,
      indent_space hws3, indent_comma, indent_space hws4, hmrec]
  | elemLast v ws _ hws ihv =>
    intro d
    obtain ⟨iv, hiv, hvrec⟩ := ihv d
    refine ⟨_, Good.elemLast iv (newline (d - 1)) hiv (allSpace_newline _), ?_⟩
    intro t
    simp only [List.cons_append, List.append_assoc, List.singleton_append, List.nil_append,
      depthAfter] at hvrec ⊢
    rw [hvrec, indent_space hws, indent_close _ _ _ (Or.inr rfl)]
  | elemMore v ws1 ws2 e _ hws1 hws2 _ ihv ihe =>
    intro d
    obtain ⟨iv, hiv, hvrec⟩ := ihv d
    obtain ⟨ie, hie, herec⟩ := ihe d
    refine ⟨_, Good.elemMore iv [] (newline d) ie hiv allSpace_nil (allSpace_newline _) hie, ?_⟩
    intro t
    simp only [List.cons_append, List.append_assoc, List.singleton_append, List.nil_append,
      depthAfter] at hvrec herec ⊢
    rw [hvrec, indent_space hws1, indent_comma, indent_space hws2, herec]

/-! ### UTF-8 -/

set_option maxRecDepth 10000 in
theorem nat_cont : ∀ n, n < 256 → (n &&& 63) ||| 128 = 128 + n % 64 := by decide

set_option maxRecDepth 10000 in
theorem nat_lead2 : ∀ n, n < 256 → (n &&& 31) ||| 192 = 192 + n % 32 := by decide

set_option maxRecDepth 10000 in
theorem nat_lead3 : ∀ n, n < 256 → (n &&& 15) ||| 224 = 224 + n % 16 := by decide

set_option maxRecDepth 10000 in
theorem nat_lead4 : ∀ n, n < 256 → (n &&& 7) ||| 240 = 240 + n % 8 := by decide

theorem byte_cont (x : UInt8) : (x &&& 0x3f ||| 0x80).toNat = 128 + x.toNat % 64 := by
  rw [← nat_cont x.toNat (UInt8.toNat_lt x)]
  rfl

theorem byte_lead2 (x : UInt8) : (x &&& 0x1f ||| 0xc0).toNat = 192 + x.toNat % 32 := by
  rw [← nat_lead2 x.toNat (UInt8.toNat_lt x)]
  rfl

theorem byte_lead3 (x : UInt8) : (x &&& 0x0f ||| 0xe0).toNat = 224 + x.toNat % 16 := by
  rw [← nat_lead3 x.toNat (UInt8.toNat_lt x)]
  rfl

theorem byte_lead4 (x : UInt8) : (x &&& 0x07 ||| 0xf0).toNat = 240 + x.toNat % 8 := by
  rw [← nat_lead4 x.toNat (UInt8.toNat_lt x)]
  rfl

theorem shift_byte (v : UInt32) (k : Nat) (hk : k < 32) :
    (v >>> (UInt32.ofNat k)).toUInt8.toNat = (v.toNat / 2 ^ k) % 256 := by
  show ((v >>> (UInt32.ofNat k)).toNat).toUInt8.toNat = _
  rw [u8_ofNat_toNat]
  have : (v >>> (UInt32.ofNat k)).toNat = v.toNat >>> k := by
    show (v.toBitVec >>> ((UInt32.ofNat k).mod 32).toBitVec).toNat = _
    simp [BitVec.toNat_ushiftRight, UInt32.mod, UInt32.ofNat, BitVec.toNat_umod]
    congr 1
    omega
  rw [this, Nat.shiftRight_eq_div_pow]

theorem shift6 (v : UInt32) : (v >>> 6).toUInt8.toNat = (v.toNat / 64) % 256 := by
  show ((v >>> 6).toNat).toUInt8.toNat = _
  rw [u8_ofNat_toNat]
  have : (v >>> 6).toNat = v.toNat >>> 6 := rfl
  rw [this, Nat.shiftRight_eq_div_pow]

theorem shift12 (v : UInt32) : (v >>> 12).toUInt8.toNat = (v.toNat / 4096) % 256 := by
  show ((v >>> 12).toNat).toUInt8.toNat = _
  rw [u8_ofNat_toNat]
  have : (v >>> 12).toNat = v.toNat >>> 12 := rfl
  rw [this, Nat.shiftRight_eq_div_pow]

theorem shift18 (v : UInt32) : (v >>> 18).toUInt8.toNat = (v.toNat / 262144) % 256 := by
  show ((v >>> 18).toNat).toUInt8.toNat = _
  rw [u8_ofNat_toNat]
  have : (v >>> 18).toNat = v.toNat >>> 18 := rfl
  rw [this, Nat.shiftRight_eq_div_pow]

theorem low_byte (v : UInt32) : v.toUInt8.toNat = v.toNat % 256 := rfl

theorem u32_le (a b : UInt32) : a ≤ b ↔ a.toNat ≤ b.toNat := Iff.rfl

theorem char_valid (ch : Char) :
    ch.toNat < 55296 ∨ (57343 < ch.toNat ∧ ch.toNat < 1114112) := ch.valid

/-- The bytes of the encoding of a character, as numbers. -/
theorem utf8_bytes (ch : Char) :
    (ch.toNat ≤ 127 ∧ ∃ b0, String.utf8EncodeChar ch = [b0] ∧ b0.toNat = ch.toNat) ∨
    (127 < ch.toNat ∧ ch.toNat ≤ 2047 ∧ ∃ b0 b1, String.utf8EncodeChar ch = [b0, b1] ∧
      b0.toNat = 192 + ch.toNat / 64 ∧ b1.toNat = 128 + ch.toNat % 64) ∨
    (2047 < ch.toNat ∧ ch.toNat ≤ 65535 ∧ ∃ b0 b1 b2, String.utf8EncodeChar ch = [b0, b1, b2] ∧
      b0.toNat = 224 + ch.toNat / 4096 ∧ b1.toNat = 128 + ch.toNat / 64 % 64 ∧
      b2.toNat = 128 + ch.toNat % 64) ∨
    (65535 < ch.toNat ∧ ∃ b0 b1 b2 b3, String.utf8EncodeChar ch = [b0, b1, b2, b3] ∧
      b0.toNat = 240 + ch.toNat / 262144 ∧ b1.toNat = 128 + ch.toNat / 4096 % 64 ∧
      b2.toNat = 128 + ch.toNat / 64 % 64 ∧ b3.toNat = 128 + ch.toNat % 64) := by
  have hv := char_valid ch
  have hn : ch.toNat = ch.val.toNat := rfl
  unfold String.utf8EncodeChar
  simp only [u32_le]
  have e127 : (0x7f : UInt32).toNat = 127 := rfl
  have e2047 : (0x7ff : UInt32).toNat = 2047 := rfl
  have e65535 : (0xffff : UInt32).toNat = 65535 := rfl
  rw [e127, e2047, e65535, ← hn]
  by_cases h1 : ch.toNat ≤ 127
  · left
    refine ⟨h1, ch.val.toUInt8, by simp [h1], ?_⟩
    rw [low_byte, ← hn]
    omega
  · by_cases h2 : ch.toNat ≤ 2047
    · right; left
      refine ⟨by omega, h2, (ch.val >>> 6).toUInt8 &&& 0x1f ||| 0xc0,
        ch.val.toUInt8 &&& 0x3f ||| 0x80, by simp [h1, h2], ?_, ?_⟩
      · rw [byte_lead2, shift6, ← hn]
        omega
      · rw [byte_cont, low_byte, ← hn]
        omega
    · by_cases h3 : ch.toNat ≤ 65535
      · right; right; left
        refine ⟨by omega, h3, (ch.val >>> 12).toUInt8 &&& 0x0f ||| 0xe0,
          (ch.val >>> 6).toUInt8 &&& 0x3f ||| 0x80, ch.val.toUInt8 &&& 0x3f ||| 0x80,
          by simp [h1, h2, h3], ?_, ?_, ?_⟩
        · rw [byte_lead3, shift12, ← hn]
          omega
        · rw [byte_cont, shift6, ← hn]
          omega
        · rw [byte_cont, low_byte, ← hn]
          omega
      · right; right; right
        refine ⟨by omega, (ch.val >>> 18).toUInt8 &&& 0x07 ||| 0xf0,
          (ch.val >>> 12).toUInt8 &&& 0x3f ||| 0x80, (ch.val >>> 6).toUInt8 &&& 0x3f ||| 0x80,
          ch.val.toUInt8 &&& 0x3f ||| 0x80, by simp [h1, h2, h3], ?_, ?_, ?_, ?_⟩
        · rw [byte_lead4, shift18, ← hn]
          omega
        · rw [byte_cont, shift12, ← hn]
          omega
        · rw [byte_cont, shift6, ← hn]
          omega
        · rw [byte_cont, low_byte, ← hn]
          omega

theorem isCont_iff (b : UInt8) : isCont b = true ↔ 128 ≤ b.toNat ∧ b.toNat ≤ 191 := by
  simp only [isCont, Bool.and_eq_true, decide_eq_true_eq, u8_le, UInt8.toNat_ofNat, UInt8.size]

theorem decodeRune_utf8 (ch : Char) (rest : Bytes) :
    decodeRune (String.utf8EncodeChar ch ++ rest)
      = (ch.toNat, (String.utf8EncodeChar ch).length) := by
  have hv := char_valid ch
  rcases utf8_bytes ch with ⟨h1, b0, he, h0⟩ | ⟨h1, h2, b0, b1, he, h0, h1b⟩ |
    ⟨h1, h2, b0, b1, b2, he, h0, h1b, h2b⟩ | ⟨h1, b0, b1, b2, b3, he, h0, h1b, h2b, h3b⟩
  · rw [he]
    simp only [List.singleton_append, decodeRune, h0, List.length_singleton]
    simp [show ch.toNat < 128 from by omega]
  · rw [he]
    have hc : isCont b1 = true := (isCont_iff b1).mpr (by omega)
    simp only [List.cons_append, List.nil_append, decodeRune, h0, h1b, hc, List.length_cons,
      List.length_nil]
    have a1 : ¬ (192 + ch.toNat / 64 < 128) := by omega
    have a2 : (decide (194 ≤ 192 + ch.toNat / 64) && decide (192 + ch.toNat / 64 ≤ 223)) = true := by
      simp only [Bool.and_eq_true, decide_eq_true_eq]
      omega
    simp only [a1, ↓reduceIte, a2, Prod.mk.injEq, and_true]
    omega
  · rw [he]
    have hc : isCont b2 = true := (isCont_iff b2).mpr (by omega)
    simp only [List.cons_append, List.nil_append, decodeRune, h0, h1b, h2b, hc, List.length_cons,
      List.length_nil]
    have a1 : ¬ (224 + ch.toNat / 4096 < 128) := by omega
    have a2 : (decide (194 ≤ 224 + ch.toNat / 4096) && decide (224 + ch.toNat / 4096 ≤ 223))
        = false := by
      simp only [Bool.and_eq_false_iff, decide_eq_false_iff_not]
      omega
    have a3 : (decide (224 ≤ 224 + ch.toNat / 4096) && decide (224 + ch.toNat / 4096 ≤ 239))
        = true := by
      simp only [Bool.and_eq_true, decide_eq_true_eq]
      omega
    have a4 : (decide ((if 224 + ch.toNat / 4096 = 224 then 160 else 128)
          ≤ 128 + ch.toNat / 64 % 64) &&
        decide (128 + ch.toNat / 64 % 64 ≤ if 224 + ch.toNat / 4096 = 237 then 159 else 191))
        = true := by
      simp only [Bool.and_eq_true, decide_eq_true_eq]
      constructor
      · split <;> omega
      · split <;> omega
    simp only [a1, ↓reduceIte, a2, Bool.false_eq_true, a3, a4, Bool.and_self, Bool.true_and,
      Prod.mk.injEq, and_true]
    omega
  · rw [he]
    have hc2 : isCont b2 = true := (isCont_iff b2).mpr (by omega)
    have hc3 : isCont b3 = true := (isCont_iff b3).mpr (by omega)
    simp only [List.cons_append, List.nil_append, decodeRune, h0, h1b, h2b, h3b, hc2, hc3,
      List.length_cons, List.length_nil]
    have a1 : ¬ (240 + ch.toNat / 262144 < 128) := by omega
    have a2 : (decide (194 ≤ 240 + ch.toNat / 262144) && decide (240 + ch.toNat / 262144 ≤ 223))
        = false := by
      simp only [Bool.and_eq_false_iff, decide_eq_false_iff_not]
      omega
    have a3 : (decide (224 ≤ 240 + ch.toNat / 262144) && decide (240 + ch.toNat / 262144 ≤ 239))
        = false := by
      simp only [Bool.and_eq_false_iff, decide_eq_false_iff_not]
      omega
    have a5 : (decide (240 ≤ 240 + ch.toNat / 262144) && decide (240 + ch.toNat / 262144 ≤ 244))
        = true := by
      simp only [Bool.and_eq_true, decide_eq_true_eq]
      omega
    have a4 : (decide ((if 240 + ch.toNat / 262144 = 240 then 144 else 128)
          ≤ 128 + ch.toNat / 4096 % 64) &&
        decide (128 + ch.toNat / 4096 % 64 ≤ if 240 + ch.toNat / 262144 = 244 then 143 else 191))
        = true := by
      simp only [Bool.and_eq_true, decide_eq_true_eq]
      constructor
      · split <;> omega
      · split <;> omega
    simp only [a1, ↓reduceIte, a2, Bool.false_eq_true, a3, a5, a4, Bool.and_self, Bool.true_and,
      Prod.mk.injEq, and_true]
    omega

/-! ### Quoting and unquoting strings -/

theorem unquote_skip (k : Nat) (c : UInt8) (r : Bytes) : unquote (k + 1) (c :: r) = unquote k r := by
  rw [unquote]

theorem unquote_skip_append (l r : Bytes) : unquote l.length (l ++ r) = unquote 0 r := by
  induction l with
  | nil => rfl
  | cons c l ih =>
    simp only [List.length_cons, List.cons_append]
    rw [unquote_skip, ih]

theorem unquote_plain (c : UInt8) (r : Bytes) (hc : c ≠ 92) :
    unquote 0 (c :: r)
      = Char.ofNat (decodeRune (c :: r)).1 :: unquote ((decodeRune (c :: r)).2 - 1) r := by
  rw [unquote.eq_def]
  simp [hc]

theorem unquote_esc (e : UInt8) (r : Bytes) (he : e ≠ 117) :
    unquote 0 (92 :: e :: r) =
      (if e = 98 then Char.ofNat 8
       else if e = 102 then Char.ofNat 12
       else if e = 110 then Char.ofNat 10
       else if e = 114 then Char.ofNat 13
       else if e = 116 then Char.ofNat 9
       else Char.ofNat e.toNat) :: unquote 0 r := by
  rw [unquote.eq_def]
  simp only [↓reduceIte, he]
  split_ifs <;> simp [unquote]

theorem quoteChar_cases (ch : Char) :
    (ch.toNat = 34 ∧ quoteChar ch = [92, 34]) ∨ (ch.toNat = 92 ∧ quoteChar ch = [92, 92]) ∨
    (ch.toNat = 8 ∧ quoteChar ch = [92, 98]) ∨ (ch.toNat = 12 ∧ quoteChar ch = [92, 102]) ∨
    (ch.toNat = 10 ∧ quoteChar ch = [92, 110]) ∨ (ch.toNat = 13 ∧ quoteChar ch = [92, 114]) ∨
    (ch.toNat = 9 ∧ quoteChar ch = [92, 116]) ∨
    (ch.toNat < 64 ∧
      quoteChar ch = [92, 117, 48, 48, hexDigit (ch.toNat / 16), hexDigit (ch.toNat % 16)]) ∨
    (ch.toNat = 8232 ∧ quoteChar ch = [92, 117, 50, 48, 50, 56]) ∨
    (ch.toNat = 8233 ∧ quoteChar ch = [92, 117, 50, 48, 50, 57]) ∨
    (32 ≤ ch.toNat ∧ ch.toNat ≠ 34 ∧ ch.toNat ≠ 92 ∧ quoteChar ch = String.utf8EncodeChar ch) := by
  unfold quoteChar
  simp only
  split_ifs with h1 h2 h3 h4 h5 h6 h7 h8 h9
  · simp only [Bool.or_eq_true, decide_eq_true_eq] at h1
    rcases h1 with h | h
    · left
      exact ⟨h, by rw [h]; rfl⟩
    · right; left
      exact ⟨h, by rw [h]; rfl⟩
  · right; right; left; exact ⟨h2, rfl⟩
  · right; right; right; left; exact ⟨h3, rfl⟩
  · right; right; right; right; left; exact ⟨h4, rfl⟩
  · right; right; right; right; right; left; exact ⟨h5, rfl⟩
  · right; right; right; right; right; right; left; exact ⟨h6, rfl⟩
  · right; right; right; right; right; right; right; left
    simp only [Bool.or_eq_true, decide_eq_true_eq] at h7
    exact ⟨by omega, rfl⟩
  · right; right; right; right; right; right; right; right; left; exact ⟨h8, rfl⟩
  · right; right; right; right; right; right; right; right; right; left; exact ⟨h9, rfl⟩
  · right; right; right; right; right; right; right; right; right; right
    simp only [Bool.or_eq_true, decide_eq_true_eq, not_or] at h1 h7
    exact ⟨by omega, h1.1, h1.2, rfl⟩

theorem unquote_uni (h1 h2 h3 h4 : UInt8) (r : Bytes) (hu : hex4 h1 h2 h3 h4 < 55296) :
    unquote 0 (92 :: 117 :: h1 :: h2 :: h3 :: h4 :: r)
      = Char.ofNat (hex4 h1 h2 h3 h4) :: unquote 0 r := by
  rw [unquote.eq_def]
  have hns : (decide (55296 ≤ hex4 h1 h2 h3 h4) && decide (hex4 h1 h2 h3 h4 < 57344)) = false := by
    simp only [Bool.and_eq_false_iff, decide_eq_false_iff_not]
    omega
  simp only [↓reduceIte, hns, Bool.false_eq_true]
  simp [unquote]

theorem hexVal_hexDigit : ∀ k, k < 16 → hexVal (hexDigit k) = k := by decide

theorem quoteChar_spec (ch : Char) (rest : Bytes) (hrest : StrBody rest) :
    StrBody (quoteChar ch ++ rest) ∧ unquote 0 (quoteChar ch ++ rest) = ch :: unquote 0 rest := by
  have hch : Char.ofNat ch.toNat = ch := Char.ofNat_toNat ch
  rcases quoteChar_cases ch with ⟨h, hq⟩ | ⟨h, hq⟩ | ⟨h, hq⟩ | ⟨h, hq⟩ | ⟨h, hq⟩ | ⟨h, hq⟩ |
    ⟨h, hq⟩ | ⟨h, hq⟩ | ⟨h, hq⟩ | ⟨h, hq⟩ | ⟨h32, h34, h92, hq⟩
  · rw [hq]
    refine ⟨StrBody.esc _ _ (by decide) hrest, ?_⟩
    simp only [List.cons_append, List.nil_append]
    rw [unquote_esc _ _ (by decide), ← hch, h]
    rfl
  · rw [hq]
    refine ⟨StrBody.esc _ _ (by decide) hrest, ?_⟩
    simp only [List.cons_append, List.nil_append]
    rw [unquote_esc _ _ (by decide), ← hch, h]
    rfl
  · rw [hq]
    refine ⟨StrBody.esc _ _ (by decide) hrest, ?_⟩
    simp only [List.cons_append, List.nil_append]
    rw [unquote_esc _ _ (by decide), ← hch, h]
    rfl
  · rw [hq]
    refine ⟨StrBody.esc _ _ (by decide) hrest, ?_⟩
    simp only [List.cons_append, List.nil_append]
    rw [unquote_esc _ _ (by decide), ← hch, h]
    rfl
  · rw [hq]
    refine ⟨StrBody.esc _ _ (by decide) hrest, ?_⟩
    simp only [List.cons_append, List.nil_append]
    rw [unquote_esc _ _ (by decide), ← hch, h]
    rfl
  · rw [hq]
    refine ⟨StrBody.esc _ _ (by decide) hrest, ?_⟩
    simp only [List.cons_append, List.nil_append]
    rw [unquote_esc _ _ (by decide), ← hch, h]
    rfl
  · rw [hq]
    refine ⟨StrBody.esc _ _ (by decide) hrest, ?_⟩
    simp only [List.cons_append, List.nil_append]
    rw [unquote_esc _ _ (by decide), ← hch, h]
    rfl
  · rw [hq]
    have hx1 := isHex_hexDigit (ch.toNat / 16) (by omega)
    have hx2 := isHex_hexDigit (ch.toNat % 16) (by omega)
    have hv1 := hexVal_hexDigit (ch.toNat / 16) (by omega)
    have hv2 := hexVal_hexDigit (ch.toNat % 16) (by omega)
    have h4 : hex4 48 48 (hexDigit (ch.toNat / 16)) (hexDigit (ch.toNat % 16)) = ch.toNat := by
      simp only [hex4, hv1, hv2, show hexVal 48 = 0 from by decide]
      omega
    have hhex : (isHex 48 && isHex 48 && isHex (hexDigit (ch.toNat / 16)) &&
        isHex (hexDigit (ch.toNat % 16))) = true := by
      rw [hx1, hx2]
      decide
    refine ⟨StrBody.uni _ _ _ _ _ hhex hrest, ?_⟩
    simp only [List.cons_append, List.nil_append]
    rw [unquote_uni _ _ _ _ _ (by omega), h4, hch]
  · rw [hq]
    refine ⟨StrBody.uni _ _ _ _ _ (by decide) hrest, ?_⟩
    simp only [List.cons_append, List.nil_append]
    rw [unquote_uni _ _ _ _ _ (by decide), ← hch, h]
    rfl
  · rw [hq]
    refine ⟨StrBody.uni _ _ _ _ _ (by decide) hrest, ?_⟩
    simp only [List.cons_append, List.nil_append]
    rw [unquote_uni _ _ _ _ _ (by decide), ← hch, h]
    rfl
  · rw [hq]
    have hdec := decodeRune_utf8 ch rest
    have hplain : ∀ b : UInt8, 32 ≤ b.toNat → b.toNat ≠ 34 → b.toNat ≠ 92 →
        b ≠ 34 ∧ b ≠ 92 ∧ ¬ b < 32 := by
      intro b h1 h2 h3
      simp only [u8_lt, u8_eq, ne_eq, UInt8.toNat_ofNat, UInt8.size]
      omega
    rcases utf8_bytes ch with ⟨h1, b0, he, h0⟩ | ⟨h1, h2, b0, b1, he, h0, h1b⟩ |
      ⟨h1, h2, b0, b1, b2, he, h0, h1b, h2b⟩ | ⟨h1, b0, b1, b2, b3, he, h0, h1b, h2b, h3b⟩
    · rw [he] at hdec ⊢
      have p0 := hplain b0 (by omega) (by omega) (by omega)
      refine ⟨StrBody.plain _ _ p0.1 p0.2.1 p0.2.2 hrest, ?_⟩
      simp only [List.cons_append, List.nil_append] at hdec ⊢
      rw [unquote_plain _ _ p0.2.1, hdec, hch]
      rfl
    · rw [he] at hdec ⊢
      have p0 := hplain b0 (by omega) (by omega) (by omega)
      have p1 := hplain b1 (by omega) (by omega) (by omega)
      refine ⟨StrBody.plain _ _ p0.1 p0.2.1 p0.2.2
        (StrBody.plain _ _ p1.1 p1.2.1 p1.2.2 hrest), ?_⟩
      simp only [List.cons_append, List.nil_append] at hdec ⊢
      rw [unquote_plain _ _ p0.2.1, hdec, hch]
      exact congrArg _ (unquote_skip_append [b1] rest)
    · rw [he] at hdec ⊢
      have p0 := hplain b0 (by omega) (by omega) (by omega)
      have p1 := hplain b1 (by omega) (by omega) (by omega)
      have p2 := hplain b2 (by omega) (by omega) (by omega)
      refine ⟨StrBody.plain _ _ p0.1 p0.2.1 p0.2.2
        (StrBody.plain _ _ p1.1 p1.2.1 p1.2.2
          (StrBody.plain _ _ p2.1 p2.2.1 p2.2.2 hrest)), ?_⟩
      simp only [List.cons_append, List.nil_append] at hdec ⊢
      rw [unquote_plain _ _ p0.2.1, hdec, hch]
      exact congrArg _ (unquote_skip_append [b1, b2] rest)
    · rw [he] at hdec ⊢
      have p0 := hplain b0 (by omega) (by omega) (by omega)
      have p1 := hplain b1 (by omega) (by omega) (by omega)
      have p2 := hplain b2 (by omega) (by omega) (by omega)
      have p3 := hplain b3 (by omega) (by omega) (by omega)
      refine ⟨StrBody.plain _ _ p0.1 p0.2.1 p0.2.2
        (StrBody.plain _ _ p1.1 p1.2.1 p1.2.2
          (StrBody.plain _ _ p2.1 p2.2.1 p2.2.2
            (StrBody.plain _ _ p3.1 p3.2.1 p3.2.2 hrest))), ?_⟩
      simp only [List.cons_append, List.nil_append] at hdec ⊢
      rw [unquote_plain _ _ p0.2.1, hdec, hch]
      exact congrArg _ (unquote_skip_append [b1, b2, b3] rest)

theorem quote_body (l : List Char) :
    StrBody (l.flatMap quoteChar) ∧ unquote 0 (l.flatMap quoteChar) = l := by
  induction l with
  | nil => exact ⟨StrBody.nil, rfl⟩
  | cons ch l ih =>
    have := quoteChar_spec ch _ ih.1
    simp only [List.flatMap_cons]
    exact ⟨this.1, by rw [this.2, ih.2]⟩

/-! ### Decimal numbers -/

theorem digit_byte : ∀ k, k < 10 →
    isDigit (48 + k).toUInt8 = true ∧ (48 + k).toUInt8.toNat - 48 = k ∧
      (48 + k).toUInt8.toNat = 48 + k := by
  decide

theorem digit_mod (n : Nat) :
    isDigit (48 + n % 10).toUInt8 = true ∧ (48 + n % 10).toUInt8.toNat - 48 = n % 10 ∧
      (48 + n % 10).toUInt8.toNat = 48 + n % 10 :=
  digit_byte (n % 10) (Nat.mod_lt _ (by decide))

theorem digitsVal_single (acc : Nat) (c : UInt8) (hc : isDigit c = true) :
    digitsVal acc [c] = some (acc * 10 + (c.toNat - 48)) := by
  simp [digitsVal, hc]

theorem digitsVal_cons (acc : Nat) (c d : UInt8) (r : Bytes) (hc : isDigit c = true) :
    digitsVal acc (c :: d :: r) = digitsVal (acc * 10 + (c.toNat - 48)) (d :: r) := by
  simp [digitsVal, hc]

theorem digitsVal_snoc (c : UInt8) (hc : isDigit c = true) :
    ∀ (l : Bytes) (acc v : Nat), digitsVal acc l = some v →
      digitsVal acc (l ++ [c]) = some (v * 10 + (c.toNat - 48)) := by
  intro l
  induction l with
  | nil => intro acc v h; simp [digitsVal] at h
  | cons a l ih =>
    intro acc v h
    cases l with
    | nil =>
      by_cases ha : isDigit a = true
      · rw [digitsVal_single _ _ ha] at h
        simp only [List.cons_append, List.nil_append]
        rw [digitsVal_cons _ _ _ _ ha, digitsVal_single _ _ hc]
        simp only [Option.some.injEq] at h
        rw [h]
      · simp [digitsVal, ha] at h
    | cons b r =>
      by_cases ha : isDigit a = true
      · rw [digitsVal_cons _ _ _ _ ha] at h
        simp only [List.cons_append]
        rw [digitsVal_cons _ _ _ _ ha]
        exact ih _ _ h
      · simp [digitsVal, ha] at h

theorem digitsVal_exists : ∀ (l : Bytes) (acc : Nat), l ≠ [] → (∀ c ∈ l, isDigit c = true) →
    ∃ v, digitsVal acc l = some v := by
  intro l
  induction l with
  | nil => intro acc h; exact absurd rfl h
  | cons a l ih =>
    intro acc _ hd
    have ha : isDigit a = true := hd a (List.mem_cons_self _ _)
    cases l with
    | nil => exact ⟨_, digitsVal_single _ _ ha⟩
    | cons b r =>
      rw [digitsVal_cons _ _ _ _ ha]
      exact ih _ (by simp) (fun c hc => hd c (List.mem_cons_of_mem _ hc))

theorem digitsVal_zeros (k : Nat) : ∀ (l : Bytes) (v : Nat), digitsVal 0 l = some v →
    digitsVal 0 (l ++ List.replicate k 48) = some (v * 10 ^ k) := by
  induction k with
  | zero => intro l v h; simpa using h
  | succ k ih =>
    intro l v h
    have h1 := digitsVal_snoc 48 (by decide) l 0 v h
    have h2 := ih (l ++ [48]) _ h1
    rw [List.replicate_succ, ← List.singleton_append, ← List.append_assoc, h2]
    simp only [Option.some.injEq]
    have : (48 : UInt8).toNat - 48 = 0 := by decide
    rw [this, pow_succ]
    ring

theorem padded_length (w n : Nat) : (padded w n).length = w := by
  induction w generalizing n with
  | zero => rfl
  | succ w ih => simp [padded, ih]

theorem padded_digits (w n : Nat) : ∀ c ∈ padded w n, isDigit c = true := by
  induction w generalizing n with
  | zero => intro c hc; simp [padded] at hc
  | succ w ih =>
    intro c hc
    simp only [padded, List.mem_append, List.mem_singleton] at hc
    rcases hc with hc | hc
    · exact ih _ c hc
    · rw [hc]; exact (digit_mod n).1

theorem padded_val (w n : Nat) : digitsVal 0 (padded (w + 1) n) = some (n % 10 ^ (w + 1)) := by
  induction w generalizing n with
  | zero =>
    simp only [padded, List.nil_append]
    rw [digitsVal_single _ _ (digit_mod n).1, (digit_mod n).2.1]
    simp
  | succ w ih =>
    rw [padded, digitsVal_snoc _ (digit_mod n).1 _ _ _ (ih (n / 10)), (digit_mod n).2.1]
    simp only [Option.some.injEq]
    rw [pow_succ (10 : Nat) (w + 1), Nat.mul_comm (10 ^ (w + 1)) 10, Nat.mod_mul]
    ring

theorem padded_two (n : Nat) :
    padded 2 n = [(48 + n / 10 % 10).toUInt8, (48 + n % 10).toUInt8] := by
  simp [padded]

theorem padded_four (n : Nat) :
    padded 4 n = [(48 + n / 10 / 10 / 10 % 10).toUInt8, (48 + n / 10 / 10 % 10).toUInt8,
      (48 + n / 10 % 10).toUInt8, (48 + n % 10).toUInt8] := by
  simp [padded]

/-- The digits `natDigits` writes stand for the number, and start with `0`
only for the number zero. -/
theorem natDigits_spec : ∀ (fuel n : Nat), n < fuel →
    digitsVal 0 (natDigits fuel n) = some n ∧ (∀ c ∈ natDigits fuel n, isDigit c = true) ∧
      ∃ c r, natDigits fuel n = c :: r ∧ isDigit c = true ∧ (c = 48 → r = []) := by
  intro fuel
  induction fuel with
  | zero => intro n h; omega
  | succ fuel ih =>
    intro n hn
    by_cases h10 : n < 10
    · have hd := digit_byte n h10
      have he : natDigits (fuel + 1) n = [(48 + n).toUInt8] := by simp [natDigits, h10]
      rw [he]
      refine ⟨?_, ?_, _, _, rfl, hd.1, fun _ => rfl⟩
      · rw [digitsVal_single _ _ hd.1, hd.2.1]; simp
      · intro c hc
        simp only [List.mem_singleton] at hc
        rw [hc]; exact hd.1
    · have he : natDigits (fuel + 1) n = natDigits fuel (n / 10) ++ [(48 + n % 10).toUInt8] := by
        simp [natDigits, h10]
      obtain ⟨hv, hall, c, r, hcr, hcd, hc0⟩ := ih (n / 10) (by omega)
      rw [he]
      refine ⟨?_, ?_, c, r ++ [(48 + n % 10).toUInt8], by rw [hcr]; rfl, hcd, ?_⟩
      · rw [digitsVal_snoc _ (digit_mod n).1 _ _ _ hv, (digit_mod n).2.1]
        simp only [Option.some.injEq]
        omega
      · intro x hx
        simp only [List.mem_append, List.mem_singleton] at hx
        rcases hx with hx | hx
        · exact hall x hx
        · rw [hx]; exact (digit_mod n).1
      · intro hc48
        exfalso
        have hr := hc0 hc48
        rw [hcr, hr, hc48, digitsVal_single _ _ (by decide)] at hv
        simp only [Option.some.injEq] at hv
        have : (48 : UInt8).toNat - 48 = 0 := by decide
        omega

theorem scanFrac_delim {t : Bytes} (ht : Delim t) : scanFrac t = some t := by
  cases t with
  | nil => rfl
  | cons c r =>
    have h := ht c r rfl
    unfold scanFrac
    simp only [h.2.1, ↓reduceIte]
    exact scanExp_delim ht

theorem scanNumber_digits {ds : Bytes} (hall : ∀ c ∈ ds, isDigit c = true) {c : UInt8}
    {r : Bytes} (hcr : ds = c :: r) (hc0 : c = 48 → r = [])
    {t : Bytes} (ht : Delim t) : scanFrac (if c = 48 then r ++ t else skipDigits (r ++ t)) = some t := by
  by_cases h0 : c = 48
  · simp only [h0, ↓reduceIte, hc0 h0, List.nil_append]
    exact scanFrac_delim ht
  · simp only [h0, ↓reduceIte]
    rw [skipDigits_append (fun x hx => hall x (by rw [hcr]; exact List.mem_cons_of_mem _ hx))
      ht.notDigit]
    exact scanFrac_delim ht

theorem digits_scanNumber {ds : Bytes} (hall : ∀ c ∈ ds, isDigit c = true) {c : UInt8}
    {r : Bytes} (hcr : ds = c :: r) (hc : isDigit c = true) (hc0 : c = 48 → r = [])
    {t : Bytes} (ht : Delim t) (neg : Bool) :
    scanNumber ((if neg then 45 :: ds else ds) ++ t) = some t := by
  have hne : c ≠ 45 := by
    intro h; rw [h] at hc; revert hc; decide
  have key := scanNumber_digits hall hcr hc0 ht
  have hrange : c ≠ 48 → (49 ≤ c && c ≤ 57) = true := by
    intro h0
    simp only [isDigit, Bool.and_eq_true, decide_eq_true_eq, u8_le, u8_eq, ne_eq] at hc h0 ⊢
    simp only [UInt8.toNat_ofNat, UInt8.size] at hc h0 ⊢
    omega
  subst hcr
  cases neg
  · simp only [Bool.false_eq_true, ↓reduceIte, List.cons_append]
    unfold scanNumber
    simp only [hne, ↓reduceIte]
    by_cases h0 : c = 48
    · simp only [h0, ↓reduceIte] at key ⊢
      exact key
    · simp only [h0, ↓reduceIte, hrange h0] at key ⊢
      exact key
  · simp only [↓reduceIte, List.cons_append]
    unfold scanNumber
    simp only [↓reduceIte]
    by_cases h0 : c = 48
    · simp only [h0, ↓reduceIte] at key ⊢
      exact key
    · simp only [h0, ↓reduceIte, hrange h0] at key ⊢
      exact key

theorem intBytes_eq (i : Int) :
    intBytes i = if i < 0 then 45 :: natDigits (i.natAbs + 1) i.natAbs
      else natDigits (i.natAbs + 1) i.natAbs := rfl

theorem intBytes_isNum (i : Int) : IsNum (intBytes i) := by
  obtain ⟨-, hall, c, r, hcr, hc, hc0⟩ := natDigits_spec (i.natAbs + 1) i.natAbs (by omega)
  rw [intBytes_eq]
  refine ⟨?_, ?_, ?_⟩
  · intro x hx
    by_cases hi : i < 0
    · simp only [hi, ↓reduceIte, List.mem_cons] at hx
      rcases hx with hx | hx
      · rw [hx]; decide
      · exact numChar_of_digit (hall x hx)
    · simp only [hi, ↓reduceIte] at hx
      exact numChar_of_digit (hall x hx)
  · by_cases hi : i < 0
    · simp only [hi, ↓reduceIte]
      exact ⟨_, _, rfl, Or.inl rfl⟩
    · simp only [hi, ↓reduceIte]
      exact ⟨c, r, hcr, Or.inr hc⟩
  · intro t ht
    have := digits_scanNumber hall hcr hc hc0 ht (decide (i < 0))
    simpa using this

theorem parseInt_intBytes (i : Int) (hlo : -9223372036854775808 ≤ i)
    (hhi : i ≤ 9223372036854775807) : parseInt (intBytes i) = some i := by
  obtain ⟨hv, -, c, r, hcr, hc, -⟩ := natDigits_spec (i.natAbs + 1) i.natAbs (by omega)
  have hne : c ≠ 45 := by
    intro h; rw [h] at hc; revert hc; decide
  rw [intBytes_eq]
  by_cases hi : i < 0
  · simp only [hi, ↓reduceIte]
    unfold parseInt
    simp only [List.head?_cons, ↓reduceIte, List.drop_succ_cons, List.drop_zero, hv]
    have : -((i.natAbs : Nat) : Int) = i := by omega
    simp only [this, decide_eq_true_eq, Bool.and_eq_true, hlo, hhi, and_self, ↓reduceIte]
  · simp only [hi, ↓reduceIte]
    unfold parseInt
    rw [hcr] at hv ⊢
    simp only [List.head?_cons, Option.some.injEq, hne, ↓reduceIte, hv]
    have : ((i.natAbs : Nat) : Int) = i := by omega
    simp only [this, decide_eq_true_eq, Bool.and_eq_true, hlo, hhi, and_self, ↓reduceIte]

/-! ### Times -/

theorem strBody_of_plain : ∀ l : Bytes, (∀ c ∈ l, c ≠ 34 ∧ c ≠ 92 ∧ ¬ c < 32) → StrBody l := by
  intro l
  induction l with
  | nil => intro _; exact StrBody.nil
  | cons a l ih =>
    intro h
    have ha := h a (List.mem_cons_self _ _)
    exact StrBody.plain a l ha.1 ha.2.1 ha.2.2 (ih (fun c hc => h c (List.mem_cons_of_mem _ hc)))

theorem digit_plain {c : UInt8} (h : isDigit c = true) : c ≠ 34 ∧ c ≠ 92 ∧ ¬ c < 32 := by
  simp only [isDigit, Bool.and_eq_true, decide_eq_true_eq, u8_le, u8_eq, u8_lt, ne_eq] at h ⊢
  simp only [UInt8.toNat_ofNat, UInt8.size] at h ⊢
  omega

theorem takeDigits_append {ds : Bytes} (hds : ∀ c ∈ ds, isDigit c = true) {t : Bytes}
    (ht : ∀ c r, t = c :: r → isDigit c = false) : takeDigits (ds ++ t) = ds := by
  induction ds with
  | nil =>
    cases t with
    | nil => rfl
    | cons c r => simp [takeDigits, ht c r rfl]
  | cons a ds ih =>
    simp only [List.cons_append, takeDigits, hds a (List.mem_cons_self _ _), ↓reduceIte]
    exact congrArg _ (ih (fun c hc => hds c (List.mem_cons_of_mem _ hc)))

theorem trimZeros_spec (b : Bytes) :
    ∃ k, b = trimZeros b ++ List.replicate k 48 ∧ ∀ c ∈ trimZeros b, c ∈ b := by
  have h := List.takeWhile_append_dropWhile (fun c : UInt8 => decide (c = 48)) b.reverse
  obtain ⟨k, hk⟩ : ∃ k, b.reverse.takeWhile (fun c : UInt8 => decide (c = 48))
      = List.replicate k 48 := by
    refine ⟨_, List.eq_replicate_iff.2 ⟨rfl, ?_⟩⟩
    intro x hx
    have := List.mem_takeWhile_imp hx
    simpa using this
  rw [hk] at h
  refine ⟨k, ?_, ?_⟩
  · have h2 := congrArg List.reverse h
    rw [List.reverse_append, List.reverse_reverse, List.reverse_replicate] at h2
    exact h2.symm
  · intro c hc
    unfold trimZeros at hc
    rw [List.mem_reverse] at hc
    have := (List.dropWhile_sublist _).subset hc
    simpa using this

theorem nanos_trim (n : Nat) (h0 : n ≠ 0) (h9 : n < 1000000000) :
    trimZeros (padded 9 n) ≠ [] ∧ (∀ c ∈ trimZeros (padded 9 n), isDigit c = true) ∧
      nanos (trimZeros (padded 9 n)) = n := by
  obtain ⟨k, hk, hsub⟩ := trimZeros_spec (padded 9 n)
  have hlen := congrArg List.length hk
  rw [padded_length, List.length_append, List.length_replicate] at hlen
  have hdig : ∀ c ∈ trimZeros (padded 9 n), isDigit c = true :=
    fun c hc => padded_digits 9 n c (hsub c hc)
  have hval : digitsVal 0 (padded 9 n) = some n := by
    rw [padded_val 8 n]
    simp only [Option.some.injEq]
    exact Nat.mod_eq_of_lt (by norm_num; exact h9)
  have hne : trimZeros (padded 9 n) ≠ [] := by
    intro he
    rw [he] at hk hlen
    simp only [List.length_nil, Nat.zero_add] at hlen
    rw [hk, ← hlen] at hval
    simp only [List.nil_append] at hval
    have : digitsVal 0 (List.replicate 9 48) = some 0 := by decide
    rw [this] at hval
    simp only [Option.some.injEq] at hval
    exact h0 hval.symm
  refine ⟨hne, hdig, ?_⟩
  obtain ⟨v, hv⟩ := digitsVal_exists _ 0 hne hdig
  have hz := digitsVal_zeros k _ v hv
  rw [← hk, hval] at hz
  simp only [Option.some.injEq] at hz
  unfold nanos
  rw [List.take_of_length_le (by omega)]
  simp only [hv]
  have : 9 - (trimZeros (padded 9 n)).length = k := by omega
  rw [this, hz]

theorem two_digits (n : Nat) (h : n < 100) :
    digitsVal 0 [(48 + n / 10 % 10).toUInt8, (48 + n % 10).toUInt8] = some n := by
  rw [← padded_two, padded_val 1 n]
  simp only [Option.some.injEq]
  exact Nat.mod_eq_of_lt (by norm_num; exact h)

theorem four_digits (n : Nat) (h : n < 10000) :
    digitsVal 0 [(48 + n / 10 / 10 / 10 % 10).toUInt8, (48 + n / 10 / 10 % 10).toUInt8,
      (48 + n / 10 % 10).toUInt8, (48 + n % 10).toUInt8] = some n := by
  rw [← padded_four, padded_val 3 n]
  simp only [Option.some.injEq]
  exact Nat.mod_eq_of_lt (by norm_num; exact h)

theorem zoneBytes_cases (o : Int) :
    (o = 0 ∧ zoneBytes o = [90]) ∨
    (o < 0 ∧ zoneBytes o = [45, (48 + o.natAbs / 60 / 10 % 10).toUInt8,
      (48 + o.natAbs / 60 % 10).toUInt8, 58, (48 + o.natAbs % 60 / 10 % 10).toUInt8,
      (48 + o.natAbs % 60 % 10).toUInt8]) ∨
    (0 < o ∧ zoneBytes o = [43, (48 + o.natAbs / 60 / 10 % 10).toUInt8,
      (48 + o.natAbs / 60 % 10).toUInt8, 58, (48 + o.natAbs % 60 / 10 % 10).toUInt8,
      (48 + o.natAbs % 60 % 10).toUInt8]) := by
  unfold zoneBytes
  by_cases h0 : o = 0
  · exact Or.inl ⟨h0, by simp [h0]⟩
  · by_cases hn : o < 0
    · exact Or.inr (Or.inl ⟨hn, by simp [h0, hn, padded_two]⟩)
    · exact Or.inr (Or.inr ⟨by omega, by simp [h0, hn, padded_two]⟩)

theorem parseZone_zoneBytes (o : Int) (h : offsetTooBig o = false) :
    parseZone (zoneBytes o) = some o := by
  have hh : o.natAbs / 60 < 24 := by
    simpa [offsetTooBig] using h
  have hm : o.natAbs % 60 < 100 := by omega
  rcases zoneBytes_cases o with ⟨h0, hz⟩ | ⟨hn, hz⟩ | ⟨hp, hz⟩
  · rw [hz, h0]; rfl
  · rw [hz]
    unfold parseZone
    simp only [two_digits _ (show o.natAbs / 60 < 100 by omega), two_digits _ hm]
    have hc : (decide (o.natAbs / 60 ≤ 23) && decide (o.natAbs % 60 ≤ 59)) = true := by
      simp only [Bool.and_eq_true, decide_eq_true_eq]; omega
    simp [hc]
    rw [abs_of_neg hn]
    omega
  · rw [hz]
    unfold parseZone
    simp only [two_digits _ (show o.natAbs / 60 < 100 by omega), two_digits _ hm]
    have hc : (decide (o.natAbs / 60 ≤ 23) && decide (o.natAbs % 60 ≤ 59)) = true := by
      simp only [Bool.and_eq_true, decide_eq_true_eq]; omega
    simp [hc]
    rw [abs_of_pos hp]
    omega

theorem zoneBytes_head (o : Int) :
    ∃ z zr, zoneBytes o = z :: zr ∧ z ≠ 46 ∧ isDigit z = false ∧
      ∀ c ∈ zoneBytes o, c ≠ 34 ∧ c ≠ 92 ∧ ¬ c < 32 := by
  have hd : ∀ n : Nat, (48 + n % 10).toUInt8 ≠ 34 ∧ (48 + n % 10).toUInt8 ≠ 92 ∧
      ¬ (48 + n % 10).toUInt8 < 32 := fun n => digit_plain (digit_mod n).1
  rcases zoneBytes_cases o with ⟨-, hz⟩ | ⟨-, hz⟩ | ⟨-, hz⟩
  · rw [hz]
    refine ⟨_, _, rfl, by decide, by decide, ?_⟩
    intro c hc
    simp only [List.mem_singleton] at hc
    rw [hc]; decide
  · rw [hz]
    refine ⟨_, _, rfl, by decide, by decide, ?_⟩
    intro c hc
    simp only [List.mem_cons, List.mem_singleton, List.not_mem_nil, or_false] at hc
    rcases hc with h | h | h | h | h | h <;> rw [h] <;> first | exact hd _ | decide
  · rw [hz]
    refine ⟨_, _, rfl, by decide, by decide, ?_⟩
    intro c hc
    simp only [List.mem_cons, List.mem_singleton, List.not_mem_nil, or_false] at hc
    rcases hc with h | h | h | h | h | h <;> rw [h] <;> first | exact hd _ | decide

theorem timeJSON_facts (t : Time) (x : Bytes) (h : timeJSON t = .ok x) :
    isCalendar t = true ∧ 0 ≤ t.year ∧ t.year ≤ 9999 ∧ offsetTooBig t.offset = false ∧
      x = 34 :: ((padded 4 t.year.natAbs ++ 45 :: padded 2 t.month ++ 45 :: padded 2 t.day
      ++ 84 :: padded 2 t.hour ++ 58 :: padded 2 t.minute ++ 58 :: padded 2 t.second
      ++ fracBytes t.nsec ++ zoneBytes t.offset) ++ [34]) := by
  unfold timeJSON at h
  split_ifs at h with h1 h2 h3
  simp only [Except.ok.injEq] at h
  simp only [Bool.not_eq_true, Bool.not_eq_false', Bool.or_eq_true, decide_eq_true_eq,
    not_or, not_lt] at h1 h2 h3
  refine ⟨h1, by omega, by omega, h3, ?_⟩
  rw [← h]

theorem hasFrac_zone (o : Int) : hasFrac (zoneBytes o) = false := by
  rcases zoneBytes_cases o with ⟨-, hz⟩ | ⟨-, hz⟩ | ⟨-, hz⟩ <;> rw [hz] <;> rfl

theorem parseTime_fields (y mo d h mi s : Nat) (rest : Bytes) (hy : y < 10000)
    (hmo : 1 ≤ mo ∧ mo ≤ 12) (hd : 1 ≤ d ∧ d ≤ daysIn mo (y : Int)) (hh : h < 24) (hmi : mi < 60)
    (hs : s < 60) :
    parseTime (padded 4 y ++ 45 :: padded 2 mo ++ 45 :: padded 2 d
      ++ 84 :: padded 2 h ++ 58 :: padded 2 mi ++ 58 :: padded 2 s ++ rest)
    = match parseZone (if hasFrac rest then skipDigits (rest.drop 1) else rest) with
      | none => none
      | some offset =>
        some { year := (y : Int), month := mo, day := d, hour := h, minute := mi, second := s,
               nsec := if hasFrac rest then nanos (takeDigits (rest.drop 1)) else 0,
               offset := offset } := by
  have hdm : d < 100 := by
    have : daysIn mo (y : Int) ≤ 31 := by unfold daysIn; split_ifs <;> omega
    omega
  simp only [padded_two, padded_four, List.cons_append, List.nil_append, List.append_assoc]
  unfold parseTime
  simp only [four_digits y hy, two_digits mo (by omega), two_digits d hdm,
    two_digits h (by omega), two_digits mi (by omega), two_digits s (by omega)]
  have hc : (decide (1 ≤ mo) && decide (mo ≤ 12) && decide (1 ≤ d)
      && decide (d ≤ daysIn mo (y : Int)) && decide (h ≤ 23) && decide (mi ≤ 59)
      && decide (s ≤ 59)) = true := by
    simp only [Bool.and_eq_true, decide_eq_true_eq]
    omega
  simp only [decide_True, Bool.true_and, hc, ↓reduceIte]
  rfl

theorem fracBytes_plain (n : Nat) : ∀ c ∈ fracBytes n, c ≠ 34 ∧ c ≠ 92 ∧ ¬ c < 32 := by
  intro c hc
  unfold fracBytes at hc
  split_ifs at hc with h0
  · simp at hc
  · simp only [List.mem_cons] at hc
    rcases hc with hc | hc
    · rw [hc]; decide
    · obtain ⟨k, -, hsub⟩ := trimZeros_spec (padded 9 n)
      exact digit_plain (padded_digits 9 n c (hsub c hc))

theorem padded_plain (w n : Nat) : ∀ c ∈ padded w n, c ≠ 34 ∧ c ≠ 92 ∧ ¬ c < 32 :=
  fun c hc => digit_plain (padded_digits w n c hc)

theorem frac_zone (n : Nat) (o : Int) (h9 : n < 1000000000) (ho : offsetTooBig o = false) :
    parseZone (if hasFrac (fracBytes n ++ zoneBytes o)
        then skipDigits ((fracBytes n ++ zoneBytes o).drop 1)
        else fracBytes n ++ zoneBytes o) = some o ∧
    (if hasFrac (fracBytes n ++ zoneBytes o)
        then nanos (takeDigits ((fracBytes n ++ zoneBytes o).drop 1)) else 0) = n := by
  obtain ⟨z, zr, hz, -, hzd, -⟩ := zoneBytes_head o
  have hzone := parseZone_zoneBytes o ho
  by_cases h0 : n = 0
  · have hf : fracBytes n = [] := by simp [fracBytes, h0]
    rw [hf, List.nil_append]
    rw [hasFrac_zone o]
    simp only [Bool.false_eq_true, ↓reduceIte, hzone, true_and]
    exact h0.symm
  · obtain ⟨hne, hdig, hnan⟩ := nanos_trim n h0 h9
    have hf : fracBytes n = 46 :: trimZeros (padded 9 n) := by simp [fracBytes, h0]
    rw [hf]
    cases htr : trimZeros (padded 9 n) with
    | nil => exact absurd htr hne
    | cons d tr =>
      rw [htr] at hdig hnan
      have hd : isDigit d = true := hdig d (List.mem_cons_self _ _)
      have hnd : ∀ c r, zoneBytes o = c :: r → isDigit c = false := by
        intro c r hcr
        rw [hz] at hcr
        cases hcr
        exact hzd
      have hfr : hasFrac (46 :: d :: tr ++ zoneBytes o) = true := by
        simp only [List.cons_append, hasFrac, hd]
      rw [hfr]
      simp only [List.cons_append, ↓reduceIte, List.drop_succ_cons, List.drop_zero]
      have e1 : d :: (tr ++ zoneBytes o) = (d :: tr) ++ zoneBytes o := rfl
      rw [e1, skipDigits_append hdig hnd, takeDigits_append hdig hnd]
      exact ⟨hzone, hnan⟩

/-- A time that `MarshalJSON` accepts is written as a string literal from which
`parseStrictRFC3339` reads the same time. -/
theorem timeJSON_ok (t : Time) (x : Bytes) (h : timeJSON t = .ok x) :
    ∃ tb, x = 34 :: (tb ++ [34]) ∧ StrBody tb ∧ parseTime tb = some t := by
  obtain ⟨hcal, hy0, hy1, hoff, hx⟩ := timeJSON_facts t x h
  refine ⟨_, hx, ?_, ?_⟩
  · apply strBody_of_plain
    obtain ⟨-, -, -, -, -, hzp⟩ := zoneBytes_head t.offset
    have hf := fracBytes_plain t.nsec
    have hp := padded_plain
    simp only [List.forall_mem_append, List.forall_mem_cons]
    repeat' apply And.intro
    all_goals first
      | exact hp _ _
      | exact hf
      | exact hzp
      | decide
  · simp only [isCalendar, Bool.and_eq_true, decide_eq_true_eq] at hcal
    obtain ⟨⟨⟨⟨⟨⟨⟨hm1, hm2⟩, hd1⟩, hd2⟩, hh⟩, hmi⟩, hs⟩, hn⟩ := hcal
    have hyc : ((t.year.natAbs : Nat) : Int) = t.year := by omega
    rw [List.append_assoc _ (fracBytes t.nsec) (zoneBytes t.offset)]
    rw [parseTime_fields t.year.natAbs t.month t.day t.hour t.minute t.second _ (by omega)
      ⟨hm1, hm2⟩ ⟨hd1, by rw [hyc]; exact hd2⟩ hh hmi hs]
    obtain ⟨hz, hns⟩ := frac_zone t.nsec t.offset hn hoff
    simp only [hz, hns, hyc]

/-! ### Payloads -/

theorem allSpace_of_skipSpace {r : Bytes} (h : skipSpace r = []) : AllSpace r := by
  obtain ⟨ws, hws, hr, -⟩ := skipSpace_split r
  rw [h, List.append_nil] at hr
  rw [hr]; exact hws

theorem compact_allSpace {r : Bytes} (h : AllSpace r) : compact 0 false false r = [] := by
  have := compact_space h []
  rw [List.append_nil] at this
  rw [this]; rfl

theorem valid_good {d : Bytes} (h : valid d = true) :
    ∃ ws p r, d = ws ++ (p ++ r) ∧ AllSpace ws ∧ Good .value p ∧ AllSpace r := by
  unfold valid at h
  obtain ⟨ws, hws, hd, -⟩ := skipSpace_split d
  cases ha : afterValue (skipSpace d) with
  | none => rw [ha] at h; simp at h
  | some r =>
    rw [ha] at h
    simp only [List.isEmpty_iff] at h
    obtain ⟨p, hp, hg⟩ := scan_good _ _ _ _ ha
    refine ⟨ws, p, r, ?_, hws, hg, allSpace_of_skipSpace h⟩
    rw [← hp]; exact hd

theorem indent_nil (d : Nat) (n s e : Bool) : indent d n s e [] = [] := by
  unfold indent; rfl

/-- The layout `Indent` gives a value does not depend on what follows it. -/
theorem value_indent {x : Bytes} (hx : Good .value x) (d : Nat) :
    Good .value (indent d false false false x) ∧
      ∀ t, indent d false false false (x ++ t)
        = indent d false false false x ++ indent d false false false t := by
  obtain ⟨ip, hg, hi⟩ := good_indent hx d
  have h0 := hi []
  rw [List.append_nil, indent_nil, List.append_nil] at h0
  rw [h0]
  exact ⟨hg, fun t => hi t⟩

/-- What `RawMessage.MarshalJSON` and the encoder make of a payload is a JSON
value: `null` for a nil payload, else the payload without its white space. -/
theorem rawJSON_ok (d x : Bytes) (h : rawJSON d = .ok x) :
    Good .value x ∧
      x = if d.isEmpty then [110, 117, 108, 108] else compact 0 false false d := by
  unfold rawJSON at h
  by_cases he : d.isEmpty = true
  · simp only [he, ↓reduceIte, Except.ok.injEq] at h ⊢
    rw [← h]
    exact ⟨Good.litNull, rfl⟩
  · simp only [he, Bool.false_eq_true, ↓reduceIte] at h ⊢
    by_cases hv : valid d = true
    · simp only [hv, ↓reduceIte, Except.ok.injEq] at h
      refine ⟨?_, h.symm⟩
      obtain ⟨ws, p, r, hd, hws, hg, hr⟩ := valid_good hv
      obtain ⟨cp, hcg, hc⟩ := good_compact hg
      rw [← h, hd, compact_space hws, hc r, compact_allSpace hr, List.append_nil]
      exact hcg
    · simp [hv] at h

theorem take_front (v t : Bytes) : (v ++ t).take ((v ++ t).length - t.length) = v := by
  simp

/-- The decoder finds a value followed by a delimiter as it was written. -/
theorem rawValue_good {v : Bytes} (hv : Good .value v) {t : Bytes} (ht : Delim t) :
    rawValue (v ++ t) = (v, t) := by
  unfold rawValue afterValue
  rw [good_scan hv t _ (fun _ => ht) (by simp; omega)]
  simp

theorem good_string {c : Bytes} (hc : StrBody c) (t : Bytes) :
    rawValue (34 :: (c ++ 34 :: t)) = (34 :: (c ++ [34]), t) := by
  unfold rawValue afterValue
  rw [scan_value]
  simp only [show (34 : UInt8) ≠ 123 from by decide, show (34 : UInt8) ≠ 91 from by decide,
    ↓reduceIte, scanString_of_body hc t]
  have : (34 :: (c ++ 34 :: t)) = (34 :: (c ++ [34])) ++ t := by simp
  rw [this, take_front]

/-! ### One entry -/

theorem strBody_keyTimestamp : StrBody keyTimestamp := strBody_of_plain _ (by decide)
theorem strBody_keyType : StrBody keyType := strBody_of_plain _ (by decide)
theorem strBody_keyData : StrBody keyData := strBody_of_plain _ (by decide)
theorem strBody_keyHtml : StrBody keyHtml := strBody_of_plain _ (by decide)
theorem strBody_keyMessages : StrBody keyMessages := strBody_of_plain _ (by decide)

theorem entryText_append (tb n d qb t u : Bytes) :
    entryText tb n d qb t ++ u = entryText tb n d qb (t ++ u) := by
  simp [entryText]

/-- The shape of what `Marshal` writes for an entry. -/
theorem marshalMessage_shape (m : HistoryMessage) (e : Bytes) (h : marshalMessage m = .ok e) :
    ∃ tb d, StrBody tb ∧ parseTime tb = some m.Timestamp ∧ rawJSON m.Data = .ok d ∧
      e = entryText tb (intBytes m.Typ) d (m.HTML.data.flatMap quoteChar) [] := by
  unfold marshalMessage at h
  cases ht : timeJSON m.Timestamp with
  | error x => rw [ht] at h; simp at h
  | ok tx =>
    cases hd : rawJSON m.Data with
    | error x => rw [ht, hd] at h; simp at h
    | ok d =>
      rw [ht, hd] at h
      simp only [Except.ok.injEq] at h
      obtain ⟨tb, htx, hsb, hpt⟩ := timeJSON_ok _ _ ht
      refine ⟨tb, d, hsb, hpt, rfl, ?_⟩
      rw [← h, htx]
      have k1 : utf8 "\x7b\"timestamp\":" = 123 :: 34 :: (keyTimestamp ++ [34, 58]) := by decide
      have k2 : utf8 ",\"type\":" = 44 :: 34 :: (keyType ++ [34, 58]) := by decide
      have k3 : utf8 ",\"data\":" = 44 :: 34 :: (keyData ++ [34, 58]) := by decide
      have k4 : utf8 ",\"html\":" = 44 :: 34 :: (keyHtml ++ [34, 58]) := by decide
      rw [k1, k2, k3, k4]
      simp [entryText, quote]

theorem indent_member {k : Bytes} (hk : StrBody k) (d : Nat) (r : Bytes) :
    indent d false false false (34 :: (k ++ 34 :: 58 :: r))
      = 34 :: (k ++ 34 :: 58 :: 32 :: indent d false false false r) := by
  rw [indent_quote, indent_string hk, indent_colon]

theorem indent_text {c : Bytes} (hc : StrBody c) (d : Nat) (r : Bytes) :
    indent d false false false (34 :: (c ++ 34 :: r))
      = 34 :: (c ++ 34 :: indent d false false false r) := by
  rw [indent_quote, indent_string hc]

/-- How `Indent` lays out an entry of the array `messages`. -/
theorem indent_entry {tb n d qb : Bytes} (htb : StrBody tb) (hn : ∀ c ∈ n, numChar c = true)
    (hd : Good .value d) (hqb : StrBody qb) (t : Bytes) :
    indent 2 false false false (entryText tb n d qb t)
      = entryLayout tb n (indent 3 false false false d) qb (indent 2 false false false t) := by
  unfold entryText entryLayout
  rw [indent_open _ _ _ (Or.inl rfl),
    indent_need _ 34 _ (by decide) (by decide) (by decide),
    indent_member strBody_keyTimestamp, indent_text htb, indent_comma,
    indent_member strBody_keyType, indent_number hn, indent_comma,
    indent_member strBody_keyData, (value_indent hd 3).2, indent_comma,
    indent_member strBody_keyHtml, indent_text hqb,
    indent_close 3 125 _ (Or.inl rfl)]

/-- What `Marshal` writes for an entry is a JSON value. -/
theorem entry_good {tb n d qb : Bytes} (htb : StrBody tb) (hn : IsNum n)
    (hd : Good .value d) (hqb : StrBody qb) : Good .value (entryText tb n d qb []) := by
  have h4 := Good.memberLast keyHtml [] [] _ [] strBody_keyHtml allSpace_nil allSpace_nil
    (Good.str qb hqb) allSpace_nil
  have h3 := Good.memberMore keyData [] [] d [] [] _ strBody_keyData allSpace_nil allSpace_nil
    hd allSpace_nil allSpace_nil h4
  have h2 := Good.memberMore keyType [] [] n [] [] _ strBody_keyType allSpace_nil allSpace_nil
    (Good.num n hn) allSpace_nil allSpace_nil h3
  have h1 := Good.memberMore keyTimestamp [] [] _ [] [] _ strBody_keyTimestamp allSpace_nil
    allSpace_nil (Good.str tb htb) allSpace_nil allSpace_nil h2
  have h0 := Good.obj [] _ allSpace_nil h1
  simpa [entryText] using h0

/-! ### Decoding one entry -/

theorem delim_comma (r : Bytes) : Delim (44 :: r) :=
  delim_space_append allSpace_nil 44 r (Or.inl rfl)

theorem inner_literal (k : Bytes) : inner (34 :: (k ++ [34])) = k := by
  simp [inner]

theorem skipSpace_colon (vr : Bytes) (hvr : skipSpace vr = vr) :
    skipSpace ((skipSpace (58 :: 32 :: vr)).drop 1) = vr := by
  rw [skipSpace_of_head (by decide)]
  simp only [List.drop_succ_cons, List.drop_zero]
  rw [skipSpace]
  simp only [show isSpace 32 = true from by decide, ↓reduceIte]
  exact hvr

theorem key_take (k r : Bytes) :
    (34 :: (k ++ 34 :: r)).take ((34 :: (k ++ 34 :: r)).length - r.length) = 34 :: (k ++ [34]) := by
  have : (34 :: (k ++ 34 :: r)) = (34 :: (k ++ [34])) ++ r := by simp
  rw [this, take_front]

theorem decodeFields_more {k : Bytes} (hk : StrBody k) (fuel : Nat) (m m1 : HistoryMessage)
    (vr r4 : Bytes) (hvr : skipSpace vr = vr)
    (hf : decodeField (fieldOf (unquote 0 k)) m vr .ok = (m1, 44 :: r4, .ok)) :
    decodeFields (fuel + 1) m (34 :: (k ++ 34 :: 58 :: 32 :: vr)) .ok
      = decodeFields fuel m1 (skipSpace r4) .ok := by
  rw [decodeFields]
  simp only [List.drop_succ_cons, List.drop_zero, scanString_of_body hk, key_take, inner_literal,
    skipSpace_colon vr hvr, hf, skipSpace_of_head (show isSpace 44 = false from by decide),
    ↓reduceIte]

theorem decodeFields_last {k : Bytes} (hk : StrBody k) (fuel : Nat) (m m1 : HistoryMessage)
    (vr r3 r4 : Bytes) (hvr : skipSpace vr = vr)
    (hf : decodeField (fieldOf (unquote 0 k)) m vr .ok = (m1, r3, .ok))
    (hr : skipSpace r3 = 125 :: r4) :
    decodeFields (fuel + 1) m (34 :: (k ++ 34 :: 58 :: 32 :: vr)) .ok = (m1, r4, .ok) := by
  rw [decodeFields]
  simp only [List.drop_succ_cons, List.drop_zero, scanString_of_body hk, key_take, inner_literal,
    skipSpace_colon vr hvr, hf, hr, show (125 : UInt8) ≠ 44 from by decide, ↓reduceIte]

theorem decodeField_timestamp {tb : Bytes} (htb : StrBody tb) (ts : Time)
    (hp : parseTime tb = some ts) (old : HistoryMessage) (rest : Bytes) :
    decodeField .timestamp old (34 :: (tb ++ 34 :: rest)) .ok
      = ({ old with Timestamp := ts }, rest, .ok) := by
  unfold decodeField
  simp only [good_string htb, inner_literal, hp, List.head?_cons]
  simp

theorem decodeField_type {n : Bytes} (hn : IsNum n) (i : Int) (hp : parseInt n = some i)
    (old : HistoryMessage) (t : Bytes) (ht : Delim t) :
    decodeField .type old (n ++ t) .ok = ({ old with Typ := i }, t, .ok) := by
  obtain ⟨c, r, hcr, hc⟩ := hn.2.1
  have h110 : c ≠ 110 := by
    rcases hc with hc | hc
    · rw [hc]; decide
    · intro h; rw [h] at hc; revert hc; decide
  have hcond : (decide (c = 45) || isDigit c) = true := by
    rcases hc with hc | hc
    · simp [hc]
    · simp [hc]
  unfold decodeField
  simp only [rawValue_good (Good.num n hn) ht, hp]
  subst hcr
  simp [h110, hcond]

theorem decodeField_data {x : Bytes} (hx : Good .value x) (old : HistoryMessage) (t : Bytes)
    (ht : Delim t) : decodeField .data old (x ++ t) .ok = ({ old with Data := x }, t, .ok) := by
  unfold decodeField
  simp only [rawValue_good hx ht]

theorem decodeField_html {qb : Bytes} (hqb : StrBody qb) (old : HistoryMessage) (rest : Bytes) :
    decodeField .html old (34 :: (qb ++ 34 :: rest)) .ok
      = ({ old with HTML := String.mk (unquote 0 qb) }, rest, .ok) := by
  unfold decodeField
  simp only [good_string hqb, inner_literal, List.head?_cons]
  simp

theorem field_timestamp : fieldOf (unquote 0 keyTimestamp) = .timestamp := by decide
theorem field_type : fieldOf (unquote 0 keyType) = .type := by decide
theorem field_data : fieldOf (unquote 0 keyData) = .data := by decide
theorem field_html : fieldOf (unquote 0 keyHtml) = .html := by decide

theorem skipSpace_quote (r : Bytes) : skipSpace (34 :: r) = 34 :: r :=
  skipSpace_of_head (by decide)

theorem decode_members {tb n x qb : Bytes} (htb : StrBody tb) (ts : Time)
    (hts : parseTime tb = some ts) (hn : IsNum n) (i : Int) (hi : parseInt n = some i)
    (hx : Good .value x) (hqb : StrBody qb) (old : HistoryMessage) (t : Bytes) (fuel : Nat)
    (hfuel : 4 ≤ fuel) :
    decodeFields fuel old (34 :: (keyTimestamp ++ 34 :: 58 :: 32 :: 34 :: (tb ++ 34 :: 44 ::
      (newline 3 ++ 34 :: (keyType ++ 34 :: 58 :: 32 :: (n ++ 44 ::
        (newline 3 ++ 34 :: (keyData ++ 34 :: 58 :: 32 :: (x ++ 44 ::
          (newline 3 ++ 34 :: (keyHtml ++ 34 :: 58 :: 32 :: 34 :: (qb ++ 34 ::
            (newline 2 ++ 125 :: t))))))))))))) .ok
      = (⟨ts, i, x, String.mk (unquote 0 qb)⟩, t, .ok) := by
  obtain ⟨xc, xr, hxr, hxs, -⟩ := Good.head hx
  obtain ⟨nc, nr, hnr, hns, -⟩ := Good.head (Good.num n hn)
  obtain ⟨f, rfl⟩ : ∃ f, fuel = f + 1 + 1 + 1 + 1 := ⟨fuel - 4, by omega⟩
  rw [decodeFields_more strBody_keyTimestamp _ old _ _ _ (skipSpace_quote _)
    (by rw [field_timestamp]; exact decodeField_timestamp htb ts hts old _)]
  rw [skipSpace_ws_cons (allSpace_newline 3) 34 _ (by decide)]
  rw [decodeFields_more strBody_keyType _ _ _ _ _
    (by rw [hnr]; exact skipSpace_of_head hns)
    (by rw [field_type]; exact decodeField_type hn i hi _ _ (delim_comma _))]
  rw [skipSpace_ws_cons (allSpace_newline 3) 34 _ (by decide)]
  rw [decodeFields_more strBody_keyData _ _ _ _ _
    (by rw [hxr]; exact skipSpace_of_head hxs)
    (by rw [field_data]; exact decodeField_data hx _ _ (delim_comma _))]
  rw [skipSpace_ws_cons (allSpace_newline 3) 34 _ (by decide)]
  rw [decodeFields_last strBody_keyHtml _ _ _ _ _ t (skipSpace_quote _)
    (by rw [field_html]; exact decodeField_html hqb _ _)
    (skipSpace_ws_cons (allSpace_newline 2) 125 _ (by decide))]

/-- The decoder reads an entry of the snapshot file back: the time, the kind
and the rendered form as they were written, the payload as it is laid out. -/
theorem decode_entry {tb n x qb : Bytes} (htb : StrBody tb) (ts : Time)
    (hts : parseTime tb = some ts) (hn : IsNum n) (i : Int) (hi : parseInt n = some i)
    (hx : Good .value x) (hqb : StrBody qb) (old : HistoryMessage) (t : Bytes) :
    decodeMessage old (entryLayout tb n x qb t) .ok
      = (⟨ts, i, x, String.mk (unquote 0 qb)⟩, t, .ok) := by
  unfold decodeMessage entryLayout
  simp only [skipSpace_ws_cons (allSpace_newline 3) 34 _ (show isSpace 34 = false from by decide)]
  apply decode_members htb ts hts hn i hi hx hqb
  simp only [List.length_cons, List.length_append]
  omega

/-! ### The entries of a snapshot -/

theorem entryLayout_head (tb n x qb t : Bytes) :
    ∃ r, entryLayout tb n x qb t = 123 :: r ∧ t.length < (entryLayout tb n x qb t).length := by
  refine ⟨_, rfl, ?_⟩
  simp only [entryLayout, List.length_cons, List.length_append]
  omega

/-- One entry, from `Marshal` through `Indent` to the decoder. -/
theorem entry_round (m : HistoryMessage) (e : Bytes) (h : marshalMessage m = .ok e)
    (hlo : -9223372036854775808 ≤ m.Typ) (hhi : m.Typ ≤ 9223372036854775807) :
    ∃ E : Bytes → Bytes, Good .value e ∧
      (∀ t, indent 2 false false false (e ++ t) = E (indent 2 false false false t)) ∧
      (∀ old t, decodeMessage old (E t) .ok = (relaid m, t, .ok)) ∧
      (∀ t, ∃ r, E t = 123 :: r ∧ t.length < (E t).length) := by
  obtain ⟨tb, d, htb, hpt, hraw, he⟩ := marshalMessage_shape m e h
  obtain ⟨hgd, hdx⟩ := rawJSON_ok _ _ hraw
  obtain ⟨hqb, hqu⟩ := quote_body m.HTML.data
  have hnum := intBytes_isNum m.Typ
  refine ⟨fun t => entryLayout tb (intBytes m.Typ) (indent 3 false false false d)
    (m.HTML.data.flatMap quoteChar) t, ?_, ?_, ?_, ?_⟩
  · rw [he]; exact entry_good htb hnum hgd hqb
  · intro t
    rw [he, entryText_append, List.nil_append]
    exact indent_entry htb hnum.1 hgd hqb t
  · intro old t
    show decodeMessage old (entryLayout _ _ _ _ t) .ok = _
    rw [decode_entry htb m.Timestamp hpt hnum m.Typ (parseInt_intBytes _ hlo hhi)
      (value_indent hgd 3).1 hqb old t, hqu]
    have hx : indent 3 false false false d = laidOut m.Data := by
      rw [hdx]
      unfold laidOut
      by_cases hem : m.Data.isEmpty = true
      · simp only [hem, ↓reduceIte]; decide
      · simp only [hem, Bool.false_eq_true, ↓reduceIte]
    rw [hx]
    rfl
  · intro t
    exact entryLayout_head _ _ _ _ t

theorem marshalMessages_single (m : HistoryMessage) (b : Bytes)
    (h : marshalMessages [m] = .ok b) : marshalMessage m = .ok b := by
  unfold marshalMessages at h
  cases hm : marshalMessage m with
  | error x => rw [hm] at h; simp at h
  | ok e =>
    rw [hm] at h
    simp only [marshalMessages] at h
    rw [← h]

theorem marshalMessages_cons (m m2 : HistoryMessage) (ms : List HistoryMessage) (b : Bytes)
    (h : marshalMessages (m :: m2 :: ms) = .ok b) :
    ∃ e bs, marshalMessage m = .ok e ∧ marshalMessages (m2 :: ms) = .ok bs ∧
      b = e ++ 44 :: bs := by
  rw [marshalMessages] at h
  cases hm : marshalMessage m with
  | error x => rw [hm] at h; simp at h
  | ok e =>
    cases hms : marshalMessages (m2 :: ms) with
    | error x => rw [hm, hms] at h; simp at h
    | ok bs =>
      rw [hm, hms] at h
      simp only [Except.ok.injEq] at h
      exact ⟨e, bs, rfl, rfl, h.symm⟩

theorem decodeElems_more (fuel : Nat) (old done : List HistoryMessage) (b r : Bytes)
    (m : HistoryMessage) (hm : decodeMessage (old.headD zeroMessage) b .ok = (m, 44 :: r, .ok)) :
    decodeElems (fuel + 1) old done b .ok
      = decodeElems fuel old.tail (done ++ [m]) (skipSpace r) .ok := by
  rw [decodeElems]
  simp only [hm, skipSpace_of_head (show isSpace 44 = false from by decide), ↓reduceIte]

theorem decodeElems_last (fuel : Nat) (old done : List HistoryMessage) (b r r1 : Bytes)
    (m : HistoryMessage) (hm : decodeMessage (old.headD zeroMessage) b .ok = (m, r, .ok))
    (hr : skipSpace r = 93 :: r1) :
    decodeElems (fuel + 1) old done b .ok = (done ++ [m], r1, .ok) := by
  rw [decodeElems]
  simp only [hm, hr, show (93 : UInt8) ≠ 44 from by decide, ↓reduceIte]

/-- The entries of a snapshot, from `Marshal` through `Indent` to the decoder. -/
theorem elems_round : ∀ (ms : List HistoryMessage) (b : Bytes), ms ≠ [] →
    marshalMessages ms = .ok b →
    (∀ m ∈ ms, -9223372036854775808 ≤ m.Typ ∧ m.Typ ≤ 9223372036854775807) →
    ∃ L : Bytes → Bytes, Good .elems (b ++ [93]) ∧
      (∀ t, indent 2 false false false (b ++ 93 :: t)
        = L (newline 1 ++ 93 :: indent 1 false false false t)) ∧
      (∀ fuel old done t, ms.length ≤ fuel →
        decodeElems fuel old done (L (newline 1 ++ 93 :: t)) .ok
          = (done ++ ms.map relaid, t, .ok)) ∧
      (∀ t, ∃ r, L t = 123 :: r ∧ ms.length + t.length ≤ (L t).length) := by
  intro ms
  induction ms with
  | nil => intro b h; exact absurd rfl h
  | cons m ms ih =>
    intro b _ hb hk
    have hkm := hk m (List.mem_cons_self _ _)
    cases ms with
    | nil =>
      obtain ⟨E, hg, hi, hd, hh⟩ := entry_round m b (marshalMessages_single m b hb) hkm.1 hkm.2
      refine ⟨E, ?_, ?_, ?_, ?_⟩
      · have := Good.elemLast b [] hg allSpace_nil
        simpa using this
      · intro t
        rw [hi, indent_close 2 93 _ (Or.inr rfl)]
      · intro fuel old done t hfuel
        obtain ⟨f, rfl⟩ : ∃ f, fuel = f + 1 := ⟨fuel - 1, by simp at hfuel; omega⟩
        rw [decodeElems_last f old done _ _ t (relaid m) (hd _ _)
          (skipSpace_ws_cons (allSpace_newline 1) 93 _ (by decide))]
        rfl
      · intro t
        obtain ⟨r, hr, hl⟩ := hh t
        exact ⟨r, hr, by simp; omega⟩
    | cons m2 ms =>
      obtain ⟨e, bs, hme, hms, hbe⟩ := marshalMessages_cons m m2 ms b hb
      obtain ⟨E, hg, hi, hd, hh⟩ := entry_round m e hme hkm.1 hkm.2
      obtain ⟨L, hgl, hil, hdl, hhl⟩ := ih bs (by simp) hms
        (fun x hx => hk x (List.mem_cons_of_mem _ hx))
      refine ⟨fun t => E (44 :: (newline 2 ++ L t)), ?_, ?_, ?_, ?_⟩
      · have := Good.elemMore e [] [] _ hg allSpace_nil allSpace_nil hgl
        rw [hbe]
        simpa using this
      · intro t
        rw [hbe, List.append_assoc, hi, List.cons_append, indent_comma, hil]
      · intro fuel old done t hfuel
        obtain ⟨f, rfl⟩ : ∃ f, fuel = f + 1 := ⟨fuel - 1, by simp at hfuel; omega⟩
        show decodeElems (f + 1) old done (E (44 :: (newline 2 ++ L (newline 1 ++ 93 :: t)))) .ok = _
        rw [decodeElems_more f old done _ _ (relaid m) (hd _ _)]
        obtain ⟨r, hr, -⟩ := hhl (newline 1 ++ 93 :: t)
        have hsk : skipSpace (newline 2 ++ L (newline 1 ++ 93 :: t)) = L (newline 1 ++ 93 :: t) := by
          rw [hr]
          exact skipSpace_ws_cons (allSpace_newline 2) 123 _ (by decide)
        rw [hsk, hdl f old.tail (done ++ [relaid m]) t (by simp at hfuel ⊢; omega)]
        simp
      · intro t
        obtain ⟨r, hr, hl⟩ := hh (44 :: (newline 2 ++ L t))
        obtain ⟨r2, hr2, hl2⟩ := hhl t
        refine ⟨r, hr, ?_⟩
        simp only [List.length_cons, List.length_append] at hl hl2 ⊢
        omega

/-! ### The snapshot file -/

theorem valid_of_good {v : Bytes} (h : Good .value v) : valid v = true := by
  obtain ⟨c, r, hcr, hs, -⟩ := Good.head h
  unfold valid afterValue
  have hsk : skipSpace v = v := by rw [hcr]; exact skipSpace_of_head hs
  rw [hsk]
  have := good_scan h [] (v.length + 1) (fun _ => delim_nil) (by omega)
  rw [List.append_nil] at this
  rw [this]
  rfl

theorem fold_messages : foldKey (unquote 0 keyMessages) = "MESSAGES".data := by decide

theorem decodeTop_messages (fuel : Nat) (msgs msgs1 : List HistoryMessage) (vr r3 r4 : Bytes)
    (hvr : skipSpace vr = vr) (hd : decodeMessages msgs vr .ok = (msgs1, r3, .ok))
    (hr : skipSpace r3 = 125 :: r4) :
    decodeTop (fuel + 1) msgs (34 :: (keyMessages ++ 34 :: 58 :: 32 :: vr)) .ok
      = (msgs1, .ok) := by
  rw [decodeTop]
  simp only [List.drop_succ_cons, List.drop_zero, scanString_of_body strBody_keyMessages,
    key_take, inner_literal, skipSpace_colon vr hvr, fold_messages, ↓reduceIte, hd, hr,
    show (125 : UInt8) ≠ 44 from by decide]

theorem decodeMessages_elems (old : List HistoryMessage) (ws r : Bytes) (hws : AllSpace ws) :
    decodeMessages old (91 :: (ws ++ 123 :: r)) .ok
      = decodeElems ((91 :: (ws ++ 123 :: r)).length + 1) old [] (123 :: r) .ok := by
  unfold decodeMessages
  simp only [skipSpace_ws_cons hws 123 _ (show isSpace 123 = false from by decide)]
  rfl

theorem marshal_empty :
    Unmarshal (indent 0 false false false (utf8 "\x7b\"messages\":[" ++ [] ++ [93, 125])) []
      = ([], none) := by
  decide

/-- The decoder reads back what `MarshalIndent` wrote: the entries in their
order, each with its payload as it is laid out. -/
theorem unmarshal_marshalIndent (ms : List HistoryMessage) (data : Bytes)
    (h : MarshalIndent ms = .ok data)
    (hk : ∀ m ∈ ms, -9223372036854775808 ≤ m.Typ ∧ m.Typ ≤ 9223372036854775807) :
    data ≠ [] ∧ Unmarshal data [] = (ms.map relaid, none) := by
  unfold MarshalIndent Marshal at h
  cases hmm : marshalMessages ms with
  | error x => rw [hmm] at h; simp at h
  | ok b =>
    rw [hmm] at h
    simp only [Except.ok.injEq] at h
    by_cases hnil : ms = []
    · subst hnil
      simp only [marshalMessages, Except.ok.injEq] at hmm
      subst hmm
      rw [← h]
      exact ⟨by decide, marshal_empty⟩
    · obtain ⟨L, hg, hi, hd, hh⟩ := elems_round ms b hnil hmm hk
      have k0 : utf8 "\x7b\"messages\":[" = 123 :: 34 :: (keyMessages ++ [34, 58, 91]) := by
        decide
      have hb0 : utf8 "\x7b\"messages\":[" ++ b ++ [93, 125]
          = 123 :: 34 :: (keyMessages ++ 34 :: 58 :: 91 :: (b ++ 93 :: [125])) := by
        rw [k0]; simp
      have hgood : Good .value (123 :: 34 :: (keyMessages ++ 34 :: 58 :: 91 :: (b ++ 93 :: [125]))) := by
        have h1 := Good.arr [] _ allSpace_nil hg
        have h2 := Good.memberLast keyMessages [] [] _ [] strBody_keyMessages allSpace_nil
          allSpace_nil h1 allSpace_nil
        have h3 := Good.obj [] _ allSpace_nil h2
        simpa using h3
      obtain ⟨c, r, hcr, hcs, hc1, hc2, -⟩ := Good.head hg
      have hbr : b ++ 93 :: [125] = c :: (r ++ [125]) := by
        have : b ++ 93 :: [125] = (b ++ [93]) ++ [125] := by simp
        rw [this, hcr]; rfl
      have hdata : data = 123 :: (newline 1 ++ 34 :: (keyMessages ++ 34 :: 58 :: 32 :: 91 ::
          (newline 2 ++ L (newline 1 ++ 93 :: (newline 0 ++ [125]))))) := by
        rw [← h, hb0, indent_open _ _ _ (Or.inl rfl),
          indent_need _ 34 _ (by decide) (by decide) (by decide),
          indent_member strBody_keyMessages, indent_open _ _ _ (Or.inr rfl), hbr,
          indent_need _ c _ hcs hc1 hc2, ← hbr, hi, indent_close 1 125 _ (Or.inl rfl), indent_nil]
      have hvalid : valid data = true := by
        rw [← h, hb0]
        exact valid_of_good (value_indent hgood 0).1
      refine ⟨by rw [hdata]; simp, ?_⟩
      obtain ⟨r0, hr0, hl0⟩ := hh (newline 1 ++ 93 :: (newline 0 ++ [125]))
      unfold Unmarshal
      simp only [hvalid, Bool.not_true, Bool.false_eq_true, ↓reduceIte]
      have hdec : ∀ fuel, decodeTop (fuel + 1) []
          (34 :: (keyMessages ++ 34 :: 58 :: 32 :: 91 ::
            (newline 2 ++ L (newline 1 ++ 93 :: (newline 0 ++ [125]))))) .ok
          = (ms.map relaid, .ok) := by
        intro fuel
        refine decodeTop_messages _ [] _ _ (newline 0 ++ [125]) [] (skipSpace_of_head (by decide))
          ?_ (skipSpace_ws_cons (allSpace_newline 0) 125 _ (by decide))
        rw [hr0, decodeMessages_elems _ _ _ (allSpace_newline 2), ← hr0]
        rw [hd _ [] [] (newline 0 ++ [125]) (by
            simp only [List.length_cons, List.length_append] at hl0 ⊢
            omega)]
        rfl
      rw [hdata]
      simp only [skipSpace_of_head (show isSpace 123 = false from by decide),
        skipSpace_ws_cons (allSpace_newline 1) 34 _ (show isSpace 34 = false from by decide)]
      split
      · rename_i heq
        simp at heq
      · rw [hdec]
        rfl

end GoJSON

/-! ## Save followed by Load -/

/-- When `Save` succeeds, `Load` into a fresh store over the same path is
handed exactly the bytes `MarshalIndent` produced for the entries, and what it
returns is what `Unmarshal` makes of them. -/
theorem saveThenLoad_unmarshal (json : JSON) (faults : Faults) (ch : ChatHistory) (fs : FS)
    (hsave : saveSucceeded (Save json faults ch fs) = true) :
    ∃ data, json.MarshalIndent ch.Messages = .ok data ∧
      saveThenLoad json faults ch fs = some
        (if data = [] then (emptyStore ch.filename, none)
         else ({ emptyStore ch.filename with Messages := (json.Unmarshal data []).1 },
           (json.Unmarshal data []).2.map (fun e => "error unmarshaling chat history: " ++ e))) := by
  have hw : ch.mutex.writer = false := by
    by_contra hne
    have : ch.mutex.RLock = none := by simp [RWMutex.RLock, hne]
    simp [Save, this, saveSucceeded] at hsave
  have hret := Save_ret json faults ch fs hw
  cases hm : json.MarshalIndent ch.Messages with
  | error e =>
    rw [hret] at hsave
    simp [hm, saveSucceeded] at hsave
  | ok data =>
    refine ⟨data, rfl, ?_⟩
    unfold saveThenLoad
    rw [hret] at hsave ⊢
    simp only [hm] at hsave ⊢
    cases hwf : faults.write with
    | some p => simp [hwf, saveSucceeded] at hsave
    | none =>
      cases hrf : faults.rename with
      | some e => simp [hwf, hrf, saveSucceeded] at hsave
      | none =>
        simp only
        rw [Load_emptyStore]
        have hread : (((fs.set (ch.filename ++ ".tmp") (some (.file data))).set ch.filename
            (some (.file data))).set (ch.filename ++ ".tmp") none) ch.filename
            = some (.file data) := by
          rw [FS.set_other _ _ _ _ (Ne.symm (tmp_ne ch.filename)), FS.set_same]
        simp only [hread]
        by_cases hd : data = [] <;> simp [hd]

/-- C5 (as stated, refuted): saving a store whose entry has the payload
`{"From":"bob","Message":"hi"}` and loading the snapshot into a fresh store
gives the entry back with the payload re-indented by `MarshalIndent`; timestamp,
kind and rendered form are the same, the payload bytes are not. -/
theorem Save_Load_changes_payload :
    saveThenLoad goJSON Faults.none bobStore noFiles
      = some (⟨[⟨clock 5, 1,
                utf8 ("\x7b\n        \"From\": \"bob\",\n"
                  ++ "        \"Message\": \"hi\"\n      \x7d"),
                "<span>bob: hi</span>"⟩], RWMutex.free, "chat_history.json"⟩, none) ∧
    ¬ (∃ ch, saveThenLoad goJSON Faults.none bobStore noFiles = some (ch, none) ∧
        ch.Messages = bobStore.Messages) := by
  have h : saveThenLoad goJSON Faults.none bobStore noFiles
      = some (⟨[⟨clock 5, 1,
                utf8 ("\x7b\n        \"From\": \"bob\",\n"
                  ++ "        \"Message\": \"hi\"\n      \x7d"),
                "<span>bob: hi</span>"⟩], RWMutex.free, "chat_history.json"⟩, none) := by
    decide!
  refine ⟨h, ?_⟩
  rintro ⟨ch, hch, hm⟩
  rw [h] at hch
  simp only [Option.some.injEq, Prod.mk.injEq, and_true] at hch
  rw [← hch] at hm
  revert hm
  decide

/-- C5 (amended): when `Save` succeeds on a store whose kinds are 64-bit
integers (as every Go `int` is), `Load` into a fresh store over the same path
returns without an error, and the loaded store holds the saved entries with
their payloads laid out again: as many entries, in the same order, each with
the timestamp, the kind and the rendered form it was saved with, and with its
payload as `MarshalIndent` wrote it, which is `null` for a nil payload and
else the payload without its white space, indented by `Indent` at the depth of
the members of an entry. -/
theorem Save_then_Load_relays_payload (faults : Faults) (ch : ChatHistory) (fs : FS)
    (hkind : ∀ m ∈ ch.Messages, -9223372036854775808 ≤ m.Typ ∧ m.Typ ≤ 9223372036854775807)
    (hsave : saveSucceeded (Save goJSON faults ch fs) = true) :
    ∃ loaded, saveThenLoad goJSON faults ch fs = some (loaded, none) ∧
      loaded = { emptyStore ch.filename with Messages := ch.Messages.map relaid } ∧
      loaded.Messages.length = ch.Messages.length ∧
      List.Forall₂ (fun a b => b.Timestamp = a.Timestamp ∧ b.Typ = a.Typ ∧ b.HTML = a.HTML ∧
        b.Data = laidOut a.Data) ch.Messages loaded.Messages := by
  obtain ⟨data, hdata, hload⟩ := saveThenLoad_unmarshal goJSON faults ch fs hsave
  obtain ⟨hne, hun⟩ := GoJSON.unmarshal_marshalIndent ch.Messages data hdata hkind
  have hun2 : goJSON.Unmarshal data [] = (ch.Messages.map relaid, none) := hun
  refine ⟨{ emptyStore ch.filename with Messages := ch.Messages.map relaid }, ?_, rfl, ?_, ?_⟩
  · rw [hload, hun2]
    simp only [hne, ↓reduceIte, Option.map_none']
  · simp
  · show List.Forall₂ _ ch.Messages (ch.Messages.map relaid)
    rw [List.forall₂_map_right_iff, List.forall₂_same]
    intro m _
    exact ⟨rfl, rfl, rfl, rfl⟩

/-- C5 (amended), on a store with two entries and no file: `Save` succeeds and
`Load` returns the two entries; the payload of the first comes back over three
lines, the nil payload of the second as `null`, everything else as it was. -/
theorem Save_then_Load_relays_payload_witness :
    (∀ m ∈ mixedStore.Messages, -9223372036854775808 ≤ m.Typ ∧ m.Typ ≤ 9223372036854775807) ∧
    saveSucceeded (Save goJSON Faults.none mixedStore noFiles) = true ∧
    ∃ loaded, saveThenLoad goJSON Faults.none mixedStore noFiles = some (loaded, none) ∧
      loaded.Messages
        = [⟨clock 5, 1,
            utf8 ("\x7b\n        \"From\": \"bob\",\n"
              ++ "        \"Message\": \"hi\"\n      \x7d"),
            "<span>bob: hi</span>"⟩,
          ⟨⟨2024, 2, 29, 23, 59, 58, 120000000, -330⟩, -3, utf8 "null", "a \"b\"\n"⟩] := by
  refine ⟨by decide, by decide!, ?_⟩
  obtain ⟨loaded, h1, h2, -, -⟩ :=
    Save_then_Load_relays_payload Faults.none mixedStore noFiles (by decide) (by decide!)
  refine ⟨loaded, h1, ?_⟩
  rw [h2]
  decide!

/-! ## Concrete runs -/

/-- C6, with an existing snapshot `[]` and a rename that fails: `Save` reports
an error and the snapshot still holds `[]`. -/
theorem Save_failure_keeps_snapshot_witness :
    ∃ fs1 e, Save goJSON ⟨none, some "invalid cross-device link"⟩ bobStore
        (oneFile "chat_history.json" (utf8 "\x7b\"messages\":[]\x7d"))
        = .ret (bobStore, fs1, some e) ∧
      fs1 "chat_history.json" = some (.file (utf8 "\x7b\"messages\":[]\x7d")) := by
  obtain ⟨fs1, err, hs, hiff, hkeep, -⟩ := (Save_failure_keeps_snapshot goJSON
    ⟨none, some "invalid cross-device link"⟩ bobStore
    (oneFile "chat_history.json" (utf8 "\x7b\"messages\":[]\x7d"))).2 rfl
  cases err with
  | none => simp at hiff
  | some e =>
    refine ⟨fs1, e, hs, ?_⟩
    rw [show ("chat_history.json" : String) = bobStore.filename from rfl, (hkeep (by simp)).1]
    decide

/-- C8, with the model of `encoding/json`: no file and an empty file give the
empty store, the one-byte file `{` gives an error, a snapshot with one entry
gives that entry. -/
theorem Load_fresh_store_witness :
    Load goJSON (emptyStore "chat_history.json") noFiles
      = .ret (emptyStore "chat_history.json", none) ∧
    Load goJSON (emptyStore "chat_history.json") (oneFile "chat_history.json" [])
      = .ret (emptyStore "chat_history.json", none) ∧
    Load goJSON (emptyStore "chat_history.json") (oneFile "chat_history.json" (utf8 "\x7b"))
      = .ret (emptyStore "chat_history.json",
          some "error unmarshaling chat history: invalid character or unexpected end of JSON input") ∧
    Load goJSON (emptyStore "chat_history.json")
        (oneFile "chat_history.json"
          (utf8 ("\x7b\"messages\":[\x7b\"timestamp\":\"2024-01-01T00:00:05Z\",\"type\":1,"
            ++ "\"data\":\"A\",\"html\":\"a\"\x7d]\x7d")))
      = .ret ({ emptyStore "chat_history.json" with
                Messages := [⟨clock 5, 1, utf8 "\"A\"", "a"⟩] }, none) :=
  ⟨(Load_fresh_store goJSON "chat_history.json" noFiles).1 rfl,
    (Load_fresh_store goJSON "chat_history.json" (oneFile "chat_history.json" [])).2.1 rfl,
    (Load_fresh_store goJSON "chat_history.json"
      (oneFile "chat_history.json" (utf8 "\x7b"))).2.2.2.1 _ _ _ rfl (by decide) (by decide!),
    (Load_fresh_store goJSON "chat_history.json" _).2.2.2.2 _ _ rfl (by decide) (by decide!)⟩

/-- C9, on the snapshot `badSnapshot`: `Load` returns the type error, yet
`NewChatHistory` hands the caller a store with the two entries of the failed
parse (the second one without its kind) and no error. -/
theorem NewChatHistory_drops_load_error_witness :
    Load goJSON (emptyStore "/srv/movienight/chat_history.json")
        (oneFile "/srv/movienight/chat_history.json" badSnapshot)
      = .ret ({ emptyStore "/srv/movienight/chat_history.json" with
                Messages := [⟨GoJSON.zeroMessage.Timestamp, 1, utf8 "\"A\"", "a"⟩,
                  ⟨GoJSON.zeroMessage.Timestamp, 0, utf8 "\"B\"", "b"⟩] },
          some ("error unmarshaling chat history: json: cannot unmarshal string into Go "
            ++ "struct field HistoryMessage.type")) ∧
    NewChatHistory sampleRunPath goJSON "" (oneFile "/srv/movienight/chat_history.json" badSnapshot)
      = .ret { emptyStore "/srv/movienight/chat_history.json" with
               Messages := [⟨GoJSON.zeroMessage.Timestamp, 1, utf8 "\"A\"", "a"⟩,
                 ⟨GoJSON.zeroMessage.Timestamp, 0, utf8 "\"B\"", "b"⟩] } :=
  NewChatHistory_drops_load_error sampleRunPath goJSON ""
    (oneFile "/srv/movienight/chat_history.json" badSnapshot) badSnapshot _ _
    (by decide) (by decide) (by decide!)

end MovieNight
